import Mathlib

/-!
Verification of the Thrill data-plane specification against the source.

This file gives a shallow embedding of the components the claims talk
about:

* the collective-communication primitives of
  `thrill/net/collective_communication.hpp` (`PrefixSum`,
  `AllReduceHypercube`), modelled as synchronous rounds acting on a
  rank-indexed family of values;
* the block-oriented data layer (`thrill/data/block_writer.hpp`,
  `thrill/data/file.hpp`, `c7a/data/block_reader.hpp`), modelled over
  byte lists, with the (absent) item serializer modelled from the
  specification as an abstract prefix-stable codec;
* the partitioned pre-reduce hash table of
  `c7a/core/reduce_pre_probing_table.hpp`;
* the channel sink of `c7a/data/channel_sink.hpp`.

Machine integers of the source are modelled as `Nat`; none of the
modelled routines rely on wrap-around.  All definitions are executable
so that theorems with hypotheses can be witnessed on concrete inputs.
-/

namespace Thrill

/-! ### Collective communication

`collective::PrefixSum` and `collective::AllReduceHypercube` are loops
of blocking sends/receives.  Every round `d = 1, 2, 4, ...` performs a
matched exchange: each rank sends the value it held at the beginning of
the round and then updates its state from the value its peer held at
the beginning of the round.  We therefore model one round as a function
on the whole rank-indexed state (ranks `>= num_hosts` are immaterial:
they are never read by the stated theorems, and their entries evolve
vacuously).  The doubling loop is modelled with an explicit fuel that
is always sufficient (`P <= 2 ^ P`), keeping the definitions
structurally recursive and hence computable by the kernel.
-/

variable {T : Type}

/-- State of `collective::PrefixSum` across all ranks: `to_forward`,
`value` and the `first` flag of each rank. -/
structure PSState (T : Type) where
  tf : Nat → T
  val : Nat → T
  first : Nat → Bool

/-- Initial prefix-sum state: `to_forward = value` is the rank's input,
`first = true` (lines 53-56 of `collective_communication.hpp`). -/
def psInit (v : Nat → T) : PSState T :=
  ⟨v, v, fun _ => true⟩

/-- One round of `collective::PrefixSum` with distance `d`
(`collective_communication.hpp` lines 60-86): rank `r` receives from
`r - d` when `d <= r`; `to_forward` becomes `op recv to_forward`;
`value` becomes `op recv value` unless this is the first reception of
an exclusive scan, in which case `value` becomes `recv` and the `first`
flag is cleared.  The received value is the peer's `to_forward` from
the start of the round (each rank sends before it receives). -/
def psRound (op : T → T → T) (inclusive : Bool) (d : Nat) (st : PSState T) : PSState T where
  tf := fun r => if d ≤ r then op (st.tf (r - d)) (st.tf r) else st.tf r
  val := fun r =>
    if d ≤ r then
      if !(st.first r) || inclusive then op (st.tf (r - d)) (st.val r)
      else st.tf (r - d)
    else st.val r
  first := fun r =>
    if d ≤ r then
      if !(st.first r) || inclusive then st.first r else false
    else st.first r

/-- The doubling loop `for (d = 1; d < P; d <<= 1)` of
`collective::PrefixSum`, with explicit fuel. -/
def psRunAux (op : T → T → T) (inclusive : Bool) (P : Nat) :
    Nat → Nat → PSState T → PSState T
  | 0, _, st => st
  | fuel + 1, d, st =>
    if d < P then psRunAux op inclusive P fuel (2 * d) (psRound op inclusive d st)
    else st

/-- `collective::PrefixSum` over `P` hosts on inputs `v`, returning the
final state of all ranks.  Fuel `P` always suffices since `P ≤ 2 ^ P`. -/
def prefixSum (op : T → T → T) (inclusive : Bool) (P : Nat) (v : Nat → T) : PSState T :=
  psRunAux op inclusive P P 1 (psInit v)

/-- One round of `collective::AllReduceHypercube` with dimension `d`
(`collective_communication.hpp` lines 292-311): rank `r` exchanges its
current value with rank `r ^^^ d` (guarded by `peer < P`) and then sets
`value = op value recv` — its own value always on the left. -/
def arhRound (op : T → T → T) (P d : Nat) (val : Nat → T) : Nat → T :=
  fun r => if r ^^^ d < P then op (val r) (val (r ^^^ d)) else val r

/-- The doubling loop of `collective::AllReduceHypercube`, with fuel. -/
def arhRunAux (op : T → T → T) (P : Nat) : Nat → Nat → (Nat → T) → (Nat → T)
  | 0, _, val => val
  | fuel + 1, d, val =>
    if d < P then arhRunAux op P fuel (2 * d) (arhRound op P d val)
    else val

/-- `collective::AllReduceHypercube` over `P` hosts on inputs `v`. -/
def allReduceHypercube (op : T → T → T) (P : Nat) (v : Nat → T) : Nat → T :=
  arhRunAux op P P 1 v

/-- Left fold of `op` over the segment `v lo, v (lo+1), ..., v (lo+len)`
(`len + 1` values).  `segF op v 0 r` is the claims' `fold(op, [v_0, ..., v_r])`. -/
def segF (op : T → T → T) (v : Nat → T) (lo len : Nat) : T :=
  ((List.range len).map fun i => v (lo + 1 + i)).foldl op (v lo)

theorem segF_zero (op : T → T → T) (v : Nat → T) (lo : Nat) :
    segF op v lo 0 = v lo := rfl

theorem segF_succ (op : T → T → T) (v : Nat → T) (lo len : Nat) :
    segF op v lo (len + 1) = op (segF op v lo len) (v (lo + 1 + len)) := by
  simp [segF, List.range_succ]

/-- With associativity, folding a value into an accumulated fold from
the left commutes with folding the list. -/
theorem foldl_op_assoc (op : T → T → T)
    (hassoc : ∀ a b c, op (op a b) c = op a (op b c)) (a b : T) (l : List T) :
    l.foldl op (op a b) = op a (l.foldl op b) := by
  induction l generalizing b with
  | nil => rfl
  | cons c l ih => simpa [List.foldl_cons, hassoc] using ih (op b c)

/-- Joining two adjacent segment folds (needs associativity). -/
theorem segF_join (op : T → T → T)
    (hassoc : ∀ a b c, op (op a b) c = op a (op b c)) (v : Nat → T) (lo a b : Nat) :
    op (segF op v lo a) (segF op v (lo + a + 1) b) = segF op v lo (a + 1 + b) := by
  induction b with
  | zero =>
    have h := segF_succ op v lo a
    have harg : lo + 1 + a = lo + a + 1 := by omega
    rw [harg] at h
    simpa [segF_zero] using h.symm
  | succ b ih =>
    have h1 : segF op v (lo + a + 1) (b + 1) =
        op (segF op v (lo + a + 1) b) (v (lo + a + 1 + 1 + b)) := segF_succ ..
    have h2 : segF op v lo (a + 1 + (b + 1)) =
        op (segF op v lo (a + 1 + b)) (v (lo + 1 + (a + 1 + b))) := by
      have := segF_succ op v lo (a + 1 + b)
      simpa [Nat.add_assoc, Nat.add_comm, Nat.add_left_comm] using this
    rw [h1, ← hassoc]
    have harg : lo + a + 1 + 1 + b = lo + 1 + (a + 1 + b) := by omega
    rw [ih, h2, harg]

/-! #### Prefix-sum invariants

`to_forward` of rank `r` after the rounds up to (but excluding)
distance `d` is the fold of the window `v (r+1-d) .. v r` (truncated
subtraction clips the window at rank 0).  The inclusive `value` evolves
exactly like `to_forward`; the exclusive `value` is one entry behind. -/

/-- Window invariant for `to_forward` at loop distance `d`. -/
def tfInvAt (op : T → T → T) (v : Nat → T) (d : Nat) (st : PSState T) : Prop :=
  ∀ r, st.tf r = segF op v (r + 1 - d) (r - (r + 1 - d))

/-- Window invariant for the exclusive `value` and `first` flag at loop
distance `d`. -/
def exInvAt (op : T → T → T) (v : Nat → T) (d : Nat) (st : PSState T) : Prop :=
  st.val 0 = v 0 ∧ st.first 0 = true ∧
  ∀ r, 1 ≤ r →
    (d = 1 → st.val r = v r ∧ st.first r = true) ∧
    (2 ≤ d → st.val r = segF op v (r + 1 - d) (r - 1 - (r + 1 - d)) ∧ st.first r = false)

theorem tfInvAt_init (op : T → T → T) (v : Nat → T) : tfInvAt op v 1 (psInit v) := by
  intro r
  show v r = segF op v (r + 1 - 1) (r - (r + 1 - 1))
  rw [show r + 1 - 1 = r from by omega, Nat.sub_self, segF_zero]

theorem exInvAt_init (op : T → T → T) (v : Nat → T) : exInvAt op v 1 (psInit v) := by
  refine ⟨rfl, rfl, fun r _ => ⟨fun _ => ⟨rfl, rfl⟩, fun h2 => by omega⟩⟩

theorem psRound_tf (op : T → T → T)
    (hassoc : ∀ a b c, op (op a b) c = op a (op b c))
    (v : Nat → T) (inclusive : Bool) (d : Nat) (st : PSState T)
    (hd : 1 ≤ d) (hinv : tfInvAt op v d st) :
    tfInvAt op v (2 * d) (psRound op inclusive d st) := by
  intro r
  show (if d ≤ r then op (st.tf (r - d)) (st.tf r) else st.tf r) = _
  by_cases h : d ≤ r
  · rw [if_pos h]
    have h1 := hinv (r - d)
    have h2 := hinv r
    rw [show r - d + 1 - d = r + 1 - 2 * d from by omega] at h1
    rw [h1, h2]
    have hj := segF_join op hassoc v (r + 1 - 2 * d)
      (r - d - (r + 1 - 2 * d)) (r - (r + 1 - d))
    rw [show r + 1 - 2 * d + (r - d - (r + 1 - 2 * d)) + 1 = r + 1 - d from by omega] at hj
    rw [hj]
    congr 1
    omega
  · rw [if_neg h]
    have h2 := hinv r
    rw [h2]
    congr 1 <;> omega

theorem psRound_incl_val (op : T → T → T) (v : Nat → T) (d : Nat) (st : PSState T)
    (hval : ∀ r, st.val r = st.tf r) :
    ∀ r, (psRound op true d st).val r = (psRound op true d st).tf r := by
  intro r
  simp [psRound, hval]

theorem psRound_excl (op : T → T → T)
    (hassoc : ∀ a b c, op (op a b) c = op a (op b c))
    (v : Nat → T) (d : Nat) (st : PSState T)
    (hd : 1 ≤ d) (htf : tfInvAt op v d st) (hex : exInvAt op v d st) :
    exInvAt op v (2 * d) (psRound op false d st) := by
  obtain ⟨h0, h0f, hr⟩ := hex
  refine ⟨?_, ?_, ?_⟩
  · show (if d ≤ 0 then _ else st.val 0) = v 0
    rw [if_neg (by omega), h0]
  · show (if d ≤ 0 then _ else st.first 0) = true
    rw [if_neg (by omega), h0f]
  · intro r hr1
    refine ⟨fun hcontra => absurd hcontra (by omega), fun _ => ?_⟩
    by_cases h : d ≤ r
    · rcases Nat.eq_or_lt_of_le hd with hd1 | hd2'
      · -- first round, d = 1: value := received = v (r - 1)
        obtain ⟨hv, hf⟩ := (hr r hr1).1 hd1.symm
        constructor
        · show (if d ≤ r then _ else st.val r) = _
          rw [if_pos h, hf]
          show st.tf (r - d) = _
          have h1 := htf (r - d)
          rw [h1]
          rw [show r - d + 1 - d = r + 1 - 2 * d from by omega]
          congr 1 <;> omega
        · show (if d ≤ r then _ else st.first r) = false
          rw [if_pos h, hf]
          simp
      · -- later rounds: value := op received value
        obtain ⟨hv, hf⟩ := (hr r hr1).2 (by omega)
        constructor
        · show (if d ≤ r then _ else st.val r) = _
          rw [if_pos h, hf]
          show op (st.tf (r - d)) (st.val r) = _
          have h1 := htf (r - d)
          rw [show r - d + 1 - d = r + 1 - 2 * d from by omega] at h1
          rw [h1, hv]
          have hj := segF_join op hassoc v (r + 1 - 2 * d)
            (r - d - (r + 1 - 2 * d)) (r - 1 - (r + 1 - d))
          rw [show r + 1 - 2 * d + (r - d - (r + 1 - 2 * d)) + 1 = r + 1 - d
            from by omega] at hj
          rw [hj]
          congr 1 <;> omega
        · show (if d ≤ r then _ else st.first r) = false
          rw [if_pos h, hf]
          simp
    · -- rank below d: untouched this round; here 2 ≤ d since r ≥ 1 and r < d
      have hd2 : 2 ≤ d := by omega
      obtain ⟨hv, hf⟩ := (hr r hr1).2 hd2
      constructor
      · show (if d ≤ r then _ else st.val r) = _
        rw [if_neg h, hv]
        congr 1 <;> omega
      · show (if d ≤ r then _ else st.first r) = false
        rw [if_neg h, hf]

/-- Exit property of the inclusive scan once `d ≥ P`. -/
theorem psRunAux_incl (op : T → T → T)
    (hassoc : ∀ a b c, op (op a b) c = op a (op b c))
    (v : Nat → T) (P : Nat) :
    ∀ fuel d st, 1 ≤ d → P ≤ 2 ^ fuel * d →
      tfInvAt op v d st → (∀ r, st.val r = st.tf r) →
      ∀ r, r < P → (psRunAux op true P fuel d st).val r = segF op v 0 r := by
  intro fuel
  induction fuel with
  | zero =>
    intro d st hd hfuel htf hval r hrP
    show st.val r = _
    rw [hval r, htf r]
    have h1 : 2 ^ 0 * d = d := by simp
    rw [h1] at hfuel
    congr 1 <;> omega
  | succ fuel ih =>
    intro d st hd hfuel htf hval r hrP
    simp only [psRunAux]
    by_cases h : d < P
    · rw [if_pos h]
      refine ih (2 * d) _ (by omega)
        (by rw [pow_succ, Nat.mul_assoc] at hfuel; exact hfuel)
        (psRound_tf op hassoc v true d st hd htf)
        (psRound_incl_val op v d st hval) r hrP
    · rw [if_neg h]
      rw [hval r, htf r]
      congr 1 <;> omega

/-- Exit property of the exclusive scan once `d ≥ P`. -/
theorem psRunAux_excl (op : T → T → T)
    (hassoc : ∀ a b c, op (op a b) c = op a (op b c))
    (v : Nat → T) (P : Nat) :
    ∀ fuel d st, 1 ≤ d → P ≤ 2 ^ fuel * d →
      tfInvAt op v d st → exInvAt op v d st →
      (psRunAux op false P fuel d st).val 0 = v 0 ∧
      ∀ r, 1 ≤ r → r < P →
        (psRunAux op false P fuel d st).val r = segF op v 0 (r - 1) := by
  intro fuel
  induction fuel with
  | zero =>
    intro d st hd hfuel htf hex
    have hPd : P ≤ d := by simpa using hfuel
    refine ⟨hex.1, fun r hr1 hrP => ?_⟩
    show st.val r = _
    have hd2 : 2 ≤ d := by omega
    obtain ⟨hv, _⟩ := (hex.2.2 r hr1).2 hd2
    rw [hv]
    congr 1 <;> omega
  | succ fuel ih =>
    intro d st hd hfuel htf hex
    simp only [psRunAux]
    by_cases h : d < P
    · rw [if_pos h]
      exact ih (2 * d) _ (by omega)
        (by rw [pow_succ, Nat.mul_assoc] at hfuel; exact hfuel)
        (psRound_tf op hassoc v false d st hd htf)
        (psRound_excl op hassoc v d st hd htf hex)
    · rw [if_neg h]
      refine ⟨hex.1, fun r hr1 hrP => ?_⟩
      have hd2 : 2 ≤ d := by omega
      obtain ⟨hv, _⟩ := (hex.2.2 r hr1).2 hd2
      rw [hv]
      congr 1 <;> omega

/-- Claim C3, counterexample: `PrefixSum` with `inclusive = false` never
touches `value` at rank 0 (rank 0 receives from nobody), so rank 0 is
left holding its own input — here `5` for `op = +` on inputs all `5` with
`P = 2` — and not the fold of the empty list, which for `+` is the
identity `0`.  This refutes the exclusive part of the claim at rank 0. -/
theorem C3_counterexample :
    (prefixSum (fun a b : Nat => a + b) false 2 (fun _ => 5)).val 0 = 5 ∧
    (5 : Nat) ≠ 0 := by
  constructor
  · rfl
  · decide

/-- Claim C3 (amended): for every host count `P`, every associative
operator `op` and inputs `v`, `collective::PrefixSum` with
`inclusive = true` leaves rank `r < P` holding
`fold(op, [v 0, ..., v r])`; with `inclusive = false` it leaves rank
`r` (for `1 ≤ r < P`) holding `fold(op, [v 0, ..., v (r-1)])`, while
rank 0 keeps its own input `v 0` unchanged (not an identity element:
the routine never writes rank 0's `value` in the exclusive case). -/
theorem C3_prefixSum_correct (op : T → T → T)
    (hassoc : ∀ a b c, op (op a b) c = op a (op b c))
    (P : Nat) (v : Nat → T) :
    (∀ r, r < P → (prefixSum op true P v).val r = segF op v 0 r) ∧
    (prefixSum op false P v).val 0 = v 0 ∧
    (∀ r, 1 ≤ r → r < P →
      (prefixSum op false P v).val r = segF op v 0 (r - 1)) := by
  have hfuel : P ≤ 2 ^ P * 1 := by
    have h := Nat.lt_two_pow P
    omega
  refine ⟨?_, ?_, ?_⟩
  · intro r hr
    exact psRunAux_incl op hassoc v P P 1 (psInit v) (by omega) hfuel
      (tfInvAt_init op v) (fun _ => rfl) r hr
  · exact (psRunAux_excl op hassoc v P P 1 (psInit v) (by omega) hfuel
      (tfInvAt_init op v) (exInvAt_init op v)).1
  · intro r h1 hrP
    exact (psRunAux_excl op hassoc v P P 1 (psInit v) (by omega) hfuel
      (tfInvAt_init op v) (exInvAt_init op v)).2 r h1 hrP

/-- Witness for C3 on a concrete run: `P = 8`, `op = +`, `v r = r`
(scenario 6 of the specification): inclusive prefix sum at rank 3 is
`0+1+2+3 = 6`, exclusive at rank 4 is also `6`, and exclusive rank 0
keeps `v 0 = 0`. -/
theorem C3_prefixSum_correct_witness :
    (prefixSum (fun a b : Nat => a + b) true 8 (fun r => r)).val 3 = 6 ∧
    (prefixSum (fun a b : Nat => a + b) false 8 (fun r => r)).val 4 = 6 ∧
    (prefixSum (fun a b : Nat => a + b) false 8 (fun r => r)).val 0 = 0 := by
  have h := C3_prefixSum_correct (fun a b : Nat => a + b)
    (fun a b c => Nat.add_assoc a b c) 8 (fun r => r)
  refine ⟨?_, ?_, ?_⟩
  · rw [h.1 3 (by decide)]; decide
  · rw [h.2.2 4 (by decide) (by decide)]; decide
  · exact h.2.1

/-! #### Hypercube all-reduce invariants -/

/-- Characterization of `r ^^^ 2 ^ j`: flipping bit `j` adds or
subtracts `2 ^ j` according to the bit's current value. -/
theorem xor_two_pow (j : Nat) : ∀ r : Nat,
    r ^^^ 2 ^ j = if r % (2 * 2 ^ j) < 2 ^ j then r + 2 ^ j else r - 2 ^ j := by
  induction j with
  | zero =>
    intro r
    have hb : (1 : Nat) = Nat.bit true 0 := rfl
    conv_lhs => rw [← Nat.bit_decomp r, pow_zero, hb, Nat.xor_bit]
    have hdm := Nat.div_add_mod r 2
    have hmod : r % 2 = (Nat.bodd r).toNat := by
      have h := Nat.mod_two_of_bodd r
      cases hb2 : r.bodd <;> simp [hb2] at h ⊢ <;> omega
    cases hb2 : r.bodd
    · rw [hb2] at hmod
      simp only [Nat.bit_val, Nat.xor_zero, bne_iff_ne, Nat.div2_val]
      rw [if_pos (by simp at hmod ⊢; omega)]
      simp at hmod
      simp [Bool.toNat]
      omega
    · rw [hb2] at hmod
      simp only [Nat.bit_val, Nat.xor_zero, Nat.div2_val]
      rw [if_neg (by simp at hmod ⊢; omega)]
      simp at hmod ⊢
      omega
  | succ j ih =>
    intro r
    have hp : (2 : Nat) ^ (j + 1) = 2 * 2 ^ j := by rw [pow_succ]; ring
    have hbit : (2 : Nat) ^ (j + 1) = Nat.bit false (2 ^ j) := by
      simp [Nat.bit_val, hp]
    conv_lhs => rw [← Nat.bit_decomp r, hbit, Nat.xor_bit]
    have hdm := Nat.div_add_mod r 2
    have hmod : r % 2 = (Nat.bodd r).toNat := by
      have h := Nat.mod_two_of_bodd r
      cases hb2 : r.bodd <;> simp [hb2] at h ⊢ <;> omega
    have hk := ih (r / 2)
    -- bridge between the conditions at sizes 2^j and 2^(j+1)
    have hdm2 := Nat.div_add_mod (r / 2) (2 * 2 ^ j)
    have he : r / 2 % (2 * 2 ^ j) < 2 * 2 ^ j :=
      Nat.mod_lt _ (by positivity)
    have hr4 : r % (2 * 2 ^ (j + 1)) =
        2 * (r / 2 % (2 * 2 ^ j)) + r % 2 := by
      rw [hp]
      have e1 := Nat.div_add_mod (r % (2 * (2 * 2 ^ j))) 2
      have e2 : r % (2 * (2 * 2 ^ j)) / 2 = r / 2 % (2 * 2 ^ j) :=
        Nat.mod_mul_right_div_self r 2 (2 * 2 ^ j)
      have e3 : r % (2 * (2 * 2 ^ j)) % 2 = r % 2 :=
        Nat.mod_mod_of_dvd r ⟨2 * 2 ^ j, rfl⟩
      omega
    have hcond : r % (2 * 2 ^ (j + 1)) < 2 ^ (j + 1) ↔
        r / 2 % (2 * 2 ^ j) < 2 ^ j := by
      rw [hr4, hp]
      omega
    by_cases hc : r / 2 % (2 * 2 ^ j) < 2 ^ j
    · rw [if_pos hc] at hk
      rw [if_pos (hcond.mpr hc)]
      simp only [Nat.bit_val, Nat.div2_val, hk, Bool.bne_false]
      rw [hp]
      cases hb2 : r.bodd <;> rw [hb2] at hmod <;> simp at hmod ⊢ <;> omega
    · rw [if_neg hc] at hk
      rw [if_neg (fun h => hc (hcond.mp h))]
      simp only [Nat.bit_val, Nat.div2_val, hk, Bool.bne_false]
      have hge : 2 ^ j ≤ r / 2 := by
        have := Nat.mod_le (r / 2) (2 * 2 ^ j)
        omega
      rw [hp]
      cases hb2 : r.bodd <;> rw [hb2] at hmod <;> simp at hmod ⊢ <;> omega

/-- Quotient extraction: if `r = s + q * d` with `s < d` then `r / d = q`. -/
theorem div_of_decomp (d q s r : Nat) (hd : 0 < d) (hr : r = s + q * d) (hs : s < d) :
    r / d = q := by
  rw [hr, Nat.add_mul_div_right _ _ hd, Nat.div_eq_of_lt hs, Nat.zero_add]

/-- Invariant of `AllReduceHypercube` over `P = 2 ^ K` hosts: entering
the round with dimension `d = 2 ^ j`, every rank holds the fold of its
`d`-element subcube.  Needs commutativity as well as associativity,
because the source always computes `op value recv`. -/
theorem arhRound_inv (op : T → T → T)
    (hassoc : ∀ a b c, op (op a b) c = op a (op b c))
    (hcomm : ∀ a b, op a b = op b a)
    (v : Nat → T) (K j : Nat) (st : Nat → T) (hjK : 2 ^ j < 2 ^ K)
    (hinv : ∀ r, r < 2 ^ K → st r = segF op v (r / 2 ^ j * 2 ^ j) (2 ^ j - 1)) :
    ∀ r, r < 2 ^ K → arhRound op (2 ^ K) (2 ^ j) st r =
      segF op v (r / 2 ^ (j + 1) * 2 ^ (j + 1)) (2 ^ (j + 1) - 1) := by
  intro r hr
  have hd1 : 0 < 2 ^ j := Nat.pos_pow_of_pos j (by omega)
  have hpeer : r ^^^ 2 ^ j < 2 ^ K := Nat.xor_lt_two_pow hr hjK
  show (if r ^^^ 2 ^ j < 2 ^ K then op (st r) (st (r ^^^ 2 ^ j)) else st r) = _
  rw [if_pos hpeer]
  have hchar := xor_two_pow j r
  have hdm := Nat.div_add_mod r (2 * 2 ^ j)
  have hsl : r % (2 * 2 ^ j) < 2 * 2 ^ j := Nat.mod_lt _ (by positivity)
  have hp : (2 : Nat) ^ (j + 1) = 2 * 2 ^ j := by rw [pow_succ]; ring
  have hq2 : r / 2 ^ (j + 1) = r / (2 * 2 ^ j) := by rw [hp]
  have hb1 : 2 * (r / (2 * 2 ^ j)) * 2 ^ j = 2 * 2 ^ j * (r / (2 * 2 ^ j)) := by
    ring
  have hsplit1 : (2 * (r / (2 * 2 ^ j)) + 1) * 2 ^ j =
      2 * (r / (2 * 2 ^ j)) * 2 ^ j + 2 ^ j := by ring
  by_cases hc : r % (2 * 2 ^ j) < 2 ^ j
  · -- bit j of r clear: peer is r + 2^j, this rank holds the lower half
    rw [if_pos hc] at hchar
    have hrd : r / 2 ^ j = 2 * (r / (2 * 2 ^ j)) :=
      div_of_decomp _ _ (r % (2 * 2 ^ j)) _ hd1 (by omega) hc
    have hpd : (r + 2 ^ j) / 2 ^ j = 2 * (r / (2 * 2 ^ j)) + 1 :=
      div_of_decomp _ _ (r % (2 * 2 ^ j)) _ hd1 (by omega) hc
    rw [hinv r hr, hchar]
    have hpeer2 : r + 2 ^ j < 2 ^ K := by rw [← hchar]; exact hpeer
    rw [hinv (r + 2 ^ j) hpeer2, hpd, hrd]
    have hj := segF_join op hassoc v (2 * (r / (2 * 2 ^ j)) * 2 ^ j)
      (2 ^ j - 1) (2 ^ j - 1)
    rw [show 2 * (r / (2 * 2 ^ j)) * 2 ^ j + (2 ^ j - 1) + 1 =
      (2 * (r / (2 * 2 ^ j)) + 1) * 2 ^ j from by rw [hsplit1]; omega] at hj
    rw [hj, hq2]
    congr 1
    · rw [hp]; ring
    · rw [hp]; omega
  · -- bit j of r set: peer is r - 2^j, this rank holds the upper half
    rw [if_neg hc] at hchar
    have hge : 2 ^ j ≤ r % (2 * 2 ^ j) := by omega
    have hrd : r / 2 ^ j = 2 * (r / (2 * 2 ^ j)) + 1 :=
      div_of_decomp _ _ (r % (2 * 2 ^ j) - 2 ^ j) _ hd1 (by omega) (by omega)
    have hpd : (r - 2 ^ j) / 2 ^ j = 2 * (r / (2 * 2 ^ j)) :=
      div_of_decomp _ _ (r % (2 * 2 ^ j) - 2 ^ j) _ hd1 (by omega) (by omega)
    rw [hinv r hr, hchar]
    have hpeer2 : r - 2 ^ j < 2 ^ K := by rw [← hchar]; exact hpeer
    rw [hinv (r - 2 ^ j) hpeer2, hpd, hrd]
    rw [hcomm]
    have hj := segF_join op hassoc v (2 * (r / (2 * 2 ^ j)) * 2 ^ j)
      (2 ^ j - 1) (2 ^ j - 1)
    rw [show 2 * (r / (2 * 2 ^ j)) * 2 ^ j + (2 ^ j - 1) + 1 =
      (2 * (r / (2 * 2 ^ j)) + 1) * 2 ^ j from by rw [hsplit1]; omega] at hj
    rw [hj, hq2]
    congr 1
    · rw [hp]; ring
    · rw [hp]; omega

/-- Running the hypercube loop from dimension `2 ^ j` with the subcube
invariant ends with every rank holding the global fold. -/
theorem arhRunAux_inv (op : T → T → T)
    (hassoc : ∀ a b c, op (op a b) c = op a (op b c))
    (hcomm : ∀ a b, op a b = op b a)
    (v : Nat → T) (K : Nat) :
    ∀ fuel j st, 2 ^ j ≤ 2 ^ K → 2 ^ K ≤ 2 ^ fuel * 2 ^ j →
      (∀ r, r < 2 ^ K → st r = segF op v (r / 2 ^ j * 2 ^ j) (2 ^ j - 1)) →
      ∀ r, r < 2 ^ K →
        arhRunAux op (2 ^ K) fuel (2 ^ j) st r = segF op v 0 (2 ^ K - 1) := by
  intro fuel
  induction fuel with
  | zero =>
    intro j st hle hfuel hinv r hr
    have heq : 2 ^ j = 2 ^ K := by simp at hfuel; omega
    show st r = _
    rw [hinv r hr, heq, Nat.div_eq_of_lt hr, Nat.zero_mul]
  | succ fuel ih =>
    intro j st hle hfuel hinv r hr
    simp only [arhRunAux]
    by_cases h : 2 ^ j < 2 ^ K
    · rw [if_pos h]
      have hstep : (2 : Nat) * 2 ^ j = 2 ^ (j + 1) := by rw [pow_succ]; ring
      rw [hstep]
      refine ih (j + 1) _ ?_ ?_ (arhRound_inv op hassoc hcomm v K j st h hinv) r hr
      · -- 2^(j+1) ≤ 2^K since 2^j < 2^K
        have hjK : j < K := by
          by_contra hcon
          have hle2 : 2 ^ K ≤ 2 ^ j := Nat.pow_le_pow_right (by omega) (by omega)
          omega
        exact Nat.pow_le_pow_right (by omega) (by omega)
      · rw [pow_succ] at hfuel
        rw [pow_succ]
        calc 2 ^ K ≤ 2 ^ fuel * 2 * 2 ^ j := hfuel
          _ = 2 ^ fuel * (2 ^ j * 2) := by ring
    · rw [if_neg h]
      have heq : 2 ^ j = 2 ^ K := by omega
      rw [hinv r hr, heq, Nat.div_eq_of_lt hr, Nat.zero_mul]

/-- Claim C5, counterexample: with the associative but non-commutative
operator `op a b = b` (right projection), two hosts and inputs
`v r = r`, `AllReduceHypercube` leaves rank 0 holding `op (v 0) (v 1) = 1`
but rank 1 holding `op (v 1) (v 0) = 0`: the ranks disagree, and rank 1
does not hold `fold(op, [v 0, v 1]) = 1`.  The source always computes
`op value recv` with its own value on the left, so associativity alone
does not make the results agree. -/
theorem C5_counterexample :
    (fun a b : Nat => b) ((fun a b : Nat => b) 0 1) 2 =
        (fun a b : Nat => b) 0 ((fun a b : Nat => b) 1 2) ∧
    allReduceHypercube (fun a b : Nat => b) 2 (fun r => r) 1 = 0 ∧
    allReduceHypercube (fun a b : Nat => b) 2 (fun r => r) 0 = 1 ∧
    segF (fun a b : Nat => b) (fun r => r) 0 1 = 1 ∧
    (0 : Nat) ≠ 1 := by
  exact ⟨rfl, rfl, rfl, rfl, by decide⟩

/-- Claim C5 (amended): for every power-of-two host count `P = 2 ^ K`,
every associative **and commutative** operator `op` and inputs `v`,
`AllReduceHypercube` leaves every rank `r < P` holding the same value
`fold(op, [v 0, ..., v (P-1)])`.  Commutativity is required (and not
just associativity as the claim states) because every rank computes
`op value recv` regardless of which side of the exchanged dimension it
is on. -/
theorem C5_allReduceHypercube_correct (op : T → T → T)
    (hassoc : ∀ a b c, op (op a b) c = op a (op b c))
    (hcomm : ∀ a b, op a b = op b a)
    (K : Nat) (v : Nat → T) :
    ∀ r, r < 2 ^ K →
      allReduceHypercube op (2 ^ K) v r = segF op v 0 (2 ^ K - 1) := by
  intro r hr
  have h1 : (1 : Nat) = 2 ^ 0 := by norm_num
  show arhRunAux op (2 ^ K) (2 ^ K) 1 v r = _
  rw [h1]
  refine arhRunAux_inv op hassoc hcomm v K (2 ^ K) 0 v
    (Nat.pow_le_pow_right (by omega) (by omega)) ?_ ?_ r hr
  · have h2 : K < 2 ^ K := Nat.lt_two_pow K
    have h3 : 2 ^ K ≤ 2 ^ (2 ^ K) := Nat.pow_le_pow_right (by omega) (by omega)
    simpa using h3
  · intro s hs
    rw [pow_zero, Nat.div_one, Nat.mul_one, Nat.sub_self, segF_zero]

/-- Witness for C5 on a concrete run: `P = 4`, `op = +`, `v r = r`:
every rank, in particular rank 2, ends with `0+1+2+3 = 6`. -/
theorem C5_allReduceHypercube_correct_witness :
    allReduceHypercube (fun a b : Nat => a + b) (2 ^ 2) (fun r => r) 2 = 6 := by
  have h := C5_allReduceHypercube_correct (fun a b : Nat => a + b)
    (fun a b c => Nat.add_assoc a b c) (fun a b => Nat.add_comm a b) 2 (fun r => r)
  rw [h 2 (by decide)]
  decide

/-! ### ChannelSink (`c7a/data/channel_sink.hpp`)

`ChannelSink::Append` frames every non-empty block it forwards with a
`StreamBlockHeader` and then writes the payload bytes; `Close` emits a
header with zero bytes as the end-of-stream sentinel.  `SendHeader`
(lines 102-109) assigns exactly four header fields: `channel_id`,
`expected_bytes`, `expected_elements` and `sender_rank`.  We model the
emitted wire traffic as a list of events. -/

/-- The header populated by `ChannelSink::SendHeader`: the four fields
the source assigns (the block's first-item offset is not among them). -/
structure StreamBlockHeader where
  channel_id : Nat
  expected_bytes : Nat
  expected_elements : Nat
  sender_rank : Nat
  deriving DecidableEq, Repr

/-- Identity and connection data of a `ChannelSink`. -/
structure ChannelSinkCfg where
  id : Nat
  own_rank : Nat

/-- A virtual block handed to `ChannelSink::Append`: payload bytes with
the number of bytes used, the number of items and the offset of the
first item (the latter two are the block view's metadata). -/
structure VBlock where
  bytes : List Nat
  bytes_used : Nat
  nitems : Nat
  first_item : Nat
  deriving DecidableEq, Repr

/-- One event on the connection: a serialized header or payload bytes. -/
inductive WireEvent where
  | header (h : StreamBlockHeader)
  | payload (bytes : List Nat)
  deriving DecidableEq, Repr

/-- `ChannelSink::SendHeader` (channel_sink.hpp lines 102-109). -/
def sendHeader (s : ChannelSinkCfg) (num_bytes elements : Nat) : StreamBlockHeader :=
  { channel_id := s.id
    expected_bytes := num_bytes
    expected_elements := elements
    sender_rank := s.own_rank }

/-- `ChannelSink::Append` (channel_sink.hpp lines 54-67): nothing is
sent for an empty block; otherwise the header followed by the first
`bytes_used` payload bytes. -/
def channelSinkAppend (s : ChannelSinkCfg) (vb : VBlock) : List WireEvent :=
  if vb.bytes_used = 0 then []
  else [WireEvent.header (sendHeader s vb.bytes_used vb.nitems),
        WireEvent.payload (vb.bytes.take vb.bytes_used)]

/-- `ChannelSink::Close` (channel_sink.hpp lines 84-90): emit the
end-of-stream header with `bytes = 0, nitems = 0`. -/
def channelSinkClose (s : ChannelSinkCfg) : List WireEvent :=
  [WireEvent.header (sendHeader s 0 0)]

/-- Claim C7, counterexample: the header the sink emits does **not**
carry the block's first-item offset: two appended blocks that differ
only in `first_item` produce identical wire traffic, so the framing
cannot carry the five fields the claim lists (it carries four:
channel id, sender rank, bytes, nitems). -/
theorem C7_counterexample :
    channelSinkAppend ⟨3, 1⟩ ⟨[7], 1, 1, 0⟩ = channelSinkAppend ⟨3, 1⟩ ⟨[7], 1, 1, 1⟩ ∧
    (⟨[7], 1, 1, 0⟩ : VBlock).first_item ≠ (⟨[7], 1, 1, 1⟩ : VBlock).first_item := by
  exact ⟨rfl, by decide⟩

/-- Claim C7 (amended): every non-empty Block a `ChannelSink` emits is
preceded by a fixed header carrying the four fields
`(channel_id, sender_rank, bytes, nitems)` — the first-item offset is
not transmitted by this sink — and a header with `bytes = 0` is emitted
as the end-of-stream sentinel when the sink is closed. -/
theorem C7_channelSink_framing (s : ChannelSinkCfg) (vb : VBlock)
    (hne : vb.bytes_used ≠ 0) :
    channelSinkAppend s vb =
      [WireEvent.header
        { channel_id := s.id
          expected_bytes := vb.bytes_used
          expected_elements := vb.nitems
          sender_rank := s.own_rank },
       WireEvent.payload (vb.bytes.take vb.bytes_used)] ∧
    channelSinkClose s =
      [WireEvent.header
        { channel_id := s.id
          expected_bytes := 0
          expected_elements := 0
          sender_rank := s.own_rank }] := by
  refine ⟨?_, rfl⟩
  rw [channelSinkAppend, if_neg hne]
  rfl

/-- Witness for C7 at a concrete block. -/
theorem C7_channelSink_framing_witness :
    (⟨[7, 8], 2, 1, 0⟩ : VBlock).bytes_used ≠ 0 ∧
    channelSinkAppend ⟨3, 1⟩ ⟨[7, 8], 2, 1, 0⟩ =
      [WireEvent.header ⟨3, 2, 1, 1⟩, WireEvent.payload [7, 8]] :=
  ⟨by decide,
   ((C7_channelSink_framing ⟨3, 1⟩ ⟨[7, 8], 2, 1, 0⟩ (by decide)).1).trans (by decide)⟩

/-! ### ReducePreProbingTable (`c7a/core/reduce_pre_probing_table.hpp`)

The table is an array of `table_size_ = P * num_items_per_partition_`
slots holding `(key, value)` pairs, a sentinel pair marking free slots,
per-partition and total item counters, and one emitter per partition.
We model the emitters' output as a trace `emitted` of
`(partition index, key, value)` records (the `RobustKey = false`
configuration, which emits whole pairs; the partition index is the
index of the writer the record goes to).

`Insert` and `ResizeUp` are mutually recursive in the source (an insert
can trigger a resize, and re-inserting during a resize can trigger
nested flushes and resizes), so the model threads an explicit fuel
through a single step function `tableGo` over a small command type;
running out of fuel yields `none`.  The recursion is structural in the
fuel, so concrete runs evaluate by `decide`.

The floating-point fill-ratio comparison
`(double)items / (double)slots > max_partition_fill_ratio_` is
modelled as an exact rational comparison: the ratio is a fraction
`maxPartitionFillRatioNum / maxPartitionFillRatioDen` and the test is
done by cross-multiplication.  No theorem below depends on which way
this branch goes. -/

/-- Static configuration of a `ReducePreProbingTable`: the constructor
arguments that never change (`SetMaxNumItems` aside, which we treat as
part of the configuration). -/
structure TableCfg (Key Value : Type) where
  keyExtractor : Value → Key
  reduceFunction : Value → Value → Value
  hashFunction : Key → Nat
  numPartitions : Nat
  numItemsInitScale : Nat
  numItemsResizeScale : Nat
  maxPartitionFillRatioNum : Nat
  maxPartitionFillRatioDen : Nat
  maxNumItemsTable : Nat
  sentinelKey : Key
  sentinelValue : Value

/-- Mutable state of a `ReducePreProbingTable`, plus the trace of
records pushed to the per-partition emitters. -/
structure TableState (Key Value : Type) where
  numItems : Nat
  numItemsPerPartition : Nat
  itemsPerPartition : List Nat
  tableSize : Nat
  vector : List (Key × Value)
  emitted : List (Nat × Key × Value)
  deriving DecidableEq, Repr

variable {Key Value : Type} [DecidableEq Key]

/-- The sentinel pair `(sentinel, Value())` flagging free slots. -/
def TableCfg.sentinelPair (c : TableCfg Key Value) : Key × Value :=
  (c.sentinelKey, c.sentinelValue)

/-- Slot at global index `i` of a slot vector (indices are in range in
every reachable state; the default is the sentinel pair). -/
def slotAtV (c : TableCfg Key Value) (vec : List (Key × Value)) (i : Nat) : Key × Value :=
  vec.getD i c.sentinelPair

/-- Slot at global index `i` of a table state. -/
def slotAt (c : TableCfg Key Value) (st : TableState Key Value) (i : Nat) : Key × Value :=
  slotAtV c st.vector i

/-- `PreProbingReduceByHashKey::operator()` (lines 83-96): partition
id, local index and global index of a key. -/
def indexResult (c : TableCfg Key Value) (st : TableState Key Value) (k : Key) :
    Nat × Nat × Nat :=
  let hashed := c.hashFunction k
  let localIndex := hashed % st.numItemsPerPartition
  let partitionId := hashed % c.numPartitions
  (partitionId, localIndex, partitionId * st.numItemsPerPartition + localIndex)

/-- Outcome of the linear-probing loop of `Insert` (lines 251-282). -/
inductive ProbeResult where
  | reduceAt (i : Nat)
  | placeAt (i : Nat)
  | full
  deriving DecidableEq, Repr

/-- The probing loop: starting from global index `idx` inside partition
`pid` of a table with `pp` slots per partition, scan for a key match
(reduce) or a sentinel slot (place), wrapping at the partition end;
once all `pp` slots have been examined (`current == initial` in the
source), report `full`. -/
def probeAux (c : TableCfg Key Value) (vec : List (Key × Value)) (k : Key)
    (pid pp : Nat) : Nat → Nat → ProbeResult
  | 0, _ => .full
  | fuel + 1, idx =>
    let slot := slotAtV c vec idx
    if slot.1 = c.sentinelKey then .placeAt idx
    else if slot.1 = k then .reduceAt idx
    else
      let idx2 := idx + 1
      let idx3 := if idx2 = (pid + 1) * pp then idx2 - pp else idx2
      probeAux c vec k pid pp fuel idx3

/-- Loop body of `FlushPartition` (lines 373-387): if slot `i` is not
free, push `(key, value)` to partition `partition_id`'s writer and
clear the slot. -/
def flushStep (c : TableCfg Key Value) (partition_id : Nat)
    (acc : List (Key × Value) × List (Nat × Key × Value)) (i : Nat) :
    List (Key × Value) × List (Nat × Key × Value) :=
  let slot := slotAtV c acc.1 i
  if slot.1 ≠ c.sentinelKey then
    (acc.1.set i c.sentinelPair, acc.2 ++ [(partition_id, slot.1, slot.2)])
  else acc

/-- `FlushPartition` (lines 369-398): emit every non-sentinel slot of
partition `partition_id` in slot order, clear those slots, subtract the
partition's counter from the total and zero it. -/
def flushPartition (c : TableCfg Key Value) (partition_id : Nat)
    (st : TableState Key Value) : TableState Key Value :=
  let lo := partition_id * st.numItemsPerPartition
  let r := ((List.range st.numItemsPerPartition).map (lo + ·)).foldl
    (flushStep c partition_id) (st.vector, st.emitted)
  { st with
    vector := r.1
    emitted := r.2
    numItems := st.numItems - st.itemsPerPartition.getD partition_id 0
    itemsPerPartition := st.itemsPerPartition.set partition_id 0 }

/-- `Flush` (lines 315-325): flush every partition in index order. -/
def flushAll (c : TableCfg Key Value) (st : TableState Key Value) : TableState Key Value :=
  (List.range c.numPartitions).foldl (fun s i => flushPartition c i s) st

/-- The argmax scan of `FlushLargestPartition` (lines 336-345):
partition with strictly largest count wins, ties keep the smaller
index, and the scan starts from `(0, 0)`. -/
def largestPartitionIndex (c : TableCfg Key Value) (st : TableState Key Value) : Nat :=
  ((List.range c.numPartitions).foldl
    (fun acc i =>
      if st.itemsPerPartition.getD i 0 > acc.1 then (st.itemsPerPartition.getD i 0, i)
      else acc)
    (0, 0)).2

/-- `FlushLargestPartition` (lines 332-362). -/
def flushLargestPartition (c : TableCfg Key Value) (st : TableState Key Value) :
    TableState Key Value :=
  flushPartition c (largestPartitionIndex c st) st

/-- The in-place reduction of `Insert` (line 263):
`current->second = reduce_function_(current->second, kv.second)`. -/
def reduceState (c : TableCfg Key Value) (st : TableState Key Value) (i : Nat)
    (v : Value) : TableState Key Value :=
  { st with vector :=
      st.vector.set i ((slotAt c st i).1, c.reduceFunction (slotAt c st i).2 v) }

/-- Storing a new pair into a free slot (lines 285-295): write the pair
and bump the total and the partition counter. -/
def placeState (c : TableCfg Key Value) (st : TableState Key Value) (pid i : Nat)
    (kv : Key × Value) : TableState Key Value :=
  { st with
    vector := st.vector.set i kv
    numItems := st.numItems + 1
    itemsPerPartition :=
      st.itemsPerPartition.set pid (st.itemsPerPartition.getD pid 0 + 1) }

/-- The state of `ResizeUp` after growing and clearing the table
(lines 477-488), before the rehash loop runs. -/
def resizeBase (c : TableCfg Key Value) (st : TableState Key Value) :
    TableState Key Value :=
  { numItems := 0
    numItemsPerPartition := st.tableSize * c.numItemsResizeScale / c.numPartitions
    itemsPerPartition := List.replicate c.numPartitions 0
    tableSize := st.tableSize * c.numItemsResizeScale
    vector := List.replicate (st.tableSize * c.numItemsResizeScale) c.sentinelPair
    emitted := st.emitted }

/-- Commands of the fueled step function: a user-level insert of a
`(key, value)` pair, `ResizeUp`, and the rehash loop of `ResizeUp`
over the saved old slot array. -/
inductive TableCmd (Key Value : Type) where
  | insert (kv : Key × Value)
  | resize
  | rehash (l : List (Key × Value))

/-- Fueled execution of `Insert(const KeyValuePair&)` (lines 240-310),
`ResizeUp` (lines 475-499) and the rehash loop of `ResizeUp`
(lines 491-497).  `none` means the fuel ran out (the source would
simply recurse deeper).

* `insert kv`: probe from the key's global index.  On a key match,
  reduce into the slot and return (no post-checks).  On a sentinel
  slot, store the pair and bump both counters, then (a) flush the
  largest partition if `num_items_ > max_num_items_table_` and
  (b) resize if the partition's fill ratio exceeds
  `max_partition_fill_ratio_`.  If the probe wrapped around
  (`current == initial`), resize and re-insert.
* `resize`: multiply the table size by `num_items_resize_scale_`,
  zero all counters, allocate a fresh sentinel-filled slot array and
  re-insert (via the key extractor) every non-sentinel slot of the old
  array.
* `rehash l`: the re-insert loop over the old slot array. -/
def tableGo (c : TableCfg Key Value) :
    Nat → TableCmd Key Value → TableState Key Value → Option (TableState Key Value)
  | 0, _, _ => none
  | fuel + 1, .insert kv, st =>
    let h := indexResult c st kv.1
    match probeAux c st.vector kv.1 h.1 st.numItemsPerPartition
        st.numItemsPerPartition h.2.2 with
    | .reduceAt i => some (reduceState c st i kv.2)
    | .placeAt i =>
      let st1 := placeState c st h.1 i kv
      let st2 := if st1.numItems > c.maxNumItemsTable then flushLargestPartition c st1
                 else st1
      if (st2.itemsPerPartition.getD h.1 0 * c.maxPartitionFillRatioDen >
          c.maxPartitionFillRatioNum * st2.numItemsPerPartition)
      then tableGo c fuel .resize st2
      else some st2
    | .full =>
      match tableGo c fuel .resize st with
      | none => none
      | some st1 => tableGo c fuel (.insert kv) st1
  | fuel + 1, .resize, st =>
    tableGo c fuel (.rehash st.vector) (resizeBase c st)
  | fuel + 1, .rehash [], st => some st
  | fuel + 1, .rehash (kv :: rest), st =>
    if kv.1 ≠ c.sentinelKey then
      match tableGo c fuel (.insert (c.keyExtractor kv.2, kv.2)) st with
      | none => none
      | some st1 => tableGo c fuel (.rehash rest) st1
    else tableGo c fuel (.rehash rest) st

/-- `Insert(const KeyValuePair&)` with fuel. -/
def insertKV (c : TableCfg Key Value) (fuel : Nat) (st : TableState Key Value)
    (kv : Key × Value) : Option (TableState Key Value) :=
  tableGo c fuel (.insert kv) st

/-- `Insert(const Value&)` (lines 222-226): extract the key, then
insert the pair. -/
def insertVal (c : TableCfg Key Value) (fuel : Nat) (st : TableState Key Value)
    (v : Value) : Option (TableState Key Value) :=
  insertKV c fuel st (c.keyExtractor v, v)

/-- A sequence of user-level `Insert` calls. -/
def runInserts (c : TableCfg Key Value) (fuel : Nat) (st : TableState Key Value)
    (vs : List Value) : Option (TableState Key Value) :=
  vs.foldlM (fun s v => insertVal c fuel s v) st

/-- `init` (lines 198-216): compute the table size, reject invalid
partition configurations, and allocate the sentinel-filled table with
zeroed counters. -/
def initTable (c : TableCfg Key Value) : Except String (TableState Key Value) :=
  let tableSize := c.numPartitions * c.numItemsInitScale
  if c.numPartitions > tableSize ∧ tableSize % c.numPartitions ≠ 0 then
    Except.error "invalid_argument"
  else Except.ok
    { numItems := 0
      numItemsPerPartition := tableSize / c.numPartitions
      itemsPerPartition := List.replicate c.numPartitions 0
      tableSize := tableSize
      vector := List.replicate tableSize c.sentinelPair
      emitted := [] }

/-- `Reset` (lines 523-538) as written in the source: the range-for
loop iterates over the slot vector **by value**, so its writes go to
copies and no slot is cleared; the vector is then resized back to the
initial capacity (`std::vector::resize` keeps existing elements within
the new size and pads with the sentinel beyond it), and the counters
are zeroed. -/
def resetTable (c : TableCfg Key Value) (st : TableState Key Value) :
    TableState Key Value :=
  let tableSize := c.numPartitions * c.numItemsInitScale
  let vector :=
    if st.vector.length ≤ tableSize then
      st.vector ++ List.replicate (tableSize - st.vector.length) c.sentinelPair
    else st.vector.take tableSize
  { numItems := 0
    numItemsPerPartition := tableSize / c.numPartitions
    itemsPerPartition := List.replicate c.numPartitions 0
    tableSize := tableSize
    vector := vector
    emitted := st.emitted }

/-! #### Probing-path characterization -/

/-- `n`-th slot index visited by a probe that starts at local offset
`o` of the partition starting at global index `ps` with `pp` slots. -/
def probePos (pp ps o n : Nat) : Nat := ps + (o + n) % pp

theorem probePos_lt (pp ps o n : Nat) (hpp : 0 < pp) :
    ps ≤ probePos pp ps o n ∧ probePos pp ps o n < ps + pp := by
  have := Nat.mod_lt (o + n) hpp
  unfold probePos
  omega

theorem probePos_inj (pp ps o : Nat) (m n : Nat) (hm : m < pp) (hn : n < pp)
    (ho : o < pp) (h : probePos pp ps o m = probePos pp ps o n) : m = n := by
  unfold probePos at h
  have hpp : 0 < pp := by omega
  have h2 : (o + m) % pp = (o + n) % pp := by omega
  have d1 := Nat.div_add_mod (o + m) pp
  have d2 := Nat.div_add_mod (o + n) pp
  have q1 : (o + m) / pp < 2 := by rw [Nat.div_lt_iff_lt_mul hpp]; omega
  have q2 : (o + n) / pp < 2 := by rw [Nat.div_lt_iff_lt_mul hpp]; omega
  have e1 : (o + m) / pp = 0 ∨ (o + m) / pp = 1 := by
    generalize (o + m) / pp = x at q1 ⊢
    omega
  have e2 : (o + n) / pp = 0 ∨ (o + n) / pp = 1 := by
    generalize (o + n) / pp = x at q2 ⊢
    omega
  rcases e1 with e1 | e1 <;> rcases e2 with e2 | e2 <;>
    rw [e1] at d1 <;> rw [e2] at d2 <;> omega

/-- Complete characterization of the probing loop started at the local
offset `o` of partition `pid`: it either stops at the first sentinel
slot on the probe path (`placeAt`), stops at the first slot holding the
probed key (`reduceAt`), or — after examining `fuel` slots — reports
`full`; in each case all earlier path slots hold keys that are neither
the sentinel nor the probed key. -/
theorem probeAux_char (c : TableCfg Key Value) (vec : List (Key × Value)) (k : Key)
    (pid pp : Nat) :
    ∀ fuel o, o < pp →
      (∃ n, n < fuel ∧
        probeAux c vec k pid pp fuel (pid * pp + o) =
          .placeAt (probePos pp (pid * pp) o n) ∧
        (slotAtV c vec (probePos pp (pid * pp) o n)).1 = c.sentinelKey ∧
        ∀ m, m < n → (slotAtV c vec (probePos pp (pid * pp) o m)).1 ≠ c.sentinelKey ∧
          (slotAtV c vec (probePos pp (pid * pp) o m)).1 ≠ k) ∨
      (∃ n, n < fuel ∧
        probeAux c vec k pid pp fuel (pid * pp + o) =
          .reduceAt (probePos pp (pid * pp) o n) ∧
        (slotAtV c vec (probePos pp (pid * pp) o n)).1 = k ∧
        (slotAtV c vec (probePos pp (pid * pp) o n)).1 ≠ c.sentinelKey ∧
        ∀ m, m < n → (slotAtV c vec (probePos pp (pid * pp) o m)).1 ≠ c.sentinelKey ∧
          (slotAtV c vec (probePos pp (pid * pp) o m)).1 ≠ k) ∨
      (probeAux c vec k pid pp fuel (pid * pp + o) = .full ∧
        ∀ m, m < fuel → (slotAtV c vec (probePos pp (pid * pp) o m)).1 ≠ c.sentinelKey ∧
          (slotAtV c vec (probePos pp (pid * pp) o m)).1 ≠ k) := by
  intro fuel
  induction fuel with
  | zero =>
    intro o _
    exact Or.inr (Or.inr ⟨rfl, fun m hm => absurd hm (by omega)⟩)
  | succ fuel ih =>
    intro o ho
    have hpos0 : probePos pp (pid * pp) o 0 = pid * pp + o := by
      unfold probePos
      rw [Nat.add_zero, Nat.mod_eq_of_lt ho]
    by_cases hsent : (slotAtV c vec (pid * pp + o)).1 = c.sentinelKey
    · refine Or.inl ⟨0, by omega, ?_, ?_, fun m hm => absurd hm (by omega)⟩
      · show (if (slotAtV c vec (pid * pp + o)).1 = c.sentinelKey then
            ProbeResult.placeAt (pid * pp + o) else _) = _
        rw [if_pos hsent, hpos0]
      · rw [hpos0]; exact hsent
    · by_cases hkey : (slotAtV c vec (pid * pp + o)).1 = k
      · refine Or.inr (Or.inl ⟨0, by omega, ?_, ?_, ?_, fun m hm => absurd hm (by omega)⟩)
        · show (if (slotAtV c vec (pid * pp + o)).1 = c.sentinelKey then _
              else if (slotAtV c vec (pid * pp + o)).1 = k then
                ProbeResult.reduceAt (pid * pp + o) else _) = _
          rw [if_neg hsent, if_pos hkey, hpos0]
        · rw [hpos0]; exact hkey
        · rw [hpos0]; exact hsent
      · -- advance to the next slot of the partition
        have hppos : 0 < pp := by omega
        have hstep : probeAux c vec k pid pp (fuel + 1) (pid * pp + o) =
            probeAux c vec k pid pp fuel (pid * pp + (o + 1) % pp) := by
          show (if (slotAtV c vec (pid * pp + o)).1 = c.sentinelKey then _
              else if (slotAtV c vec (pid * pp + o)).1 = k then _
              else probeAux c vec k pid pp fuel
                (if pid * pp + o + 1 = (pid + 1) * pp then pid * pp + o + 1 - pp
                 else pid * pp + o + 1)) = _
          rw [if_neg hsent, if_neg hkey]
          congr 1
          by_cases hwrap : o + 1 = pp
          · rw [if_pos (by rw [Nat.succ_mul]; omega)]
            rw [hwrap, Nat.mod_self]
            omega
          · rw [if_neg (by rw [Nat.succ_mul]; omega)]
            rw [Nat.mod_eq_of_lt (by omega)]
            omega
        have hshift : ∀ n, probePos pp (pid * pp) ((o + 1) % pp) n =
            probePos pp (pid * pp) o (n + 1) := by
          intro n
          unfold probePos
          rw [Nat.mod_add_mod]
          congr 2
          omega
        rcases ih ((o + 1) % pp) (Nat.mod_lt _ hppos) with
          ⟨n, hn, heq, hhit, hpre⟩ | ⟨n, hn, heq, hhit, hhit2, hpre⟩ | ⟨heq, hpre⟩
        · refine Or.inl ⟨n + 1, by omega, ?_, ?_, ?_⟩
          · rw [hstep, heq, hshift]
          · rw [← hshift]; exact hhit
          · intro m hm
            match m with
            | 0 => rw [hpos0]; exact ⟨hsent, hkey⟩
            | m + 1 =>
              rw [← hshift]
              exact hpre m (by omega)
        · refine Or.inr (Or.inl ⟨n + 1, by omega, ?_, ?_, ?_, ?_⟩)
          · rw [hstep, heq, hshift]
          · rw [← hshift]; exact hhit
          · rw [← hshift]; exact hhit2
          · intro m hm
            match m with
            | 0 => rw [hpos0]; exact ⟨hsent, hkey⟩
            | m + 1 =>
              rw [← hshift]
              exact hpre m (by omega)
        · refine Or.inr (Or.inr ⟨?_, ?_⟩)
          · rw [hstep, heq]
          · intro m hm
            match m with
            | 0 => rw [hpos0]; exact ⟨hsent, hkey⟩
            | m + 1 =>
              rw [← hshift]
              exact hpre m (by omega)

/-! #### Slot-vector surgery lemmas -/

theorem slotAtV_set_self (c : TableCfg Key Value) (vec : List (Key × Value))
    (i : Nat) (kv : Key × Value) (hi : i < vec.length) :
    slotAtV c (vec.set i kv) i = kv := by
  unfold slotAtV
  rw [List.getD_eq_getElem?_getD, List.getElem?_set_eq hi]
  rfl

theorem slotAtV_set_ne (c : TableCfg Key Value) (vec : List (Key × Value))
    (i j : Nat) (kv : Key × Value) (hij : i ≠ j) :
    slotAtV c (vec.set i kv) j = slotAtV c vec j := by
  unfold slotAtV
  rw [List.getD_eq_getElem?_getD, List.getElem?_set_ne hij, ← List.getD_eq_getElem?_getD]

theorem slotAtV_replicate (c : TableCfg Key Value) (n j : Nat) :
    slotAtV c (List.replicate n c.sentinelPair) j = c.sentinelPair := by
  unfold slotAtV
  rw [List.getD_eq_getElem?_getD, List.getElem?_replicate]
  by_cases h : j < n <;> simp [h]

theorem slotAtV_ge_length (c : TableCfg Key Value) (vec : List (Key × Value))
    (j : Nat) (hj : vec.length ≤ j) : slotAtV c vec j = c.sentinelPair := by
  unfold slotAtV
  rw [List.getD_eq_getElem?_getD, List.getElem?_eq_none (by omega)]
  rfl

/-- Splitting `[lo, lo+n)` as a list at its element `lo + t`. -/
theorem mapped_range_split (lo n t : Nat) (ht : t < n) :
    (List.range n).map (lo + ·) =
      (List.range t).map (lo + ·) ++ [lo + t] ++
      (List.range (n - t - 1)).map (fun j => lo + (t + 1 + j)) := by
  have h1 : n = t + 1 + (n - t - 1) := by omega
  conv_lhs => rw [h1]
  rw [List.range_add, List.range_succ, List.map_append, List.map_append, List.map_map]
  simp [Function.comp]
  omega

/-- The `filterMap` of a list in terms of its indices. -/
theorem filterMap_eq_range_filterMap {β : Type} (f : (Key × Value) → Option β)
    (c : TableCfg Key Value) (vec : List (Key × Value)) :
    vec.filterMap f = (List.range vec.length).filterMap (fun i => f (slotAtV c vec i)) := by
  induction vec with
  | nil => rfl
  | cons a l ih =>
    rw [List.filterMap_cons, List.length_cons, List.range_succ_eq_map,
      List.filterMap_cons, List.filterMap_map]
    have h0 : slotAtV c (a :: l) 0 = a := rfl
    have hc : ∀ i : Nat, slotAtV c (a :: l) (Nat.succ i) = slotAtV c l i := by
      intro i
      rfl
    rw [h0]
    have heq : ((fun i => f (slotAtV c (a :: l) i)) ∘ Nat.succ) =
        fun i => f (slotAtV c l i) := by
      funext i
      simp [Function.comp, hc]
    rw [heq, ← ih]

/-! #### Characterization of the flush loop -/

/-- Complete characterization of folding `flushStep` over a duplicate-free
index list: the affected non-free slots become free, the length is
unchanged, and exactly the non-free slots are emitted, in index order. -/
theorem flushFold_char (c : TableCfg Key Value) (p : Nat) :
    ∀ (idxs : List Nat), idxs.Nodup →
      ∀ (vec : List (Key × Value)) (em : List (Nat × Key × Value)),
      (∀ j, slotAtV c (idxs.foldl (flushStep c p) (vec, em)).1 j =
        (if j ∈ idxs ∧ (slotAtV c vec j).1 ≠ c.sentinelKey then c.sentinelPair
         else slotAtV c vec j)) ∧
      (idxs.foldl (flushStep c p) (vec, em)).1.length = vec.length ∧
      (idxs.foldl (flushStep c p) (vec, em)).2 = em ++ idxs.filterMap (fun i =>
        if (slotAtV c vec i).1 ≠ c.sentinelKey then
          some (p, (slotAtV c vec i).1, (slotAtV c vec i).2) else none) := by
  intro idxs
  induction idxs with
  | nil =>
    intro _ vec em
    refine ⟨fun j => ?_, rfl, by simp⟩
    rw [if_neg (by simp)]
    rfl
  | cons i rest ih =>
    intro hnd vec em
    have hnotmem : i ∉ rest := (List.nodup_cons.mp hnd).1
    have hndrest : rest.Nodup := (List.nodup_cons.mp hnd).2
    rw [List.foldl_cons]
    by_cases hni : (slotAtV c vec i).1 ≠ c.sentinelKey
    · -- non-free slot: cleared and emitted
      have hstep : flushStep c p (vec, em) i =
          (vec.set i c.sentinelPair,
           em ++ [(p, (slotAtV c vec i).1, (slotAtV c vec i).2)]) := by
        simp only [flushStep]
        rw [if_pos hni]
      have hlen : i < vec.length := by
        by_contra hcon
        exact hni (by rw [slotAtV_ge_length c vec i (by omega)]; rfl)
      obtain ⟨hpt, hln, hem⟩ := ih hndrest (vec.set i c.sentinelPair)
        (em ++ [(p, (slotAtV c vec i).1, (slotAtV c vec i).2)])
      rw [hstep]
      refine ⟨fun j => ?_, by rw [hln, List.length_set], ?_⟩
      · rw [hpt j]
        by_cases hji : j = i
        · subst hji
          rw [if_neg (fun hcc => hnotmem hcc.1),
            slotAtV_set_self c vec j c.sentinelPair hlen,
            if_pos ⟨List.mem_cons_self _ _, hni⟩]
        · rw [slotAtV_set_ne c vec i j c.sentinelPair (fun hcc => hji hcc.symm)]
          by_cases hjr : j ∈ rest ∧ (slotAtV c vec j).1 ≠ c.sentinelKey
          · rw [if_pos hjr, if_pos ⟨List.mem_cons_of_mem i hjr.1, hjr.2⟩]
          · rw [if_neg hjr, if_neg (fun hcc => hjr ⟨(List.mem_cons.mp hcc.1).resolve_left hji, hcc.2⟩)]
      · rw [hem, List.filterMap_cons]
        have hfm : rest.filterMap (fun i2 =>
            if (slotAtV c (vec.set i c.sentinelPair) i2).1 ≠ c.sentinelKey then
              some (p, (slotAtV c (vec.set i c.sentinelPair) i2).1,
                (slotAtV c (vec.set i c.sentinelPair) i2).2) else none) =
            rest.filterMap (fun i2 =>
            if (slotAtV c vec i2).1 ≠ c.sentinelKey then
              some (p, (slotAtV c vec i2).1, (slotAtV c vec i2).2) else none) := by
          apply List.filterMap_congr
          intro i2 hi2
          rw [slotAtV_set_ne c vec i i2 c.sentinelPair
            (fun hcc => hnotmem (hcc ▸ hi2))]
        rw [hfm, if_pos hni]
        simp [List.append_assoc]
    · -- free slot: skipped
      have hstep : flushStep c p (vec, em) i = (vec, em) := by
        simp only [flushStep]
        rw [if_neg hni]
      obtain ⟨hpt, hln, hem⟩ := ih hndrest vec em
      rw [hstep]
      refine ⟨fun j => ?_, hln, ?_⟩
      · rw [hpt j]
        by_cases hji : j = i
        · subst hji
          rw [if_neg (fun hcc => hnotmem hcc.1), if_neg (fun hcc => hni hcc.2)]
        · by_cases hjr : j ∈ rest ∧ (slotAtV c vec j).1 ≠ c.sentinelKey
          · rw [if_pos hjr, if_pos ⟨List.mem_cons_of_mem i hjr.1, hjr.2⟩]
          · rw [if_neg hjr, if_neg (fun hcc => hjr ⟨(List.mem_cons.mp hcc.1).resolve_left hji, hcc.2⟩)]
      · rw [hem, List.filterMap_cons, if_neg hni]

/-! #### Geometry and counter invariants -/

/-- Number of non-free slots among indices `lo, lo+1, ..., lo+n-1`. -/
def liveInRange (c : TableCfg Key Value) (vec : List (Key × Value)) (lo n : Nat) : Nat :=
  ((List.range n).map (lo + ·)).countP
    (fun i => decide ((slotAtV c vec i).1 ≠ c.sentinelKey))

/-- Structural well-formedness of a table state, established by `init`
and preserved by every operation. -/
structure GeoInv (c : TableCfg Key Value) (st : TableState Key Value) : Prop where
  size : st.tableSize = c.numPartitions * st.numItemsPerPartition
  vecLen : st.vector.length = st.tableSize
  partsLen : st.itemsPerPartition.length = c.numPartitions
  ppPos : 0 < st.numItemsPerPartition
  pPos : 0 < c.numPartitions

/-- The count-slot coherence invariant of claim C10: the total counter
is the number of non-free slots of the table and each per-partition
counter is the number of non-free slots in that partition's range. -/
structure CountsInv (c : TableCfg Key Value) (st : TableState Key Value) : Prop where
  parts : ∀ p, p < c.numPartitions →
    st.itemsPerPartition.getD p 0 =
      liveInRange c st.vector (p * st.numItemsPerPartition) st.numItemsPerPartition
  total : st.numItems = liveInRange c st.vector 0 st.tableSize

theorem getD_set_self' {α : Type} (l : List α) (i : Nat) (a d : α) (h : i < l.length) :
    (l.set i a).getD i d = a := by
  rw [List.getD_eq_getElem?_getD, List.getElem?_set_eq h]
  rfl

theorem getD_set_diff {α : Type} (l : List α) (i j : Nat) (a d : α) (h : i ≠ j) :
    (l.set i a).getD j d = l.getD j d := by
  rw [List.getD_eq_getElem?_getD, List.getElem?_set_ne h, ← List.getD_eq_getElem?_getD]

theorem mem_mapped_range (lo n j : Nat) :
    j ∈ (List.range n).map (lo + ·) ↔ lo ≤ j ∧ j < lo + n := by
  simp only [List.mem_map, List.mem_range]
  constructor
  · rintro ⟨a, ha, rfl⟩
    omega
  · rintro ⟨h1, h2⟩
    exact ⟨j - lo, by omega, by omega⟩

theorem liveInRange_congr (c : TableCfg Key Value) (vec1 vec2 : List (Key × Value))
    (lo n : Nat) (h : ∀ j, lo ≤ j → j < lo + n → slotAtV c vec1 j = slotAtV c vec2 j) :
    liveInRange c vec1 lo n = liveInRange c vec2 lo n := by
  unfold liveInRange
  apply List.countP_congr
  intro j hj
  rw [mem_mapped_range] at hj
  rw [h j hj.1 hj.2]

theorem liveInRange_add (c : TableCfg Key Value) (vec : List (Key × Value))
    (lo a b : Nat) :
    liveInRange c vec lo (a + b) =
      liveInRange c vec lo a + liveInRange c vec (lo + a) b := by
  unfold liveInRange
  rw [List.range_add, List.map_append, List.countP_append, List.map_map]
  congr 1
  have hmap : (List.range b).map ((fun x => lo + x) ∘ fun x => a + x) =
      (List.range b).map (fun x => lo + a + x) := by
    apply List.map_congr_left
    intro x _
    simp [Function.comp]
    omega
  rw [hmap]

theorem liveInRange_set_out (c : TableCfg Key Value) (vec : List (Key × Value))
    (i : Nat) (kv : Key × Value) (lo n : Nat) (h : i < lo ∨ lo + n ≤ i) :
    liveInRange c (vec.set i kv) lo n = liveInRange c vec lo n := by
  apply liveInRange_congr
  intro j h1 h2
  exact slotAtV_set_ne c vec i j kv (by omega)

theorem liveInRange_set_in (c : TableCfg Key Value) (vec : List (Key × Value))
    (i : Nat) (kv : Key × Value) (lo n : Nat) (hin1 : lo ≤ i) (hin2 : i < lo + n)
    (hi : i < vec.length) (hold : (slotAtV c vec i).1 = c.sentinelKey)
    (hnew : kv.1 ≠ c.sentinelKey) :
    liveInRange c (vec.set i kv) lo n = liveInRange c vec lo n + 1 := by
  unfold liveInRange
  rw [mapped_range_split lo n (i - lo) (by omega)]
  rw [show lo + (i - lo) = i from by omega]
  rw [List.countP_append, List.countP_append, List.countP_append, List.countP_append]
  have hA : ((List.range (i - lo)).map (lo + ·)).countP
      (fun j => decide ((slotAtV c (vec.set i kv) j).1 ≠ c.sentinelKey)) =
      ((List.range (i - lo)).map (lo + ·)).countP
      (fun j => decide ((slotAtV c vec j).1 ≠ c.sentinelKey)) := by
    apply List.countP_congr
    intro j hj
    rw [mem_mapped_range] at hj
    rw [slotAtV_set_ne c vec i j kv (by omega)]
  have hB : ((List.range (n - (i - lo) - 1)).map (fun j => lo + (i - lo + 1 + j))).countP
      (fun j => decide ((slotAtV c (vec.set i kv) j).1 ≠ c.sentinelKey)) =
      ((List.range (n - (i - lo) - 1)).map (fun j => lo + (i - lo + 1 + j))).countP
      (fun j => decide ((slotAtV c vec j).1 ≠ c.sentinelKey)) := by
    apply List.countP_congr
    intro j hj
    simp only [List.mem_map, List.mem_range] at hj
    obtain ⟨a, _, rfl⟩ := hj
    rw [slotAtV_set_ne c vec i _ kv (by omega)]
  rw [hA, hB]
  have hM1 : List.countP (fun j => decide ((slotAtV c (vec.set i kv) j).1 ≠ c.sentinelKey))
      [i] = 1 := by
    rw [List.countP_cons, List.countP_nil]
    rw [slotAtV_set_self c vec i kv hi]
    simp [hnew]
  have hM2 : List.countP (fun j => decide ((slotAtV c vec j).1 ≠ c.sentinelKey)) [i] = 0 := by
    rw [List.countP_cons, List.countP_nil]
    simp [hold]
  rw [hM1, hM2]
  omega

theorem liveInRange_replicate (c : TableCfg Key Value) (m lo n : Nat) :
    liveInRange c (List.replicate m c.sentinelPair) lo n = 0 := by
  unfold liveInRange
  rw [List.countP_eq_zero]
  intro j _
  rw [slotAtV_replicate]
  simp [TableCfg.sentinelPair]

/-- Projections of `flushPartition`. -/
theorem flushPartition_eq (c : TableCfg Key Value) (p : Nat) (st : TableState Key Value) :
    flushPartition c p st = { st with
      vector := (((List.range st.numItemsPerPartition).map
        (p * st.numItemsPerPartition + ·)).foldl (flushStep c p)
        (st.vector, st.emitted)).1
      emitted := (((List.range st.numItemsPerPartition).map
        (p * st.numItemsPerPartition + ·)).foldl (flushStep c p)
        (st.vector, st.emitted)).2
      numItems := st.numItems - st.itemsPerPartition.getD p 0
      itemsPerPartition := st.itemsPerPartition.set p 0 } := rfl

/-- `FlushPartition` preserves the geometry and restores count-slot
coherence: the flushed partition's range becomes all-free and its
counter zero, everything else is untouched. -/
theorem flushPartition_counts (c : TableCfg Key Value) (st : TableState Key Value)
    (p : Nat) (hp : p < c.numPartitions) (hg : GeoInv c st) (hc : CountsInv c st) :
    GeoInv c (flushPartition c p st) ∧ CountsInv c (flushPartition c p st) := by
  obtain ⟨hchar, hlen, hem⟩ := flushFold_char c p
    ((List.range st.numItemsPerPartition).map (p * st.numItemsPerPartition + ·))
    (List.Nodup.map (fun a b => by omega) (List.nodup_range _))
    st.vector st.emitted
  have hlo : p * st.numItemsPerPartition + st.numItemsPerPartition ≤ st.tableSize := by
    rw [hg.size]
    have h1 : p + 1 ≤ c.numPartitions := by omega
    calc p * st.numItemsPerPartition + st.numItemsPerPartition
        = (p + 1) * st.numItemsPerPartition := by ring
      _ ≤ c.numPartitions * st.numItemsPerPartition :=
        Nat.mul_le_mul_right _ h1
  -- slots outside the flushed range are untouched
  have huntouched : ∀ j, (j < p * st.numItemsPerPartition ∨
      p * st.numItemsPerPartition + st.numItemsPerPartition ≤ j) →
      slotAtV c (flushPartition c p st).vector j = slotAtV c st.vector j := by
    intro j hj
    rw [flushPartition_eq]
    rw [hchar j, if_neg]
    rintro ⟨hmem, _⟩
    rw [mem_mapped_range] at hmem
    omega
  -- slots inside the flushed range are free afterwards
  have hinside : ∀ j, p * st.numItemsPerPartition ≤ j →
      j < p * st.numItemsPerPartition + st.numItemsPerPartition →
      (slotAtV c (flushPartition c p st).vector j).1 = c.sentinelKey := by
    intro j h1 h2
    rw [flushPartition_eq, hchar j]
    by_cases hfree : (slotAtV c st.vector j).1 ≠ c.sentinelKey
    · rw [if_pos ⟨(mem_mapped_range _ _ _).mpr ⟨h1, h2⟩, hfree⟩]
      rfl
    · rw [if_neg (fun hcc => hfree hcc.2)]
      exact not_not.mp hfree
  have hveclen : (flushPartition c p st).vector.length = st.vector.length := by
    rw [flushPartition_eq]
    exact hlen
  have hts : (flushPartition c p st).tableSize = st.tableSize := rfl
  have hpp : (flushPartition c p st).numItemsPerPartition = st.numItemsPerPartition := rfl
  have hipp : (flushPartition c p st).itemsPerPartition = st.itemsPerPartition.set p 0 := rfl
  have hnum : (flushPartition c p st).numItems =
      st.numItems - st.itemsPerPartition.getD p 0 := rfl
  refine ⟨⟨by rw [hts, hpp]; exact hg.size, by rw [hveclen, hts, hg.vecLen],
    by rw [hipp, List.length_set]; exact hg.partsLen,
    by rw [hpp]; exact hg.ppPos, hg.pPos⟩, ?_, ?_⟩
  · -- per-partition counters
    intro q hq
    rw [hipp, hpp]
    by_cases hqp : q = p
    · subst hqp
      rw [getD_set_self' _ _ _ _ (by rw [hg.partsLen]; omega)]
      symm
      unfold liveInRange
      rw [List.countP_eq_zero]
      intro j hj
      rw [mem_mapped_range] at hj
      simp only [decide_eq_true_eq, Decidable.not_not]
      exact hinside j hj.1 hj.2
    · rw [getD_set_diff _ _ _ _ _ (fun hcc => hqp hcc.symm), hc.parts q hq]
      apply liveInRange_congr
      intro j h1 h2
      symm
      apply huntouched
      rcases Nat.lt_or_ge q p with hqlt | hqge
      · left
        calc j < q * st.numItemsPerPartition + st.numItemsPerPartition := h2
          _ = (q + 1) * st.numItemsPerPartition := by ring
          _ ≤ p * st.numItemsPerPartition :=
            Nat.mul_le_mul_right _ (by omega)
      · right
        have hpq : p + 1 ≤ q := by omega
        calc p * st.numItemsPerPartition + st.numItemsPerPartition
            = (p + 1) * st.numItemsPerPartition := by ring
          _ ≤ q * st.numItemsPerPartition := Nat.mul_le_mul_right _ hpq
          _ ≤ j := h1
  · -- total counter
    rw [hnum, hts]
    have hsplit : st.tableSize = p * st.numItemsPerPartition +
        st.numItemsPerPartition +
        (st.tableSize - p * st.numItemsPerPartition - st.numItemsPerPartition) := by
      omega
    have htot := hc.total
    rw [hsplit] at htot ⊢
    rw [liveInRange_add, liveInRange_add] at htot ⊢
    simp only [Nat.zero_add] at htot ⊢
    have hA : liveInRange c (flushPartition c p st).vector 0
        (p * st.numItemsPerPartition) =
        liveInRange c st.vector 0 (p * st.numItemsPerPartition) := by
      apply liveInRange_congr
      intro j h1 h2
      exact huntouched j (Or.inl (by omega))
    have hB : liveInRange c (flushPartition c p st).vector
        (p * st.numItemsPerPartition) st.numItemsPerPartition = 0 := by
      unfold liveInRange
      rw [List.countP_eq_zero]
      intro j hj
      rw [mem_mapped_range] at hj
      simp only [decide_eq_true_eq, Decidable.not_not]
      exact hinside j hj.1 hj.2
    have hC : liveInRange c (flushPartition c p st).vector
        (p * st.numItemsPerPartition + st.numItemsPerPartition)
        (st.tableSize - p * st.numItemsPerPartition - st.numItemsPerPartition) =
        liveInRange c st.vector
        (p * st.numItemsPerPartition + st.numItemsPerPartition)
        (st.tableSize - p * st.numItemsPerPartition - st.numItemsPerPartition) := by
      apply liveInRange_congr
      intro j h1 h2
      exact huntouched j (Or.inr (by omega))
    rw [hA, hB, hC, hc.parts p hp]
    omega


/-- The argmax scan of `FlushLargestPartition` yields a valid
partition index. -/
theorem largestPartitionIndex_lt (c : TableCfg Key Value) (st : TableState Key Value)
    (hP : 0 < c.numPartitions) : largestPartitionIndex c st < c.numPartitions := by
  unfold largestPartitionIndex
  have hgen : ∀ (l : List Nat) (acc : Nat × Nat), acc.2 < c.numPartitions →
      (∀ i ∈ l, i < c.numPartitions) →
      (l.foldl (fun acc i =>
        if st.itemsPerPartition.getD i 0 > acc.1 then (st.itemsPerPartition.getD i 0, i)
        else acc) acc).2 < c.numPartitions := by
    intro l
    induction l with
    | nil => intro acc hacc _; exact hacc
    | cons i rest ihl =>
      intro acc hacc hmem
      rw [List.foldl_cons]
      by_cases hcond : st.itemsPerPartition.getD i 0 > acc.1
      · rw [if_pos hcond]
        exact ihl _ (hmem i (List.mem_cons_self _ _)) (fun j hj => hmem j (List.mem_cons_of_mem _ hj))
      · rw [if_neg hcond]
        exact ihl _ hacc (fun j hj => hmem j (List.mem_cons_of_mem _ hj))
  exact hgen _ (0, 0) hP (fun i hi => (List.mem_range).mp hi)

/-- `init` always takes the success branch: the guard also requires
`num_partitions_ > table_size_`, which can never hold together with the
divisibility failure since `table_size_ = P * scale`. -/
theorem initTable_ok (c : TableCfg Key Value) :
    initTable c = Except.ok
      { numItems := 0
        numItemsPerPartition :=
          c.numPartitions * c.numItemsInitScale / c.numPartitions
        itemsPerPartition := List.replicate c.numPartitions 0
        tableSize := c.numPartitions * c.numItemsInitScale
        vector := List.replicate (c.numPartitions * c.numItemsInitScale)
          c.sentinelPair
        emitted := [] } := by
  rw [initTable, if_neg]
  intro hcontra
  exact hcontra.2 (Nat.mul_mod_right _ _)

/-- Geometry and coherent zero counters hold after `init`. -/
theorem initTable_counts (c : TableCfg Key Value) (st0 : TableState Key Value)
    (hP : 0 < c.numPartitions) (hs : 0 < c.numItemsInitScale)
    (h : initTable c = Except.ok st0) : GeoInv c st0 ∧ CountsInv c st0 := by
  have h2 := initTable_ok c
  rw [h] at h2
  injection h2 with h3
  subst h3
  have hdiv : c.numPartitions * c.numItemsInitScale / c.numPartitions =
      c.numItemsInitScale := by
    rw [Nat.mul_div_cancel_left _ hP]
  refine ⟨⟨?_, ?_, ?_, ?_, hP⟩, ?_, ?_⟩
  · show c.numPartitions * c.numItemsInitScale = c.numPartitions * _
    rw [hdiv]
  · show (List.replicate _ _).length = _
    rw [List.length_replicate]
  · show (List.replicate _ _).length = _
    rw [List.length_replicate]
  · show 0 < c.numPartitions * c.numItemsInitScale / c.numPartitions
    rw [hdiv]; exact hs
  · intro p hp
    show (List.replicate c.numPartitions 0).getD p 0 = _
    rw [liveInRange_replicate]
    rw [List.getD_eq_getElem?_getD, List.getElem?_replicate]
    by_cases hcc : p < c.numPartitions <;> simp [hcc]
  · show 0 = liveInRange c (List.replicate _ c.sentinelPair) 0 _
    rw [liveInRange_replicate]

/-- `liveInRange` only looks at the keys of the slots. -/
theorem liveInRange_congr_key (c : TableCfg Key Value) (vec1 vec2 : List (Key × Value))
    (lo n : Nat)
    (h : ∀ j, lo ≤ j → j < lo + n → (slotAtV c vec1 j).1 = (slotAtV c vec2 j).1) :
    liveInRange c vec1 lo n = liveInRange c vec2 lo n := by
  unfold liveInRange
  apply List.countP_congr
  intro j hj
  rw [mem_mapped_range] at hj
  rw [h j hj.1 hj.2]

/-- The in-place reduction rewrites only the value of slot `i`; every
slot key is unchanged. -/
theorem reduceState_key (c : TableCfg Key Value) (st : TableState Key Value)
    (i : Nat) (v : Value) (j : Nat) :
    (slotAtV c (reduceState c st i v).vector j).1 = (slotAtV c st.vector j).1 := by
  show (slotAtV c (st.vector.set i _) j).1 = _
  by_cases hji : j = i
  · subst hji
    by_cases hlen : j < st.vector.length
    · rw [slotAtV_set_self c st.vector j _ hlen]
      rfl
    · rw [slotAtV_ge_length c _ j (by rw [List.length_set]; omega),
        slotAtV_ge_length c _ j (by omega)]
  · rw [slotAtV_set_ne c st.vector i j _ (fun h2 => hji h2.symm)]

/-- The in-place reduction of `Insert` preserves geometry and the
count-slot coherence. -/
theorem reduceState_counts (c : TableCfg Key Value) (st : TableState Key Value)
    (i : Nat) (v : Value) (hg : GeoInv c st) (hc : CountsInv c st) :
    GeoInv c (reduceState c st i v) ∧ CountsInv c (reduceState c st i v) := by
  have hkeep : ∀ lo n, liveInRange c (reduceState c st i v).vector lo n =
      liveInRange c st.vector lo n := by
    intro lo n
    exact liveInRange_congr_key c _ _ lo n (fun j _ _ => reduceState_key c st i v j)
  refine ⟨⟨hg.size, ?_, hg.partsLen, hg.ppPos, hg.pPos⟩, ?_, ?_⟩
  · show (st.vector.set i _).length = st.tableSize
    rw [List.length_set, hg.vecLen]
  · intro p hp
    show st.itemsPerPartition.getD p 0 = _
    rw [hkeep]
    exact hc.parts p hp
  · show st.numItems = _
    rw [hkeep]
    exact hc.total

/-- Storing a new pair into a free slot of partition `pid` preserves
geometry and count-slot coherence. -/
theorem placeState_counts (c : TableCfg Key Value) (st : TableState Key Value)
    (pid i : Nat) (kv : Key × Value) (hg : GeoInv c st) (hc : CountsInv c st)
    (hpid : pid < c.numPartitions)
    (hlo : pid * st.numItemsPerPartition ≤ i)
    (hhi : i < pid * st.numItemsPerPartition + st.numItemsPerPartition)
    (hold : (slotAtV c st.vector i).1 = c.sentinelKey)
    (hnew : kv.1 ≠ c.sentinelKey) :
    GeoInv c (placeState c st pid i kv) ∧ CountsInv c (placeState c st pid i kv) := by
  have hivec : i < st.vector.length := by
    rw [hg.vecLen, hg.size]
    have h1 : (pid + 1) * st.numItemsPerPartition ≤
        c.numPartitions * st.numItemsPerPartition :=
      Nat.mul_le_mul_right _ (by omega)
    rw [Nat.succ_mul] at h1
    omega
  refine ⟨⟨hg.size, ?_, ?_, hg.ppPos, hg.pPos⟩, ?_, ?_⟩
  · show (st.vector.set i kv).length = st.tableSize
    rw [List.length_set, hg.vecLen]
  · show (st.itemsPerPartition.set pid _).length = c.numPartitions
    rw [List.length_set, hg.partsLen]
  · intro p hp
    show (st.itemsPerPartition.set pid (st.itemsPerPartition.getD pid 0 + 1)).getD p 0 =
      liveInRange c (st.vector.set i kv) (p * st.numItemsPerPartition)
        st.numItemsPerPartition
    by_cases hppid : p = pid
    · subst hppid
      rw [getD_set_self' _ _ _ _ (by rw [hg.partsLen]; omega)]
      rw [liveInRange_set_in c st.vector i kv _ _ hlo hhi hivec hold hnew]
      rw [hc.parts p hp]
    · rw [getD_set_diff _ _ _ _ _ (fun h2 => hppid h2.symm)]
      rw [liveInRange_set_out c st.vector i kv _ _ ?_]
      · exact hc.parts p hp
      · by_cases hlt : p < pid
        · right
          have h1 : (p + 1) * st.numItemsPerPartition ≤
              pid * st.numItemsPerPartition :=
            Nat.mul_le_mul_right _ (by omega)
          rw [Nat.succ_mul] at h1
          omega
        · left
          have h1 : (pid + 1) * st.numItemsPerPartition ≤
              p * st.numItemsPerPartition :=
            Nat.mul_le_mul_right _ (by omega)
          rw [Nat.succ_mul] at h1
          omega
  · show st.numItems + 1 = liveInRange c (st.vector.set i kv) 0 st.tableSize
    rw [liveInRange_set_in c st.vector i kv 0 st.tableSize (by omega) ?_ hivec hold hnew]
    · rw [hc.total]
    · rw [hg.vecLen] at hivec
      omega

/-- The grow-and-clear phase of `ResizeUp` restores geometry and
trivially satisfies count-slot coherence (everything is zero). -/
theorem resizeBase_counts (c : TableCfg Key Value) (st : TableState Key Value)
    (hg : GeoInv c st) (hscale : 0 < c.numItemsResizeScale) :
    GeoInv c (resizeBase c st) ∧ CountsInv c (resizeBase c st) := by
  have hdiv : st.tableSize * c.numItemsResizeScale / c.numPartitions =
      st.numItemsPerPartition * c.numItemsResizeScale := by
    rw [hg.size, Nat.mul_assoc, Nat.mul_div_cancel_left _ hg.pPos]
  refine ⟨⟨?_, ?_, ?_, ?_, hg.pPos⟩, ?_, ?_⟩
  · show st.tableSize * c.numItemsResizeScale =
      c.numPartitions * (st.tableSize * c.numItemsResizeScale / c.numPartitions)
    rw [hdiv, hg.size, Nat.mul_assoc]
  · show (List.replicate (st.tableSize * c.numItemsResizeScale)
      c.sentinelPair).length = st.tableSize * c.numItemsResizeScale
    rw [List.length_replicate]
  · show (List.replicate c.numPartitions (0 : Nat)).length = c.numPartitions
    rw [List.length_replicate]
  · show 0 < st.tableSize * c.numItemsResizeScale / c.numPartitions
    rw [hdiv]
    exact Nat.mul_pos hg.ppPos hscale
  · intro p hp
    show (List.replicate c.numPartitions (0 : Nat)).getD p 0 =
      liveInRange c (List.replicate (st.tableSize * c.numItemsResizeScale)
        c.sentinelPair)
        (p * (st.tableSize * c.numItemsResizeScale / c.numPartitions))
        (st.tableSize * c.numItemsResizeScale / c.numPartitions)
    rw [liveInRange_replicate, List.getD_eq_getElem?_getD, List.getElem?_replicate]
    simp [hp]
  · show 0 = liveInRange c (List.replicate (st.tableSize * c.numItemsResizeScale)
      c.sentinelPair) 0 (st.tableSize * c.numItemsResizeScale)
    rw [liveInRange_replicate]

/-- Master invariant theorem: every step of the fueled table semantics
(`Insert`, `ResizeUp` and its rehash loop) preserves geometry and the
count-slot coherence, provided the key extractor never produces the
sentinel key, inserted keys are never the sentinel and the resize
scale is positive. -/
theorem tableGo_counts (c : TableCfg Key Value)
    (hsk : ∀ v, c.keyExtractor v ≠ c.sentinelKey)
    (hscale : 0 < c.numItemsResizeScale) :
    ∀ (fuel : Nat) (cmd : TableCmd Key Value) (st st' : TableState Key Value),
      GeoInv c st → CountsInv c st →
      (∀ kv, cmd = .insert kv → kv.1 ≠ c.sentinelKey) →
      tableGo c fuel cmd st = some st' →
      GeoInv c st' ∧ CountsInv c st' := by
  intro fuel
  induction fuel with
  | zero =>
    intro cmd st st' _ _ _ h
    exact absurd h (by simp [tableGo])
  | succ fuel ih =>
    intro cmd st st' hg hc hpre hrun
    cases cmd with
    | insert kv =>
      have hkv : kv.1 ≠ c.sentinelKey := hpre kv rfl
      have hP := hg.pPos
      have hpp := hg.ppPos
      simp only [tableGo, indexResult] at hrun
      split at hrun
      · -- reduceAt
        injection hrun with h2
        subst h2
        exact reduceState_counts c st _ kv.2 hg hc
      · -- placeAt
        rename_i i heqp
        have ho : c.hashFunction kv.1 % st.numItemsPerPartition <
            st.numItemsPerPartition := Nat.mod_lt _ hpp
        have hpid : c.hashFunction kv.1 % c.numPartitions < c.numPartitions :=
          Nat.mod_lt _ hP
        rcases probeAux_char c st.vector kv.1 (c.hashFunction kv.1 % c.numPartitions)
            st.numItemsPerPartition st.numItemsPerPartition
            (c.hashFunction kv.1 % st.numItemsPerPartition) ho with
          ⟨n, _, hpe, hsent, _⟩ | ⟨n, _, hpe, _, _, _⟩ | ⟨hpe, _⟩
        · rw [heqp] at hpe
          injection hpe with hi
          subst hi
          have hbd := probePos_lt st.numItemsPerPartition
            (c.hashFunction kv.1 % c.numPartitions * st.numItemsPerPartition)
            (c.hashFunction kv.1 % st.numItemsPerPartition) n hpp
          have hpc := placeState_counts c st
            (c.hashFunction kv.1 % c.numPartitions) _ kv hg hc hpid
            hbd.1 hbd.2 hsent hkv
          set s1 := placeState c st (c.hashFunction kv.1 % c.numPartitions)
            (probePos st.numItemsPerPartition
              (c.hashFunction kv.1 % c.numPartitions * st.numItemsPerPartition)
              (c.hashFunction kv.1 % st.numItemsPerPartition) n) kv with hs1
          split at hrun
          · -- spill to the largest partition was taken
            have hs2 := flushPartition_counts c s1 _
              (largestPartitionIndex_lt c s1 hpc.1.pPos) hpc.1 hpc.2
            split at hrun
            · exact ih .resize _ st' hs2.1 hs2.2 (fun kv' h => nomatch h) hrun
            · injection hrun with h2
              subst h2
              exact hs2
          · -- no spill
            split at hrun
            · exact ih .resize _ st' hpc.1 hpc.2 (fun kv' h => nomatch h) hrun
            · injection hrun with h2
              subst h2
              exact hpc
        · rw [heqp] at hpe
          cases hpe
        · rw [heqp] at hpe
          cases hpe
      · -- full: resize then re-insert
        split at hrun
        · cases hrun
        · rename_i st1 heq2
          have h1 := ih .resize st st1 hg hc (fun kv' h => nomatch h) heq2
          exact ih (.insert kv) st1 st' h1.1 h1.2
            (fun kv' h => by cases h; exact hkv) hrun
    | resize =>
      simp only [tableGo] at hrun
      have hb := resizeBase_counts c st hg hscale
      exact ih (.rehash st.vector) (resizeBase c st) st' hb.1 hb.2
        (fun kv h => nomatch h) hrun
    | rehash l =>
      cases l with
      | nil =>
        simp only [tableGo] at hrun
        injection hrun with h2
        subst h2
        exact ⟨hg, hc⟩
      | cons kv rest =>
        simp only [tableGo] at hrun
        split at hrun
        · split at hrun
          · cases hrun
          · rename_i st1 heq2
            have h1 := ih (.insert (c.keyExtractor kv.2, kv.2)) st st1 hg hc
              (fun kv' h => by cases h; exact hsk kv.2) heq2
            exact ih (.rehash rest) st1 st' h1.1 h1.2 (fun kv' h => nomatch h) hrun
        · exact ih (.rehash rest) st st' hg hc (fun kv' h => nomatch h) hrun

/-- `Flush` preserves geometry and count-slot coherence. -/
theorem flushAll_counts (c : TableCfg Key Value) (st : TableState Key Value)
    (hg : GeoInv c st) (hc : CountsInv c st) :
    GeoInv c (flushAll c st) ∧ CountsInv c (flushAll c st) := by
  unfold flushAll
  have hgen : ∀ (l : List Nat), (∀ i ∈ l, i < c.numPartitions) →
      ∀ s, GeoInv c s → CountsInv c s →
      GeoInv c (l.foldl (fun s2 i => flushPartition c i s2) s) ∧
      CountsInv c (l.foldl (fun s2 i => flushPartition c i s2) s) := by
    intro l
    induction l with
    | nil => intro _ s hgs hcs; exact ⟨hgs, hcs⟩
    | cons i rest ihl =>
      intro hmem s hgs hcs
      rw [List.foldl_cons]
      have h1 := flushPartition_counts c s i (hmem i (List.mem_cons_self _ _)) hgs hcs
      exact ihl (fun j hj => hmem j (List.mem_cons_of_mem _ hj)) _ h1.1 h1.2
  exact hgen _ (fun i hi => (List.mem_range).mp hi) st hg hc

/-! #### Partition-stability invariant -/

/-- The partition-placement and emission invariant of claim C6: every
non-free slot lies inside the slot range of the partition determined by
its key's hash alone, and every emitted record was pushed to the writer
of the partition determined by its key's hash alone. -/
structure PEInv (c : TableCfg Key Value) (st : TableState Key Value) : Prop where
  place : ∀ i, (slotAtV c st.vector i).1 ≠ c.sentinelKey →
    c.hashFunction (slotAtV c st.vector i).1 % c.numPartitions *
      st.numItemsPerPartition ≤ i ∧
    i < c.hashFunction (slotAtV c st.vector i).1 % c.numPartitions *
      st.numItemsPerPartition + st.numItemsPerPartition
  emitp : ∀ e ∈ st.emitted, e.1 = c.hashFunction e.2.1 % c.numPartitions

/-- The in-place reduction preserves the placement invariant. -/
theorem reduceState_place (c : TableCfg Key Value) (st : TableState Key Value)
    (i : Nat) (v : Value) (hpe : PEInv c st) : PEInv c (reduceState c st i v) := by
  refine ⟨?_, ?_⟩
  · intro j hkey
    rw [reduceState_key c st i v j] at hkey ⊢
    exact hpe.place j hkey
  · exact hpe.emitp

/-- Storing a new pair at a probe position inside its key's partition
range preserves the placement invariant. -/
theorem placeState_place (c : TableCfg Key Value) (st : TableState Key Value)
    (i : Nat) (kv : Key × Value) (hivec : i < st.vector.length)
    (hlo : c.hashFunction kv.1 % c.numPartitions * st.numItemsPerPartition ≤ i)
    (hhi : i < c.hashFunction kv.1 % c.numPartitions * st.numItemsPerPartition +
      st.numItemsPerPartition)
    (hpe : PEInv c st) :
    PEInv c (placeState c st (c.hashFunction kv.1 % c.numPartitions) i kv) := by
  have hvec : (placeState c st (c.hashFunction kv.1 % c.numPartitions) i kv).vector =
      st.vector.set i kv := rfl
  refine ⟨?_, ?_⟩
  · intro j hkey
    rw [hvec] at hkey ⊢
    show c.hashFunction (slotAtV c (st.vector.set i kv) j).1 % c.numPartitions *
        st.numItemsPerPartition ≤ j ∧
      j < c.hashFunction (slotAtV c (st.vector.set i kv) j).1 % c.numPartitions *
        st.numItemsPerPartition + st.numItemsPerPartition
    by_cases hji : j = i
    · subst hji
      rw [slotAtV_set_self c st.vector j kv hivec] at hkey ⊢
      exact ⟨hlo, hhi⟩
    · rw [slotAtV_set_ne c st.vector i j kv (fun h2 => hji h2.symm)] at hkey ⊢
      exact hpe.place j hkey
  · exact hpe.emitp

/-- `FlushPartition` preserves the placement invariant: cleared slots
are free, and every record it emits carries the partition index of its
key's hash. -/
theorem flushPartition_place (c : TableCfg Key Value) (st : TableState Key Value)
    (p : Nat) (hpe : PEInv c st) : PEInv c (flushPartition c p st) := by
  obtain ⟨hchar, _, hem⟩ := flushFold_char c p
    ((List.range st.numItemsPerPartition).map (p * st.numItemsPerPartition + ·))
    (List.Nodup.map (fun a b => by omega) (List.nodup_range _))
    st.vector st.emitted
  rw [flushPartition_eq]
  refine ⟨?_, ?_⟩
  · intro j hkey
    show c.hashFunction (slotAtV c _ j).1 % c.numPartitions *
        st.numItemsPerPartition ≤ j ∧
      j < c.hashFunction (slotAtV c _ j).1 % c.numPartitions *
        st.numItemsPerPartition + st.numItemsPerPartition
    rw [hchar j] at hkey ⊢
    by_cases hcase : j ∈ (List.range st.numItemsPerPartition).map
        (p * st.numItemsPerPartition + ·) ∧ (slotAtV c st.vector j).1 ≠ c.sentinelKey
    · rw [if_pos hcase] at hkey
      exact absurd rfl hkey
    · rw [if_neg hcase] at hkey ⊢
      exact hpe.place j hkey
  · intro e hmem
    rw [hem] at hmem
    rcases List.mem_append.mp hmem with hold | hnew
    · exact hpe.emitp e hold
    · rcases List.mem_filterMap.mp hnew with ⟨i, hi, hfi⟩
      rw [mem_mapped_range] at hi
      by_cases hnf : (slotAtV c st.vector i).1 ≠ c.sentinelKey
      · rw [if_pos hnf] at hfi
        injection hfi with hfi2
        subst hfi2
        show p = c.hashFunction (slotAtV c st.vector i).1 % c.numPartitions
        have hpl := hpe.place i hnf
        by_contra hne
        rcases Nat.lt_or_ge (c.hashFunction (slotAtV c st.vector i).1 % c.numPartitions)
          p with hlt | hge
        · have h1 : (c.hashFunction (slotAtV c st.vector i).1 % c.numPartitions + 1) *
              st.numItemsPerPartition ≤ p * st.numItemsPerPartition :=
            Nat.mul_le_mul_right _ (by omega)
          rw [Nat.succ_mul] at h1
          omega
        · have hgt : p < c.hashFunction (slotAtV c st.vector i).1 % c.numPartitions := by
            omega
          have h1 : (p + 1) * st.numItemsPerPartition ≤
              c.hashFunction (slotAtV c st.vector i).1 % c.numPartitions *
                st.numItemsPerPartition :=
            Nat.mul_le_mul_right _ (by omega)
          rw [Nat.succ_mul] at h1
          omega
      · rw [if_neg hnf] at hfi
        exact absurd hfi (by simp)

/-- The grow-and-clear phase of `ResizeUp` trivially satisfies the
placement invariant. -/
theorem resizeBase_place (c : TableCfg Key Value) (st : TableState Key Value)
    (hpe : PEInv c st) : PEInv c (resizeBase c st) := by
  refine ⟨?_, ?_⟩
  · intro j hkey
    have hveq : (resizeBase c st).vector =
        List.replicate (st.tableSize * c.numItemsResizeScale) c.sentinelPair := rfl
    rw [hveq, slotAtV_replicate] at hkey
    exact absurd rfl hkey
  · exact hpe.emitp

/-- Master invariant theorem for claim C6: every step of the fueled
table semantics preserves the placement and emission invariant. -/
theorem tableGo_place (c : TableCfg Key Value)
    (hsk : ∀ v, c.keyExtractor v ≠ c.sentinelKey)
    (hscale : 0 < c.numItemsResizeScale) :
    ∀ (fuel : Nat) (cmd : TableCmd Key Value) (st st' : TableState Key Value),
      GeoInv c st → CountsInv c st → PEInv c st →
      (∀ kv, cmd = .insert kv → kv.1 ≠ c.sentinelKey) →
      tableGo c fuel cmd st = some st' →
      PEInv c st' := by
  intro fuel
  induction fuel with
  | zero =>
    intro cmd st st' _ _ _ _ h
    exact absurd h (by simp [tableGo])
  | succ fuel ih =>
    intro cmd st st' hg hc hpe hpre hrun
    cases cmd with
    | insert kv =>
      have hkv : kv.1 ≠ c.sentinelKey := hpre kv rfl
      have hP := hg.pPos
      have hpp := hg.ppPos
      simp only [tableGo, indexResult] at hrun
      split at hrun
      · injection hrun with h2
        subst h2
        exact reduceState_place c st _ kv.2 hpe
      · rename_i i heqp
        have ho : c.hashFunction kv.1 % st.numItemsPerPartition <
            st.numItemsPerPartition := Nat.mod_lt _ hpp
        have hpid : c.hashFunction kv.1 % c.numPartitions < c.numPartitions :=
          Nat.mod_lt _ hP
        rcases probeAux_char c st.vector kv.1 (c.hashFunction kv.1 % c.numPartitions)
            st.numItemsPerPartition st.numItemsPerPartition
            (c.hashFunction kv.1 % st.numItemsPerPartition) ho with
          ⟨n, _, hpe2, hsent, _⟩ | ⟨n, _, hpe2, _, _, _⟩ | ⟨hpe2, _⟩
        · rw [heqp] at hpe2
          injection hpe2 with hi
          subst hi
          have hbd := probePos_lt st.numItemsPerPartition
            (c.hashFunction kv.1 % c.numPartitions * st.numItemsPerPartition)
            (c.hashFunction kv.1 % st.numItemsPerPartition) n hpp
          have hivec : probePos st.numItemsPerPartition
              (c.hashFunction kv.1 % c.numPartitions * st.numItemsPerPartition)
              (c.hashFunction kv.1 % st.numItemsPerPartition) n < st.vector.length := by
            rw [hg.vecLen, hg.size]
            have h1 : (c.hashFunction kv.1 % c.numPartitions + 1) *
                st.numItemsPerPartition ≤
                c.numPartitions * st.numItemsPerPartition :=
              Nat.mul_le_mul_right _ (by omega)
            rw [Nat.succ_mul] at h1
            omega
          have hpc := placeState_counts c st
            (c.hashFunction kv.1 % c.numPartitions) _ kv hg hc hpid
            hbd.1 hbd.2 hsent hkv
          have hpl1 := placeState_place c st _ kv hivec hbd.1 hbd.2 hpe
          set s1 := placeState c st (c.hashFunction kv.1 % c.numPartitions)
            (probePos st.numItemsPerPartition
              (c.hashFunction kv.1 % c.numPartitions * st.numItemsPerPartition)
              (c.hashFunction kv.1 % st.numItemsPerPartition) n) kv with hs1
          split at hrun
          · have hs2 := flushPartition_counts c s1 _
              (largestPartitionIndex_lt c s1 hpc.1.pPos) hpc.1 hpc.2
            have hpl2 := flushPartition_place c s1 (largestPartitionIndex c s1) hpl1
            split at hrun
            · exact ih .resize _ st' hs2.1 hs2.2 hpl2 (fun kv' h => nomatch h) hrun
            · injection hrun with h2
              subst h2
              exact hpl2
          · split at hrun
            · exact ih .resize _ st' hpc.1 hpc.2 hpl1 (fun kv' h => nomatch h) hrun
            · injection hrun with h2
              subst h2
              exact hpl1
        · rw [heqp] at hpe2
          cases hpe2
        · rw [heqp] at hpe2
          cases hpe2
      · split at hrun
        · cases hrun
        · rename_i st1 heq2
          have h1 := tableGo_counts c hsk hscale fuel .resize st st1 hg hc
            (fun kv' h => nomatch h) heq2
          have h2 := ih .resize st st1 hg hc hpe (fun kv' h => nomatch h) heq2
          exact ih (.insert kv) st1 st' h1.1 h1.2 h2
            (fun kv' h => by cases h; exact hkv) hrun
    | resize =>
      simp only [tableGo] at hrun
      have hb := resizeBase_counts c st hg hscale
      exact ih (.rehash st.vector) (resizeBase c st) st' hb.1 hb.2
        (resizeBase_place c st hpe) (fun kv h => nomatch h) hrun
    | rehash l =>
      cases l with
      | nil =>
        simp only [tableGo] at hrun
        injection hrun with h2
        subst h2
        exact hpe
      | cons kv rest =>
        simp only [tableGo] at hrun
        split at hrun
        · split at hrun
          · cases hrun
          · rename_i st1 heq2
            have h1 := tableGo_counts c hsk hscale fuel
              (.insert (c.keyExtractor kv.2, kv.2)) st st1 hg hc
              (fun kv' h => by cases h; exact hsk kv.2) heq2
            have h2 := ih (.insert (c.keyExtractor kv.2, kv.2)) st st1 hg hc hpe
              (fun kv' h => by cases h; exact hsk kv.2) heq2
            exact ih (.rehash rest) st1 st' h1.1 h1.2 h2 (fun kv' h => nomatch h) hrun
        · exact ih (.rehash rest) st st' hg hc hpe (fun kv' h => nomatch h) hrun

/-- `Flush` preserves the placement invariant. -/
theorem flushAll_place (c : TableCfg Key Value) (st : TableState Key Value)
    (hpe : PEInv c st) : PEInv c (flushAll c st) := by
  unfold flushAll
  have hgen : ∀ (l : List Nat) (s : TableState Key Value), PEInv c s →
      PEInv c (l.foldl (fun s2 i => flushPartition c i s2) s) := by
    intro l
    induction l with
    | nil => intro s hs; exact hs
    | cons i rest ihl =>
      intro s hs
      rw [List.foldl_cons]
      exact ihl _ (flushPartition_place c s i hs)
  exact hgen _ st hpe

/-- User-visible operations of the table (`Insert(const Value&)`,
`FlushPartition`, `Flush`, `FlushLargestPartition`, `ResizeUp`). -/
inductive TableOp (Value : Type) where
  | ins (v : Value)
  | flushPart (p : Nat)
  | flushAllOp
  | flushLargest
  | resizeUp

/-- One user-visible operation (partition ids out of range are
rejected; the source indexes `items_per_partition_` unchecked). -/
def runOp (c : TableCfg Key Value) (fuel : Nat) (st : TableState Key Value) :
    TableOp Value → Option (TableState Key Value)
  | .ins v => insertVal c fuel st v
  | .flushPart p => if p < c.numPartitions then some (flushPartition c p st) else none
  | .flushAllOp => some (flushAll c st)
  | .flushLargest => some (flushLargestPartition c st)
  | .resizeUp => tableGo c fuel .resize st

/-- A sequence of user-visible operations. -/
def runOps (c : TableCfg Key Value) (fuel : Nat) (st : TableState Key Value)
    (ops : List (TableOp Value)) : Option (TableState Key Value) :=
  ops.foldlM (fun s op => runOp c fuel s op) st

/-- The placement invariant holds after `init`. -/
theorem initTable_place (c : TableCfg Key Value) (st0 : TableState Key Value)
    (h : initTable c = Except.ok st0) : PEInv c st0 := by
  have h2 := initTable_ok c
  rw [h] at h2
  injection h2 with h3
  have hv : st0.vector =
      List.replicate (c.numPartitions * c.numItemsInitScale) c.sentinelPair := by
    rw [h3]
  have hem : st0.emitted = [] := by
    rw [h3]
  refine ⟨?_, ?_⟩
  · intro j hkey
    rw [hv, slotAtV_replicate] at hkey
    exact absurd rfl hkey
  · intro e he
    rw [hem] at he
    cases he

/-- One user-visible operation preserves geometry, count coherence and
the placement invariant. -/
theorem runOp_inv (c : TableCfg Key Value)
    (hsk : ∀ v, c.keyExtractor v ≠ c.sentinelKey)
    (hscale : 0 < c.numItemsResizeScale)
    (fuel : Nat) (st st' : TableState Key Value) (op : TableOp Value)
    (hg : GeoInv c st) (hc : CountsInv c st) (hpe : PEInv c st)
    (h : runOp c fuel st op = some st') :
    GeoInv c st' ∧ CountsInv c st' ∧ PEInv c st' := by
  cases op with
  | ins v =>
    have h1 := tableGo_counts c hsk hscale fuel (.insert (c.keyExtractor v, v))
      st st' hg hc (fun kv hkv => by cases hkv; exact hsk v) h
    have h2 := tableGo_place c hsk hscale fuel (.insert (c.keyExtractor v, v))
      st st' hg hc hpe (fun kv hkv => by cases hkv; exact hsk v) h
    exact ⟨h1.1, h1.2, h2⟩
  | flushPart p =>
    simp only [runOp] at h
    split at h
    · rename_i hp
      injection h with h2
      subst h2
      have h1 := flushPartition_counts c st p hp hg hc
      exact ⟨h1.1, h1.2, flushPartition_place c st p hpe⟩
    · cases h
  | flushAllOp =>
    simp only [runOp] at h
    injection h with h2
    subst h2
    have h1 := flushAll_counts c st hg hc
    exact ⟨h1.1, h1.2, flushAll_place c st hpe⟩
  | flushLargest =>
    simp only [runOp] at h
    injection h with h2
    subst h2
    have h1 := flushPartition_counts c st _ (largestPartitionIndex_lt c st hg.pPos) hg hc
    exact ⟨h1.1, h1.2, flushPartition_place c st _ hpe⟩
  | resizeUp =>
    have h1 := tableGo_counts c hsk hscale fuel .resize st st' hg hc
      (fun kv hkv => nomatch hkv) h
    have h2 := tableGo_place c hsk hscale fuel .resize st st' hg hc hpe
      (fun kv hkv => nomatch hkv) h
    exact ⟨h1.1, h1.2, h2⟩

/-- A sequence of user-visible operations preserves geometry, count
coherence and the placement invariant. -/
theorem runOps_inv (c : TableCfg Key Value)
    (hsk : ∀ v, c.keyExtractor v ≠ c.sentinelKey)
    (hscale : 0 < c.numItemsResizeScale) :
    ∀ (ops : List (TableOp Value)) (fuel : Nat) (st st' : TableState Key Value),
      GeoInv c st → CountsInv c st → PEInv c st →
      runOps c fuel st ops = some st' →
      GeoInv c st' ∧ CountsInv c st' ∧ PEInv c st' := by
  intro ops
  induction ops with
  | nil =>
    intro fuel st st' hg hc hpe h
    have h2 : st = st' := by simpa [runOps] using h
    subst h2
    exact ⟨hg, hc, hpe⟩
  | cons op rest ihl =>
    intro fuel st st' hg hc hpe h
    simp only [runOps, List.foldlM_cons] at h
    cases heq : runOp c fuel st op with
    | none =>
      rw [heq] at h
      cases h
    | some st1 =>
      rw [heq] at h
      obtain ⟨h1, h2, h3⟩ := runOp_inv c hsk hscale fuel st st1 op hg hc hpe heq
      exact ihl fuel st1 st' h1 h2 h3 h

/-- Concrete configuration for the count-coherence witness: two
partitions, hash = identity, key = value mod 10, sentinel key 99 (no
key extracted from a value can ever equal it). -/
def C10cfg : TableCfg Nat Nat :=
  { keyExtractor := fun v => v % 10
    reduceFunction := fun a b => a + b
    hashFunction := id
    numPartitions := 2
    numItemsInitScale := 2
    numItemsResizeScale := 2
    maxPartitionFillRatioNum := 9
    maxPartitionFillRatioDen := 10
    maxNumItemsTable := 1048576
    sentinelKey := 99
    sentinelValue := 0 }

/-- A reachable state of `C10cfg`'s table holding one item `(0, 10)`
in slot 1 of partition 0. -/
def C10st : TableState Nat Nat :=
  { numItems := 1
    numItemsPerPartition := 2
    itemsPerPartition := [1, 0]
    tableSize := 4
    vector := [(99, 0), (0, 10), (99, 0), (99, 0)]
    emitted := [] }

/-! #### Content accounting for pre-reduce conservation -/

/-- Folding one more value into an optional accumulated content:
the first value for a key is stored, later ones are reduced into it
(`current->second = reduce_function_(current->second, v)`). -/
def bump (c : TableCfg Key Value) (o : Option Value) (v : Value) : Option Value :=
  some (match o with | none => v | some w => c.reduceFunction w v)

/-- The accumulated content of a value sequence under the reduce
function, in order. -/
def contentOpt (c : TableCfg Key Value) (l : List Value) : Option Value :=
  l.foldl (bump c) none

/-- Values emitted for key `k`, in emission order. -/
def emittedFor (k : Key) (em : List (Nat × Key × Value)) : List Value :=
  em.filterMap (fun e => if e.2.1 = k then some e.2.2 else none)

/-- Values stored in slots holding key `k`, in slot order. -/
def tableFor (c : TableCfg Key Value) (k : Key) (vec : List (Key × Value)) :
    List Value :=
  vec.filterMap (fun kv => if kv.1 = k then some kv.2 else none)

/-- Values of the input sequence whose extracted key is `k`, in
insertion order. -/
def insertedFor (c : TableCfg Key Value) (k : Key) (vs : List Value) : List Value :=
  vs.filterMap (fun v => if c.keyExtractor v = k then some v else none)

theorem contentOpt_append (c : TableCfg Key Value) (X Y : List Value) :
    contentOpt c (X ++ Y) = Y.foldl (bump c) (contentOpt c X) := by
  unfold contentOpt
  rw [List.foldl_append]

theorem emittedFor_append (k : Key) (em1 em2 : List (Nat × Key × Value)) :
    emittedFor k (em1 ++ em2) = emittedFor k em1 ++ emittedFor k em2 := by
  unfold emittedFor
  rw [List.filterMap_append]

/-- Splitting `List.range n` at its element `t`. -/
theorem range_split (n t : Nat) (ht : t < n) :
    List.range n =
      List.range t ++ [t] ++ (List.range (n - t - 1)).map (fun j => t + 1 + j) := by
  have h1 : n = t + 1 + (n - t - 1) := by omega
  conv_lhs => rw [h1]
  rw [List.range_add, List.range_succ]

theorem filterMap_range_eq_nil {β : Type} (f : Nat → Option β) (n : Nat)
    (h : ∀ j, j < n → f j = none) : (List.range n).filterMap f = [] := by
  induction n with
  | zero => rfl
  | succ m ihn =>
    rw [List.range_succ, List.filterMap_append,
      ihn (fun j hj => h j (by omega))]
    simp [List.filterMap_cons, h m (by omega)]

/-- A `filterMap` over `range n` whose function vanishes away from `i`
is the single survivor at `i`. -/
theorem filterMap_range_single {β : Type} (f : Nat → Option β) (n i : Nat)
    (hi : i < n) (h : ∀ j, j < n → j ≠ i → f j = none) :
    (List.range n).filterMap f = (f i).toList := by
  rw [range_split n i hi, List.filterMap_append, List.filterMap_append]
  rw [filterMap_range_eq_nil f i (fun j hj => h j (by omega) (by omega))]
  have h2 : ((List.range (n - i - 1)).map (fun j => i + 1 + j)).filterMap f = [] := by
    rw [List.filterMap_map]
    exact filterMap_range_eq_nil _ _ (fun j hj => h (i + 1 + j) (by omega) (by omega))
  rw [h2, List.append_nil, List.nil_append]
  cases hfi : f i <;> simp [List.filterMap_cons, hfi]

/-- Every member of a slot vector is the slot at some valid index. -/
theorem slotAtV_of_mem (c : TableCfg Key Value) (vec : List (Key × Value))
    (kv : Key × Value) (h : kv ∈ vec) :
    ∃ i, i < vec.length ∧ slotAtV c vec i = kv := by
  obtain ⟨i, hi, heq⟩ := List.mem_iff_getElem.mp h
  refine ⟨i, hi, ?_⟩
  unfold slotAtV
  rw [List.getD_eq_getElem?_getD, List.getElem?_eq_getElem hi]
  exact heq

/-- The slot-index form of `tableFor`. -/
theorem tableFor_eq_range (c : TableCfg Key Value) (k : Key)
    (vec : List (Key × Value)) :
    tableFor c k vec = (List.range vec.length).filterMap
      (fun i => if (slotAtV c vec i).1 = k then some (slotAtV c vec i).2 else none) := by
  unfold tableFor
  exact filterMap_eq_range_filterMap _ c vec

/-- `n`-th slot index of the probe path of key `k` (home bucket plus
`n` linear steps, wrapping inside the key's partition). -/
def homePos (c : TableCfg Key Value) (pp : Nat) (k : Key) (n : Nat) : Nat :=
  probePos pp (c.hashFunction k % c.numPartitions * pp) (c.hashFunction k % pp) n

/-- Structural invariants of the probing table needed for content
accounting: every occupied slot's key is the one extracted from its
value (`keyok`), no key occupies two slots (`uniq`), and every occupied
slot sits at the end of a gap-free probe path from its key's home
bucket (`clust`). -/
structure KInv (c : TableCfg Key Value) (st : TableState Key Value) : Prop where
  keyok : ∀ i, i < st.vector.length → (slotAtV c st.vector i).1 ≠ c.sentinelKey →
    c.keyExtractor (slotAtV c st.vector i).2 = (slotAtV c st.vector i).1
  uniq : ∀ i j, i < st.vector.length → j < st.vector.length →
    (slotAtV c st.vector i).1 ≠ c.sentinelKey →
    (slotAtV c st.vector i).1 = (slotAtV c st.vector j).1 → i = j
  clust : ∀ i, i < st.vector.length → (slotAtV c st.vector i).1 ≠ c.sentinelKey →
    ∃ n, n < st.numItemsPerPartition ∧
      i = homePos c st.numItemsPerPartition (slotAtV c st.vector i).1 n ∧
      ∀ m, m < n →
        (slotAtV c st.vector
          (homePos c st.numItemsPerPartition (slotAtV c st.vector i).1 m)).1 ≠
          c.sentinelKey

/-- Precondition of a table command: inserted pairs carry their value's
extracted, non-sentinel key; rehashed slot arrays are key-consistent. -/
def cmdOK (c : TableCfg Key Value) : TableCmd Key Value → Prop
  | .insert kv => kv.1 ≠ c.sentinelKey ∧ c.keyExtractor kv.2 = kv.1
  | .resize => True
  | .rehash l => ∀ kv ∈ l, kv.1 ≠ c.sentinelKey → c.keyExtractor kv.2 = kv.1

/-- The values a command is still about to fold into key `k`'s
content. -/
def cmdPend (c : TableCfg Key Value) : TableCmd Key Value → Key → List Value
  | .insert kv, k => if kv.1 = k then [kv.2] else []
  | .resize, _ => []
  | .rehash l, k => l.filterMap (fun kv => if kv.1 = k then some kv.2 else none)

/-- Two distinct partitions have disjoint slot ranges. -/
theorem partition_range_disjoint (pp p q i : Nat) (hne : p ≠ q)
    (h1 : p * pp ≤ i) (h2 : i < p * pp + pp)
    (h3 : q * pp ≤ i) (h4 : i < q * pp + pp) : False := by
  rcases Nat.lt_or_ge p q with h | h
  · have h5 := Nat.mul_le_mul_right pp (show p + 1 ≤ q by omega)
    rw [Nat.succ_mul] at h5
    omega
  · have h5 := Nat.mul_le_mul_right pp (show q + 1 ≤ p by omega)
    rw [Nat.succ_mul] at h5
    omega

/-- Writing a non-free pair cannot free any slot. -/
theorem nonsent_mono (c : TableCfg Key Value) (vec : List (Key × Value))
    (i : Nat) (kv : Key × Value) (hkv : kv.1 ≠ c.sentinelKey) (j : Nat)
    (h : (slotAtV c vec j).1 ≠ c.sentinelKey) :
    (slotAtV c (vec.set i kv) j).1 ≠ c.sentinelKey := by
  by_cases hji : j = i
  · subst hji
    by_cases hlen : j < vec.length
    · rw [slotAtV_set_self c vec j kv hlen]
      exact hkv
    · rw [slotAtV_ge_length c _ j (by rw [List.length_set]; omega)]
      rw [slotAtV_ge_length c _ j (by omega)] at h
      exact h
  · rw [slotAtV_set_ne c vec i j kv (fun h2 => hji h2.symm)]
    exact h

/-- The in-place reduction preserves the structural invariants. -/
theorem reduceState_kinv (c : TableCfg Key Value) (st : TableState Key Value)
    (i : Nat) (kv : Key × Value)
    (hstab : ∀ a b, c.keyExtractor a = c.keyExtractor b →
      c.keyExtractor (c.reduceFunction a b) = c.keyExtractor a)
    (hki : KInv c st)
    (hkeyi : (slotAtV c st.vector i).1 = kv.1)
    (hkv2 : c.keyExtractor kv.2 = kv.1) :
    KInv c (reduceState c st i kv.2) := by
  have hlen : (reduceState c st i kv.2).vector.length = st.vector.length := by
    show (st.vector.set i _).length = _
    rw [List.length_set]
  have hppp : (reduceState c st i kv.2).numItemsPerPartition =
      st.numItemsPerPartition := rfl
  have hfst : ∀ j, (slotAtV c (reduceState c st i kv.2).vector j).1 =
      (slotAtV c st.vector j).1 := reduceState_key c st i kv.2
  refine ⟨?_, ?_, ?_⟩
  · intro j hj hkey
    rw [hlen] at hj
    rw [hfst j] at hkey ⊢
    by_cases hji : j = i
    · subst hji
      show c.keyExtractor (slotAtV c (st.vector.set j _) j).2 = _
      rw [slotAtV_set_self c st.vector j _ hj]
      have hko := hki.keyok j hj hkey
      have h2 : c.keyExtractor (slotAt c st j).2 = c.keyExtractor kv.2 := by
        rw [hkv2, ← hkeyi]
        exact hko
      exact (hstab _ _ h2).trans hko
    · show c.keyExtractor (slotAtV c (st.vector.set i _) j).2 = _
      rw [slotAtV_set_ne c st.vector i j _ (fun h2 => hji h2.symm)]
      exact hki.keyok j hj hkey
  · intro a b ha hb hkeya heq
    rw [hlen] at ha hb
    rw [hfst a] at hkeya
    rw [hfst a, hfst b] at heq
    exact hki.uniq a b ha hb hkeya heq
  · intro a ha hkeya
    rw [hlen] at ha
    rw [hfst a] at hkeya
    rw [hppp, hfst a]
    obtain ⟨n, hn, hpos, hpre⟩ := hki.clust a ha hkeya
    refine ⟨n, hn, hpos, ?_⟩
    intro m hm
    rw [hfst]
    exact hpre m hm

/-- If probing for `kv.1` reaches a free slot with a clean prefix, no
slot of the table holds `kv.1`. -/
theorem no_slot_of_place (c : TableCfg Key Value) (st : TableState Key Value)
    (kv : Key × Value) (n : Nat) (hki : KInv c st) (hkv1 : kv.1 ≠ c.sentinelKey)
    (hsent : (slotAtV c st.vector (homePos c st.numItemsPerPartition kv.1 n)).1 =
      c.sentinelKey)
    (hclean : ∀ m, m < n →
      (slotAtV c st.vector (homePos c st.numItemsPerPartition kv.1 m)).1 ≠
        c.sentinelKey ∧
      (slotAtV c st.vector (homePos c st.numItemsPerPartition kv.1 m)).1 ≠ kv.1) :
    ∀ j, (slotAtV c st.vector j).1 ≠ kv.1 := by
  intro j
  by_cases hjlen : j < st.vector.length
  · intro hkeq
    have hns : (slotAtV c st.vector j).1 ≠ c.sentinelKey := by
      rw [hkeq]
      exact hkv1
    obtain ⟨nj, hnj, hpos, hpre⟩ := hki.clust j hjlen hns
    rw [hkeq] at hpos hpre
    rcases Nat.lt_trichotomy nj n with h | h | h
    · exact (hclean nj h).2 (by rw [← hpos]; exact hkeq)
    · subst h
      rw [← hpos] at hsent
      exact hns hsent
    · exact hpre n h hsent
  · rw [slotAtV_ge_length c _ j (by omega)]
    intro h
    exact hkv1 h.symm

/-- Storing a new pair at the end of its key's clean probe path
preserves the structural invariants. -/
theorem placeState_kinv (c : TableCfg Key Value) (st : TableState Key Value)
    (kv : Key × Value) (n : Nat) (hg : GeoInv c st) (hki : KInv c st)
    (hkv1 : kv.1 ≠ c.sentinelKey) (hkv2 : c.keyExtractor kv.2 = kv.1)
    (hn : n < st.numItemsPerPartition)
    (hsent : (slotAtV c st.vector (homePos c st.numItemsPerPartition kv.1 n)).1 =
      c.sentinelKey)
    (hclean : ∀ m, m < n →
      (slotAtV c st.vector (homePos c st.numItemsPerPartition kv.1 m)).1 ≠
        c.sentinelKey ∧
      (slotAtV c st.vector (homePos c st.numItemsPerPartition kv.1 m)).1 ≠ kv.1) :
    KInv c (placeState c st (c.hashFunction kv.1 % c.numPartitions)
      (homePos c st.numItemsPerPartition kv.1 n) kv) := by
  set i := homePos c st.numItemsPerPartition kv.1 n with hidef
  have hno := no_slot_of_place c st kv n hki hkv1 hsent hclean
  have hbd : c.hashFunction kv.1 % c.numPartitions * st.numItemsPerPartition ≤ i ∧
      i < c.hashFunction kv.1 % c.numPartitions * st.numItemsPerPartition +
        st.numItemsPerPartition :=
    probePos_lt _ _ _ _ hg.ppPos
  have hilen : i < st.vector.length := by
    rw [hg.vecLen, hg.size]
    have hpid : c.hashFunction kv.1 % c.numPartitions < c.numPartitions :=
      Nat.mod_lt _ hg.pPos
    have h1 := Nat.mul_le_mul_right st.numItemsPerPartition
      (show c.hashFunction kv.1 % c.numPartitions + 1 ≤ c.numPartitions by omega)
    rw [Nat.succ_mul] at h1
    omega
  have hvec : (placeState c st (c.hashFunction kv.1 % c.numPartitions) i kv).vector =
      st.vector.set i kv := rfl
  have hlen : (placeState c st (c.hashFunction kv.1 % c.numPartitions) i kv).vector.length =
      st.vector.length := by
    rw [hvec, List.length_set]
  have hppp : (placeState c st (c.hashFunction kv.1 % c.numPartitions)
      i kv).numItemsPerPartition = st.numItemsPerPartition := rfl
  refine ⟨?_, ?_, ?_⟩
  · intro j hj hkey
    rw [hlen] at hj
    rw [hvec] at hkey ⊢
    by_cases hji : j = i
    · subst hji
      rw [slotAtV_set_self c st.vector i kv hilen] at hkey ⊢
      exact hkv2
    · rw [slotAtV_set_ne c st.vector i j kv (fun h2 => hji h2.symm)] at hkey ⊢
      exact hki.keyok j hj hkey
  · intro a b ha hb hkeya heq
    rw [hlen] at ha hb
    rw [hvec] at hkeya heq
    by_cases hai : a = i <;> by_cases hbi : b = i
    · rw [hai, hbi]
    · subst hai
      rw [slotAtV_set_self c st.vector i kv hilen] at heq
      rw [slotAtV_set_ne c st.vector i b kv (fun h2 => hbi h2.symm)] at heq
      exact absurd heq.symm (hno b)
    · subst hbi
      rw [slotAtV_set_self c st.vector i kv hilen] at heq
      rw [slotAtV_set_ne c st.vector i a kv (fun h2 => hai h2.symm)] at heq hkeya
      exact absurd heq (hno a)
    · rw [slotAtV_set_ne c st.vector i a kv (fun h2 => hai h2.symm)] at hkeya heq
      rw [slotAtV_set_ne c st.vector i b kv (fun h2 => hbi h2.symm)] at heq
      exact hki.uniq a b ha hb hkeya heq
  · intro a ha hkey
    rw [hlen] at ha
    rw [hvec] at hkey ⊢
    rw [hppp]
    by_cases hai : a = i
    · subst hai
      rw [slotAtV_set_self c st.vector i kv hilen] at hkey ⊢
      refine ⟨n, hn, hidef, ?_⟩
      intro m hm
      exact nonsent_mono c st.vector i kv hkv1 _ ((hclean m hm).1)
    · rw [slotAtV_set_ne c st.vector i a kv (fun h2 => hai h2.symm)] at hkey ⊢
      obtain ⟨na, hna, hpos, hpre⟩ := hki.clust a ha hkey
      refine ⟨na, hna, hpos, ?_⟩
      intro m hm
      exact nonsent_mono c st.vector i kv hkv1 _ (hpre m hm)

/-- The grow-and-clear phase of `ResizeUp` trivially satisfies the
structural invariants. -/
theorem resizeBase_kinv (c : TableCfg Key Value) (st : TableState Key Value) :
    KInv c (resizeBase c st) := by
  have hveq : (resizeBase c st).vector =
      List.replicate (st.tableSize * c.numItemsResizeScale) c.sentinelPair := rfl
  refine ⟨?_, ?_, ?_⟩
  · intro j _ hkey
    rw [hveq, slotAtV_replicate] at hkey
    exact absurd rfl hkey
  · intro a b _ _ hka _
    rw [hveq, slotAtV_replicate] at hka
    exact absurd rfl hka
  · intro a _ hkey
    rw [hveq, slotAtV_replicate] at hkey
    exact absurd rfl hkey

/-- `FlushPartition` preserves the structural invariants: cleared slots
become free and untouched slots keep their clean probe paths, which lie
entirely inside their own partition's range. -/
theorem flushPartition_kinv (c : TableCfg Key Value) (st : TableState Key Value)
    (p : Nat) (hg : GeoInv c st) (hki : KInv c st) :
    KInv c (flushPartition c p st) := by
  obtain ⟨hchar, hlenf, _⟩ := flushFold_char c p
    ((List.range st.numItemsPerPartition).map (p * st.numItemsPerPartition + ·))
    (List.Nodup.map (fun a b => by omega) (List.nodup_range _))
    st.vector st.emitted
  have hsl : ∀ j, slotAtV c (flushPartition c p st).vector j =
      (if j ∈ (List.range st.numItemsPerPartition).map
          (p * st.numItemsPerPartition + ·) ∧
          (slotAtV c st.vector j).1 ≠ c.sentinelKey then c.sentinelPair
       else slotAtV c st.vector j) := hchar
  have hln : (flushPartition c p st).vector.length = st.vector.length := hlenf
  have hpq : (flushPartition c p st).numItemsPerPartition =
      st.numItemsPerPartition := rfl
  refine ⟨?_, ?_, ?_⟩
  · intro j hj hkey
    rw [hln] at hj
    rw [hsl j] at hkey ⊢
    by_cases hcond : j ∈ (List.range st.numItemsPerPartition).map
        (p * st.numItemsPerPartition + ·) ∧
        (slotAtV c st.vector j).1 ≠ c.sentinelKey
    · rw [if_pos hcond] at hkey
      exact absurd rfl hkey
    · rw [if_neg hcond] at hkey ⊢
      exact hki.keyok j hj hkey
  · intro a b ha hb hkeya heq
    rw [hln] at ha hb
    rw [hsl a] at hkeya heq
    rw [hsl b] at heq
    by_cases hca : a ∈ (List.range st.numItemsPerPartition).map
        (p * st.numItemsPerPartition + ·) ∧
        (slotAtV c st.vector a).1 ≠ c.sentinelKey
    · rw [if_pos hca] at hkeya
      exact absurd rfl hkeya
    · rw [if_neg hca] at hkeya heq
      by_cases hcb : b ∈ (List.range st.numItemsPerPartition).map
          (p * st.numItemsPerPartition + ·) ∧
          (slotAtV c st.vector b).1 ≠ c.sentinelKey
      · rw [if_pos hcb] at heq
        exact absurd heq hkeya
      · rw [if_neg hcb] at heq
        exact hki.uniq a b ha hb hkeya heq
  · intro a ha hkey
    rw [hln] at ha
    rw [hpq]
    rw [hsl a] at hkey ⊢
    by_cases hca : a ∈ (List.range st.numItemsPerPartition).map
        (p * st.numItemsPerPartition + ·) ∧
        (slotAtV c st.vector a).1 ≠ c.sentinelKey
    · rw [if_pos hca] at hkey
      exact absurd rfl hkey
    · rw [if_neg hca] at hkey ⊢
      obtain ⟨n, hn, hpos, hpre⟩ := hki.clust a ha hkey
      have hhp : c.hashFunction (slotAtV c st.vector a).1 % c.numPartitions ≠ p := by
        intro heqp
        apply hca
        refine ⟨?_, hkey⟩
        rw [mem_mapped_range]
        have hbd := probePos_lt st.numItemsPerPartition
          (c.hashFunction (slotAtV c st.vector a).1 % c.numPartitions *
            st.numItemsPerPartition)
          (c.hashFunction (slotAtV c st.vector a).1 % st.numItemsPerPartition)
          n hg.ppPos
        rw [hpos, ← heqp]
        exact ⟨hbd.1, hbd.2⟩
      refine ⟨n, hn, hpos, ?_⟩
      intro m hm
      rw [hsl]
      rw [if_neg ?_]
      · exact hpre m hm
      · intro hcc
        rw [mem_mapped_range] at hcc
        have hbdm := probePos_lt st.numItemsPerPartition
          (c.hashFunction (slotAtV c st.vector a).1 % c.numPartitions *
            st.numItemsPerPartition)
          (c.hashFunction (slotAtV c st.vector a).1 % st.numItemsPerPartition)
          m hg.ppPos
        exact partition_range_disjoint st.numItemsPerPartition
          (c.hashFunction (slotAtV c st.vector a).1 % c.numPartitions) p _
          hhp hbdm.1 hbdm.2 hcc.1.1 hcc.1.2

theorem cmdPend_insert (c : TableCfg Key Value) (kv : Key × Value) (k : Key) :
    cmdPend c (.insert kv) k = if kv.1 = k then [kv.2] else [] := rfl

theorem cmdPend_resize (c : TableCfg Key Value) (k : Key) :
    cmdPend c (.resize : TableCmd Key Value) k = [] := rfl

theorem cmdPend_rehash (c : TableCfg Key Value) (l : List (Key × Value)) (k : Key) :
    cmdPend c (.rehash l) k =
      l.filterMap (fun kv => if kv.1 = k then some kv.2 else none) := rfl

theorem filterMap_eq_nil_of {α β : Type} (l : List α) (f : α → Option β)
    (h : ∀ a ∈ l, f a = none) : l.filterMap f = [] := by
  induction l with
  | nil => rfl
  | cons a rest ih =>
    rw [List.filterMap_cons, h a (List.mem_cons_self _ _)]
    exact ih (fun b hb => h b (List.mem_cons_of_mem _ hb))

theorem contentOpt_snoc (c : TableCfg Key Value) (X : List Value) (a : Value) :
    contentOpt c (X ++ [a]) = bump c (contentOpt c X) a := by
  rw [contentOpt_append]
  rfl

/-- Any slot holding key `k` lies in partition `hash k mod P`'s slot
range. -/
theorem clust_range (c : TableCfg Key Value) (st : TableState Key Value)
    (hg : GeoInv c st) (hki : KInv c st) (j : Nat) (k : Key)
    (hj : j < st.vector.length) (hk : k ≠ c.sentinelKey)
    (hkeyj : (slotAtV c st.vector j).1 = k) :
    c.hashFunction k % c.numPartitions * st.numItemsPerPartition ≤ j ∧
    j < c.hashFunction k % c.numPartitions * st.numItemsPerPartition +
      st.numItemsPerPartition := by
  have hns : (slotAtV c st.vector j).1 ≠ c.sentinelKey := by
    rw [hkeyj]
    exact hk
  obtain ⟨nj, hnj, hpos, _⟩ := hki.clust j hj hns
  rw [hkeyj] at hpos
  have hbd := probePos_lt st.numItemsPerPartition
    (c.hashFunction k % c.numPartitions * st.numItemsPerPartition)
    (c.hashFunction k % st.numItemsPerPartition) nj hg.ppPos
  rw [hpos]
  exact ⟨hbd.1, hbd.2⟩

/-- Filtering the records pushed by the flush loop for key `k` yields
exactly the key-`k` slot values at the flushed indices. -/
theorem emittedFor_entries (c : TableCfg Key Value) (p : Nat) (k : Key)
    (hk : k ≠ c.sentinelKey) (vec : List (Key × Value)) :
    ∀ idxs : List Nat,
      emittedFor k (idxs.filterMap (fun i =>
        if (slotAtV c vec i).1 ≠ c.sentinelKey then
          some (p, (slotAtV c vec i).1, (slotAtV c vec i).2) else none)) =
      idxs.filterMap (fun i =>
        if (slotAtV c vec i).1 = k then some (slotAtV c vec i).2 else none) := by
  intro idxs
  unfold emittedFor
  rw [List.filterMap_filterMap]
  apply List.filterMap_congr
  intro i _
  by_cases hsent2 : (slotAtV c vec i).1 ≠ c.sentinelKey
  · rw [if_pos hsent2]
    rfl
  · rw [if_neg hsent2]
    have hks : (slotAtV c vec i).1 = c.sentinelKey := not_not.mp hsent2
    rw [if_neg (show ¬ (slotAtV c vec i).1 = k from by
      rw [hks]; exact fun h => hk h.symm)]
    rfl

/-- Content transfer of the in-place reduction: reducing `kv.2` into
key `kv.1`'s unique slot folds it into that key's content and leaves
every other key's content unchanged (associativity of the reduce
function is what lets the in-slot left fold commute with earlier
emissions). -/
theorem reduceState_content (c : TableCfg Key Value) (st : TableState Key Value)
    (kv : Key × Value) (i : Nat) (hki : KInv c st)
    (hassoc : ∀ a b d, c.reduceFunction (c.reduceFunction a b) d =
      c.reduceFunction a (c.reduceFunction b d))
    (hkv1 : kv.1 ≠ c.sentinelKey)
    (hilen : i < st.vector.length)
    (hkeyi : (slotAtV c st.vector i).1 = kv.1) :
    ∀ k, k ≠ c.sentinelKey →
      contentOpt c (emittedFor k (reduceState c st i kv.2).emitted ++
        tableFor c k (reduceState c st i kv.2).vector) =
      contentOpt c (emittedFor k st.emitted ++ tableFor c k st.vector ++
        cmdPend c (.insert kv) k) := by
  have hem : (reduceState c st i kv.2).emitted = st.emitted := rfl
  have hvec : (reduceState c st i kv.2).vector =
      st.vector.set i ((slotAt c st i).1, c.reduceFunction (slotAt c st i).2 kv.2) :=
    rfl
  have hlen : (st.vector.set i
      ((slotAt c st i).1, c.reduceFunction (slotAt c st i).2 kv.2)).length =
      st.vector.length := List.length_set _ _ _
  intro k hk
  rw [hem, hvec]
  by_cases hkk : kv.1 = k
  · subst hkk
    have htold : tableFor c kv.1 st.vector = [(slotAtV c st.vector i).2] := by
      rw [tableFor_eq_range,
        filterMap_range_single _ _ i hilen ?_, if_pos hkeyi]
      · rfl
      · intro j hj hji
        rw [if_neg ?_]
        intro hkeyj
        exact hji (hki.uniq j i hj hilen
          (by rw [hkeyj]; exact hkv1) (by rw [hkeyj, hkeyi]))
    have htnew : tableFor c kv.1 (st.vector.set i
        ((slotAt c st i).1, c.reduceFunction (slotAt c st i).2 kv.2)) =
        [c.reduceFunction (slotAtV c st.vector i).2 kv.2] := by
      rw [tableFor_eq_range, hlen,
        filterMap_range_single _ _ i hilen ?_]
      · rw [slotAtV_set_self c st.vector i _ hilen]
        rw [if_pos (show (slotAt c st i).1 = kv.1 from hkeyi)]
        rfl
      · intro j hj hji
        rw [slotAtV_set_ne c st.vector i j _ (fun h2 => hji h2.symm)]
        rw [if_neg ?_]
        intro hkeyj
        exact hji (hki.uniq j i hj hilen
          (by rw [hkeyj]; exact hkv1) (by rw [hkeyj, hkeyi]))
    rw [htold, htnew]
    rw [cmdPend_insert, if_pos rfl]
    rw [contentOpt_snoc, contentOpt_snoc, contentOpt_snoc]
    cases hE : contentOpt c (emittedFor kv.1 st.emitted) with
    | none => rfl
    | some w =>
      show some (c.reduceFunction w (c.reduceFunction (slotAtV c st.vector i).2 kv.2)) =
        some (c.reduceFunction (c.reduceFunction w (slotAtV c st.vector i).2) kv.2)
      rw [hassoc]
  · rw [cmdPend_insert, if_neg hkk, List.append_nil]
    have htab : tableFor c k (st.vector.set i
        ((slotAt c st i).1, c.reduceFunction (slotAt c st i).2 kv.2)) =
        tableFor c k st.vector := by
      rw [tableFor_eq_range, tableFor_eq_range, hlen]
      apply List.filterMap_congr
      intro j _
      by_cases hji : j = i
      · subst hji
        rw [slotAtV_set_self c st.vector j _ hilen]
        rw [if_neg (show ¬ ((slotAt c st j).1, c.reduceFunction (slotAt c st j).2
            kv.2).1 = k from fun h => hkk (hkeyi.symm.trans h)),
          if_neg (show ¬ (slotAtV c st.vector j).1 = k from
            fun h => hkk (hkeyi.symm.trans h))]
      · rw [slotAtV_set_ne c st.vector i j _ (fun h2 => hji h2.symm)]
    rw [htab]

/-- Content transfer of storing a new pair: the key gains its first
(table-resident) value, no other key is affected. -/
theorem placeState_content (c : TableCfg Key Value) (st : TableState Key Value)
    (kv : Key × Value) (n : Nat) (hg : GeoInv c st) (hki : KInv c st)
    (hkv1 : kv.1 ≠ c.sentinelKey)
    (hsent : (slotAtV c st.vector (homePos c st.numItemsPerPartition kv.1 n)).1 =
      c.sentinelKey)
    (hclean : ∀ m, m < n →
      (slotAtV c st.vector (homePos c st.numItemsPerPartition kv.1 m)).1 ≠
        c.sentinelKey ∧
      (slotAtV c st.vector (homePos c st.numItemsPerPartition kv.1 m)).1 ≠ kv.1) :
    ∀ k, k ≠ c.sentinelKey →
      contentOpt c (emittedFor k (placeState c st
        (c.hashFunction kv.1 % c.numPartitions)
        (homePos c st.numItemsPerPartition kv.1 n) kv).emitted ++
        tableFor c k (placeState c st (c.hashFunction kv.1 % c.numPartitions)
          (homePos c st.numItemsPerPartition kv.1 n) kv).vector) =
      contentOpt c (emittedFor k st.emitted ++ tableFor c k st.vector ++
        cmdPend c (.insert kv) k) := by
  set i := homePos c st.numItemsPerPartition kv.1 n with hidef
  have hno := no_slot_of_place c st kv n hki hkv1 hsent hclean
  have hbd : c.hashFunction kv.1 % c.numPartitions * st.numItemsPerPartition ≤ i ∧
      i < c.hashFunction kv.1 % c.numPartitions * st.numItemsPerPartition +
        st.numItemsPerPartition :=
    probePos_lt _ _ _ _ hg.ppPos
  have hilen : i < st.vector.length := by
    rw [hg.vecLen, hg.size]
    have hpid : c.hashFunction kv.1 % c.numPartitions < c.numPartitions :=
      Nat.mod_lt _ hg.pPos
    have h1 := Nat.mul_le_mul_right st.numItemsPerPartition
      (show c.hashFunction kv.1 % c.numPartitions + 1 ≤ c.numPartitions by omega)
    rw [Nat.succ_mul] at h1
    omega
  have hem : (placeState c st (c.hashFunction kv.1 % c.numPartitions) i kv).emitted =
      st.emitted := rfl
  have hvec : (placeState c st (c.hashFunction kv.1 % c.numPartitions) i kv).vector =
      st.vector.set i kv := rfl
  have hlen : (st.vector.set i kv).length = st.vector.length := List.length_set _ _ _
  intro k hk
  rw [hem, hvec]
  by_cases hkk : kv.1 = k
  · subst hkk
    have htold : tableFor c kv.1 st.vector = [] := by
      rw [tableFor_eq_range]
      apply filterMap_range_eq_nil
      intro j _
      rw [if_neg (hno j)]
    have htnew : tableFor c kv.1 (st.vector.set i kv) = [kv.2] := by
      rw [tableFor_eq_range, hlen,
        filterMap_range_single _ _ i hilen ?_]
      · rw [slotAtV_set_self c st.vector i kv hilen, if_pos rfl]
        rfl
      · intro j hj hji
        rw [slotAtV_set_ne c st.vector i j kv (fun h2 => hji h2.symm)]
        rw [if_neg (hno j)]
    rw [htold, htnew]
    rw [cmdPend_insert, if_pos rfl]
    rw [List.append_nil]
  · rw [cmdPend_insert, if_neg hkk, List.append_nil]
    have htab : tableFor c k (st.vector.set i kv) = tableFor c k st.vector := by
      rw [tableFor_eq_range, tableFor_eq_range, hlen]
      apply List.filterMap_congr
      intro j _
      by_cases hji : j = i
      · subst hji
        rw [slotAtV_set_self c st.vector i kv hilen]
        rw [if_neg (show ¬ kv.1 = k from hkk),
          if_neg (show ¬ (slotAtV c st.vector i).1 = k from by
            rw [hsent]; exact fun h => hk h.symm)]
      · rw [slotAtV_set_ne c st.vector i j kv (fun h2 => hji h2.symm)]
    rw [htab]

/-- Content transfer of `FlushPartition`: per key, the concatenation
of emitted values and table-resident values is exactly preserved (the
flushed partition's key-slots move to the emitted side in slot order;
other partitions are untouched). -/
theorem flushPartition_content (c : TableCfg Key Value) (st : TableState Key Value)
    (p : Nat) (hg : GeoInv c st) (hki : KInv c st) :
    ∀ k, k ≠ c.sentinelKey →
      emittedFor k (flushPartition c p st).emitted ++
        tableFor c k (flushPartition c p st).vector =
      emittedFor k st.emitted ++ tableFor c k st.vector := by
  obtain ⟨hchar, hlenf, hemf⟩ := flushFold_char c p
    ((List.range st.numItemsPerPartition).map (p * st.numItemsPerPartition + ·))
    (List.Nodup.map (fun a b => by omega) (List.nodup_range _))
    st.vector st.emitted
  have hsl : ∀ j, slotAtV c (flushPartition c p st).vector j =
      (if j ∈ (List.range st.numItemsPerPartition).map
          (p * st.numItemsPerPartition + ·) ∧
          (slotAtV c st.vector j).1 ≠ c.sentinelKey then c.sentinelPair
       else slotAtV c st.vector j) := hchar
  have hln : (flushPartition c p st).vector.length = st.vector.length := hlenf
  have hee : (flushPartition c p st).emitted = st.emitted ++
      ((List.range st.numItemsPerPartition).map
        (p * st.numItemsPerPartition + ·)).filterMap (fun i =>
        if (slotAtV c st.vector i).1 ≠ c.sentinelKey then
          some (p, (slotAtV c st.vector i).1, (slotAtV c st.vector i).2)
        else none) := hemf
  intro k hk
  rw [hee, emittedFor_append, List.append_assoc]
  congr 1
  rw [emittedFor_entries c p k hk st.vector]
  by_cases hpk : c.hashFunction k % c.numPartitions = p
  · -- the flushed partition is key k's partition
    have hpP : p < c.numPartitions := by
      rw [← hpk]
      exact Nat.mod_lt _ hg.pPos
    have htabnew : tableFor c k (flushPartition c p st).vector = [] := by
      rw [tableFor_eq_range, hln]
      apply filterMap_range_eq_nil
      intro j hj
      rw [hsl j]
      by_cases hcond : j ∈ (List.range st.numItemsPerPartition).map
          (p * st.numItemsPerPartition + ·) ∧
          (slotAtV c st.vector j).1 ≠ c.sentinelKey
      · rw [if_pos hcond]
        rw [if_neg (show ¬ c.sentinelPair.1 = k from fun h => hk h.symm)]
      · rw [if_neg hcond]
        rw [if_neg ?_]
        intro hkeyj
        apply hcond
        refine ⟨?_, by rw [hkeyj]; exact hk⟩
        rw [mem_mapped_range]
        have hcr := clust_range c st hg hki j k hj hk hkeyj
        rw [hpk] at hcr
        exact hcr
    rw [htabnew, List.append_nil]
    -- the emitted key-k values are exactly the key-k slots of the table
    rw [tableFor_eq_range]
    have hsplit : st.vector.length =
        p * st.numItemsPerPartition + st.numItemsPerPartition +
        (st.vector.length - p * st.numItemsPerPartition -
          st.numItemsPerPartition) := by
      rw [hg.vecLen, hg.size]
      have h1 := Nat.mul_le_mul_right st.numItemsPerPartition
        (show p + 1 ≤ c.numPartitions by omega)
      rw [Nat.succ_mul] at h1
      omega
    conv_rhs => rw [hsplit]
    rw [List.range_add, List.range_add, List.filterMap_append, List.filterMap_append]
    rw [filterMap_range_eq_nil _ _ (show ∀ j, j < p * st.numItemsPerPartition →
        (if (slotAtV c st.vector j).1 = k then some (slotAtV c st.vector j).2
          else none) = none from ?hside)]
    case hside =>
      intro j hj
      rw [if_neg ?_]
      intro hkeyj
      have hcr := clust_range c st hg hki j k (by omega) hk hkeyj
      rw [hpk] at hcr
      omega
    have hz : ((List.range (st.vector.length - p * st.numItemsPerPartition -
        st.numItemsPerPartition)).map
        ((p * st.numItemsPerPartition + st.numItemsPerPartition) + ·)).filterMap
        (fun i => if (slotAtV c st.vector i).1 = k then
          some (slotAtV c st.vector i).2 else none) = [] := by
      apply filterMap_eq_nil_of
      intro a ha
      rw [List.mem_map] at ha
      obtain ⟨x, hx, rfl⟩ := ha
      rw [List.mem_range] at hx
      rw [if_neg ?_]
      intro hkeyj
      by_cases halen : p * st.numItemsPerPartition + st.numItemsPerPartition + x <
          st.vector.length
      · have hcr := clust_range c st hg hki _ k halen hk hkeyj
        rw [hpk] at hcr
        omega
      · rw [slotAtV_ge_length c _ _ (by omega)] at hkeyj
        exact hk hkeyj.symm
    rw [hz, List.nil_append, List.append_nil]
  · -- a different partition: nothing of key k moves
    have hnewE : ((List.range st.numItemsPerPartition).map
        (p * st.numItemsPerPartition + ·)).filterMap (fun i =>
        if (slotAtV c st.vector i).1 = k then some (slotAtV c st.vector i).2
        else none) = [] := by
      apply filterMap_eq_nil_of
      intro i hi
      rw [mem_mapped_range] at hi
      rw [if_neg ?_]
      intro hkeyi
      by_cases hilen : i < st.vector.length
      · have hcr := clust_range c st hg hki i k hilen hk hkeyi
        exact partition_range_disjoint st.numItemsPerPartition
          (c.hashFunction k % c.numPartitions) p i hpk hcr.1 hcr.2 hi.1 hi.2
      · rw [slotAtV_ge_length c _ i (by omega)] at hkeyi
        exact hk hkeyi.symm
    have htab2 : tableFor c k (flushPartition c p st).vector =
        tableFor c k st.vector := by
      rw [tableFor_eq_range, tableFor_eq_range, hln]
      apply List.filterMap_congr
      intro j hj
      rw [List.mem_range] at hj
      rw [hsl j]
      by_cases hcond : j ∈ (List.range st.numItemsPerPartition).map
          (p * st.numItemsPerPartition + ·) ∧
          (slotAtV c st.vector j).1 ≠ c.sentinelKey
      · rw [if_pos hcond]
        have hknotj : ¬ (slotAtV c st.vector j).1 = k := by
          intro hkeyj
          have hcr := clust_range c st hg hki j k hj hk hkeyj
          have hmem := hcond.1
          rw [mem_mapped_range] at hmem
          exact partition_range_disjoint st.numItemsPerPartition
            (c.hashFunction k % c.numPartitions) p j hpk hcr.1 hcr.2 hmem.1 hmem.2
        rw [if_neg (show ¬ c.sentinelPair.1 = k from fun h => hk h.symm),
          if_neg hknotj]
      · rw [if_neg hcond]
    rw [hnewE, List.nil_append, htab2]

/-- Probe-path positions stay inside the slot vector. -/
theorem homePos_lt_len (c : TableCfg Key Value) (st : TableState Key Value)
    (hg : GeoInv c st) (k : Key) (n : Nat) :
    homePos c st.numItemsPerPartition k n < st.vector.length := by
  have hbd := probePos_lt st.numItemsPerPartition
    (c.hashFunction k % c.numPartitions * st.numItemsPerPartition)
    (c.hashFunction k % st.numItemsPerPartition) n hg.ppPos
  rw [hg.vecLen, hg.size]
  have hpid : c.hashFunction k % c.numPartitions < c.numPartitions :=
    Nat.mod_lt _ hg.pPos
  have h1 := Nat.mul_le_mul_right st.numItemsPerPartition
    (show c.hashFunction k % c.numPartitions + 1 ≤ c.numPartitions by omega)
  rw [Nat.succ_mul] at h1
  have hb2 : homePos c st.numItemsPerPartition k n <
      c.hashFunction k % c.numPartitions * st.numItemsPerPartition +
      st.numItemsPerPartition := hbd.2
  omega

/-- A key-consistent table yields a key-consistent rehash list. -/
theorem cmdOK_rehash_of_kinv (c : TableCfg Key Value) (st : TableState Key Value)
    (hki : KInv c st) : cmdOK c (.rehash st.vector) := by
  intro kv hmem hne
  obtain ⟨i, hilen, heq⟩ := slotAtV_of_mem c st.vector kv hmem
  have h2 := hki.keyok i hilen (by rw [heq]; exact hne)
  rw [heq] at h2
  exact h2

/-- Master content theorem: every step of the fueled table semantics
preserves the structural invariants and folds its pending values into
the per-key contents, provided the reduce function is associative and
key-stable. -/
theorem tableGo_content (c : TableCfg Key Value)
    (hscale : 0 < c.numItemsResizeScale)
    (hassoc : ∀ a b d, c.reduceFunction (c.reduceFunction a b) d =
      c.reduceFunction a (c.reduceFunction b d))
    (hstab : ∀ a b, c.keyExtractor a = c.keyExtractor b →
      c.keyExtractor (c.reduceFunction a b) = c.keyExtractor a) :
    ∀ (fuel : Nat) (cmd : TableCmd Key Value) (st st' : TableState Key Value),
      GeoInv c st → CountsInv c st → KInv c st → cmdOK c cmd →
      tableGo c fuel cmd st = some st' →
      GeoInv c st' ∧ CountsInv c st' ∧ KInv c st' ∧
      ∀ k, k ≠ c.sentinelKey →
        contentOpt c (emittedFor k st'.emitted ++ tableFor c k st'.vector) =
        contentOpt c (emittedFor k st.emitted ++ tableFor c k st.vector ++
          cmdPend c cmd k) := by
  intro fuel
  induction fuel with
  | zero =>
    intro cmd st st' _ _ _ _ h
    exact absurd h (by simp [tableGo])
  | succ fuel ih =>
    intro cmd st st' hg hc hki hok hrun
    cases cmd with
    | insert kv =>
      obtain ⟨hkv1, hkv2⟩ := hok
      simp only [tableGo, indexResult] at hrun
      split at hrun
      · -- reduceAt: fold into the key's unique slot
        rename_i i heqp
        have ho : c.hashFunction kv.1 % st.numItemsPerPartition <
            st.numItemsPerPartition := Nat.mod_lt _ hg.ppPos
        rcases probeAux_char c st.vector kv.1 (c.hashFunction kv.1 % c.numPartitions)
            st.numItemsPerPartition st.numItemsPerPartition
            (c.hashFunction kv.1 % st.numItemsPerPartition) ho with
          ⟨n, _, hpe2, _, _⟩ | ⟨n, _, hpe2, hhit, _, _⟩ | ⟨hpe2, _⟩
        · rw [heqp] at hpe2
          cases hpe2
        · rw [heqp] at hpe2
          injection hpe2 with hi
          subst hi
          injection hrun with h2
          subst h2
          have hilen : probePos st.numItemsPerPartition
              (c.hashFunction kv.1 % c.numPartitions * st.numItemsPerPartition)
              (c.hashFunction kv.1 % st.numItemsPerPartition) n <
              st.vector.length := homePos_lt_len c st hg kv.1 n
          have hgc := reduceState_counts c st (probePos st.numItemsPerPartition
            (c.hashFunction kv.1 % c.numPartitions * st.numItemsPerPartition)
            (c.hashFunction kv.1 % st.numItemsPerPartition) n) kv.2 hg hc
          exact ⟨hgc.1, hgc.2,
            reduceState_kinv c st _ kv hstab hki hhit hkv2,
            reduceState_content c st kv _ hki hassoc hkv1 hilen hhit⟩
        · rw [heqp] at hpe2
          cases hpe2
      · -- placeAt: store, maybe spill, maybe resize
        rename_i i heqp
        have ho : c.hashFunction kv.1 % st.numItemsPerPartition <
            st.numItemsPerPartition := Nat.mod_lt _ hg.ppPos
        have hpid : c.hashFunction kv.1 % c.numPartitions < c.numPartitions :=
          Nat.mod_lt _ hg.pPos
        rcases probeAux_char c st.vector kv.1 (c.hashFunction kv.1 % c.numPartitions)
            st.numItemsPerPartition st.numItemsPerPartition
            (c.hashFunction kv.1 % st.numItemsPerPartition) ho with
          ⟨n, hn, hpe2, hsent, hclean⟩ | ⟨n, _, hpe2, _, _, _⟩ | ⟨hpe2, _⟩
        · rw [heqp] at hpe2
          injection hpe2 with hi
          subst hi
          have hbd := probePos_lt st.numItemsPerPartition
            (c.hashFunction kv.1 % c.numPartitions * st.numItemsPerPartition)
            (c.hashFunction kv.1 % st.numItemsPerPartition) n hg.ppPos
          have hgc := placeState_counts c st
            (c.hashFunction kv.1 % c.numPartitions) _ kv hg hc hpid
            hbd.1 hbd.2 hsent hkv1
          have hkiv : KInv c (placeState c st (c.hashFunction kv.1 % c.numPartitions)
              (probePos st.numItemsPerPartition
                (c.hashFunction kv.1 % c.numPartitions * st.numItemsPerPartition)
                (c.hashFunction kv.1 % st.numItemsPerPartition) n) kv) :=
            placeState_kinv c st kv n hg hki hkv1 hkv2 hn hsent hclean
          have hcon : ∀ k, k ≠ c.sentinelKey →
              contentOpt c (emittedFor k (placeState c st
                (c.hashFunction kv.1 % c.numPartitions)
                (probePos st.numItemsPerPartition
                  (c.hashFunction kv.1 % c.numPartitions * st.numItemsPerPartition)
                  (c.hashFunction kv.1 % st.numItemsPerPartition) n) kv).emitted ++
                tableFor c k (placeState c st
                  (c.hashFunction kv.1 % c.numPartitions)
                  (probePos st.numItemsPerPartition
                    (c.hashFunction kv.1 % c.numPartitions * st.numItemsPerPartition)
                    (c.hashFunction kv.1 % st.numItemsPerPartition) n) kv).vector) =
              contentOpt c (emittedFor k st.emitted ++ tableFor c k st.vector ++
                cmdPend c (.insert kv) k) :=
            placeState_content c st kv n hg hki hkv1 hsent hclean
          set s1 := placeState c st (c.hashFunction kv.1 % c.numPartitions)
            (probePos st.numItemsPerPartition
              (c.hashFunction kv.1 % c.numPartitions * st.numItemsPerPartition)
              (c.hashFunction kv.1 % st.numItemsPerPartition) n) kv with hs1
          split at hrun
          · -- spill to largest partition
            have hs2 : GeoInv c (flushLargestPartition c s1) ∧
                CountsInv c (flushLargestPartition c s1) :=
              flushPartition_counts c s1 _
                (largestPartitionIndex_lt c s1 hgc.1.pPos) hgc.1 hgc.2
            have hki2 : KInv c (flushLargestPartition c s1) :=
              flushPartition_kinv c s1 _ hgc.1 hkiv
            have hcon2 : ∀ k, k ≠ c.sentinelKey →
                emittedFor k (flushLargestPartition c s1).emitted ++
                  tableFor c k (flushLargestPartition c s1).vector =
                emittedFor k s1.emitted ++ tableFor c k s1.vector :=
              flushPartition_content c s1 _ hgc.1 hkiv
            split at hrun
            · obtain ⟨hga, hca, hka, hcona⟩ := ih .resize _ st'
                hs2.1 hs2.2 hki2 True.intro hrun
              refine ⟨hga, hca, hka, ?_⟩
              intro k hk
              rw [hcona k hk, cmdPend_resize, List.append_nil,
                hcon2 k hk, hcon k hk]
            · injection hrun with h2
              subst h2
              refine ⟨hs2.1, hs2.2, hki2, ?_⟩
              intro k hk
              rw [hcon2 k hk, hcon k hk]
          · split at hrun
            · obtain ⟨hga, hca, hka, hcona⟩ := ih .resize _ st'
                hgc.1 hgc.2 hkiv True.intro hrun
              refine ⟨hga, hca, hka, ?_⟩
              intro k hk
              rw [hcona k hk, cmdPend_resize, List.append_nil, hcon k hk]
            · injection hrun with h2
              subst h2
              exact ⟨hgc.1, hgc.2, hkiv, hcon⟩
        · rw [heqp] at hpe2
          cases hpe2
        · rw [heqp] at hpe2
          cases hpe2
      · -- full: resize, then retry the insert
        split at hrun
        · cases hrun
        · rename_i st1 heq2
          obtain ⟨hg1, hc1, hk1, hcon1⟩ := ih .resize st st1 hg hc hki
            True.intro heq2
          obtain ⟨hg2, hc2, hk2, hcon2⟩ := ih (.insert kv) st1 st' hg1 hc1 hk1
            ⟨hkv1, hkv2⟩ hrun
          refine ⟨hg2, hc2, hk2, ?_⟩
          intro k hk
          have h1 := hcon1 k hk
          rw [cmdPend_resize, List.append_nil] at h1
          have h2 := hcon2 k hk
          rw [h2, contentOpt_append, h1, ← contentOpt_append]
    | resize =>
      simp only [tableGo] at hrun
      have hb := resizeBase_counts c st hg hscale
      obtain ⟨hg1, hc1, hk1, hcon1⟩ := ih (.rehash st.vector) (resizeBase c st) st'
        hb.1 hb.2 (resizeBase_kinv c st) (cmdOK_rehash_of_kinv c st hki) hrun
      refine ⟨hg1, hc1, hk1, ?_⟩
      intro k hk
      have h1 := hcon1 k hk
      rw [show (resizeBase c st).emitted = st.emitted from rfl] at h1
      have htb : tableFor c k (resizeBase c st).vector = [] := by
        rw [show (resizeBase c st).vector = List.replicate
          (st.tableSize * c.numItemsResizeScale) c.sentinelPair from rfl]
        apply filterMap_eq_nil_of
        intro a ha
        rw [List.eq_of_mem_replicate ha]
        rw [if_neg (show ¬ (c.sentinelPair).1 = k from fun h => hk h.symm)]
      rw [htb, List.append_nil,
        show cmdPend c (.rehash st.vector) k = tableFor c k st.vector from rfl] at h1
      rw [cmdPend_resize, List.append_nil]
      exact h1
    | rehash l =>
      cases l with
      | nil =>
        simp only [tableGo] at hrun
        injection hrun with h2
        subst h2
        refine ⟨hg, hc, hki, ?_⟩
        intro k hk
        rw [show cmdPend c (.rehash ([] : List (Key × Value))) k = [] from rfl,
          List.append_nil]
      | cons kv rest =>
        simp only [tableGo] at hrun
        split at hrun
        · rename_i hcond
          split at hrun
          · cases hrun
          · rename_i st1 heq2
            have hkeq : c.keyExtractor kv.2 = kv.1 :=
              hok kv (List.mem_cons_self _ _) hcond
            obtain ⟨hg1, hc1, hk1, hcon1⟩ := ih
              (.insert (c.keyExtractor kv.2, kv.2)) st st1 hg hc hki
              ⟨by show c.keyExtractor kv.2 ≠ c.sentinelKey
                  rw [hkeq]; exact hcond, rfl⟩ heq2
            obtain ⟨hg2, hc2, hk2, hcon2⟩ := ih (.rehash rest) st1 st' hg1 hc1 hk1
              (fun kv' hm hne => hok kv' (List.mem_cons_of_mem _ hm) hne) hrun
            refine ⟨hg2, hc2, hk2, ?_⟩
            intro k hk
            have h1 := hcon1 k hk
            rw [show cmdPend c (.insert (c.keyExtractor kv.2, kv.2)) k =
              (if c.keyExtractor kv.2 = k then [kv.2] else []) from rfl, hkeq] at h1
            have h2 := hcon2 k hk
            have hcomb : (if kv.1 = k then [kv.2] else []) ++
                cmdPend c (.rehash rest) k = cmdPend c (.rehash (kv :: rest)) k := by
              rw [cmdPend_rehash, cmdPend_rehash, List.filterMap_cons]
              by_cases hcase : kv.1 = k
              · rw [if_pos hcase, if_pos hcase]
                rfl
              · rw [if_neg hcase, if_neg hcase]
                rfl
            rw [h2, contentOpt_append, h1, ← contentOpt_append, List.append_assoc,
              hcomb]
        · rename_i hcond
          have hsk2 : kv.1 = c.sentinelKey := not_not.mp hcond
          obtain ⟨hg1, hc1, hk1, hcon1⟩ := ih (.rehash rest) st st' hg hc hki
            (fun kv' hm hne => hok kv' (List.mem_cons_of_mem _ hm) hne) hrun
          refine ⟨hg1, hc1, hk1, ?_⟩
          intro k hk
          have heq3 : cmdPend c (.rehash (kv :: rest)) k =
              cmdPend c (.rehash rest) k := by
            rw [cmdPend_rehash, cmdPend_rehash, List.filterMap_cons,
              if_neg (show ¬ kv.1 = k from fun h => hk (h.symm.trans hsk2))]
          rw [heq3]
          exact hcon1 k hk

/-- A sequence of user `Insert(v)` calls folds the inserted values
into the per-key contents. -/
theorem runInserts_content (c : TableCfg Key Value)
    (hscale : 0 < c.numItemsResizeScale)
    (hassoc : ∀ a b d, c.reduceFunction (c.reduceFunction a b) d =
      c.reduceFunction a (c.reduceFunction b d))
    (hstab : ∀ a b, c.keyExtractor a = c.keyExtractor b →
      c.keyExtractor (c.reduceFunction a b) = c.keyExtractor a) :
    ∀ (vs : List Value) (fuel : Nat) (st st' : TableState Key Value),
      GeoInv c st → CountsInv c st → KInv c st →
      (∀ v ∈ vs, c.keyExtractor v ≠ c.sentinelKey) →
      runInserts c fuel st vs = some st' →
      GeoInv c st' ∧ CountsInv c st' ∧ KInv c st' ∧
      ∀ k, k ≠ c.sentinelKey →
        contentOpt c (emittedFor k st'.emitted ++ tableFor c k st'.vector) =
        contentOpt c (emittedFor k st.emitted ++ tableFor c k st.vector ++
          insertedFor c k vs) := by
  intro vs
  induction vs with
  | nil =>
    intro fuel st st' hg hc hki _ h
    have h2 : st = st' := by simpa [runInserts] using h
    subst h2
    refine ⟨hg, hc, hki, fun k hk => ?_⟩
    rw [show insertedFor c k ([] : List Value) = [] from rfl, List.append_nil]
  | cons v rest ihl =>
    intro fuel st st' hg hc hki hvs h
    simp only [runInserts, List.foldlM_cons] at h
    cases heq : insertVal c fuel st v with
    | none =>
      rw [heq] at h
      cases h
    | some st1 =>
      rw [heq] at h
      obtain ⟨hg1, hc1, hk1, hcon1⟩ := tableGo_content c hscale hassoc hstab fuel
        (.insert (c.keyExtractor v, v)) st st1 hg hc hki
        ⟨show c.keyExtractor v ≠ c.sentinelKey from hvs v (List.mem_cons_self _ _),
         rfl⟩ heq
      obtain ⟨hg2, hc2, hk2, hcon2⟩ := ihl fuel st1 st' hg1 hc1 hk1
        (fun w hw => hvs w (List.mem_cons_of_mem _ hw)) h
      refine ⟨hg2, hc2, hk2, fun k hk => ?_⟩
      have h1 := hcon1 k hk
      rw [show cmdPend c (.insert (c.keyExtractor v, v)) k =
        (if c.keyExtractor v = k then [v] else []) from rfl] at h1
      have h2 := hcon2 k hk
      have hcomb : (if c.keyExtractor v = k then [v] else []) ++
          insertedFor c k rest = insertedFor c k (v :: rest) := by
        unfold insertedFor
        rw [List.filterMap_cons]
        by_cases hcase : c.keyExtractor v = k
        · rw [if_pos hcase, if_pos hcase]
          rfl
        · rw [if_neg hcase, if_neg hcase]
          rfl
      rw [h2, contentOpt_append, h1, ← contentOpt_append, List.append_assoc, hcomb]

/-- Flushing a key's own partition leaves no slot holding that key. -/
theorem flushPartition_tableFor_hp (c : TableCfg Key Value)
    (st : TableState Key Value) (hg : GeoInv c st) (hki : KInv c st)
    (k : Key) (hk : k ≠ c.sentinelKey) :
    tableFor c k (flushPartition c (c.hashFunction k % c.numPartitions) st).vector =
    [] := by
  obtain ⟨hchar, hlenf, _⟩ := flushFold_char c
    (c.hashFunction k % c.numPartitions)
    ((List.range st.numItemsPerPartition).map
      (c.hashFunction k % c.numPartitions * st.numItemsPerPartition + ·))
    (List.Nodup.map (fun a b => by omega) (List.nodup_range _))
    st.vector st.emitted
  have hsl : ∀ j, slotAtV c (flushPartition c
      (c.hashFunction k % c.numPartitions) st).vector j =
      (if j ∈ (List.range st.numItemsPerPartition).map
          (c.hashFunction k % c.numPartitions * st.numItemsPerPartition + ·) ∧
          (slotAtV c st.vector j).1 ≠ c.sentinelKey then c.sentinelPair
       else slotAtV c st.vector j) := hchar
  have hln : (flushPartition c (c.hashFunction k % c.numPartitions) st).vector.length =
      st.vector.length := hlenf
  rw [tableFor_eq_range, hln]
  apply filterMap_range_eq_nil
  intro j hj
  rw [hsl j]
  by_cases hcond : j ∈ (List.range st.numItemsPerPartition).map
      (c.hashFunction k % c.numPartitions * st.numItemsPerPartition + ·) ∧
      (slotAtV c st.vector j).1 ≠ c.sentinelKey
  · rw [if_pos hcond]
    rw [if_neg (show ¬ c.sentinelPair.1 = k from fun h => hk h.symm)]
  · rw [if_neg hcond]
    rw [if_neg ?_]
    intro hkeyj
    apply hcond
    refine ⟨?_, by rw [hkeyj]; exact hk⟩
    rw [mem_mapped_range]
    exact clust_range c st hg hki j k hj hk hkeyj

/-- Flushing a different partition does not move any slot of key `k`. -/
theorem flushPartition_tableFor_ne (c : TableCfg Key Value)
    (st : TableState Key Value) (p : Nat) (hg : GeoInv c st) (hki : KInv c st)
    (k : Key) (hk : k ≠ c.sentinelKey)
    (hpk : c.hashFunction k % c.numPartitions ≠ p) :
    tableFor c k (flushPartition c p st).vector = tableFor c k st.vector := by
  obtain ⟨hchar, hlenf, _⟩ := flushFold_char c p
    ((List.range st.numItemsPerPartition).map (p * st.numItemsPerPartition + ·))
    (List.Nodup.map (fun a b => by omega) (List.nodup_range _))
    st.vector st.emitted
  have hsl : ∀ j, slotAtV c (flushPartition c p st).vector j =
      (if j ∈ (List.range st.numItemsPerPartition).map
          (p * st.numItemsPerPartition + ·) ∧
          (slotAtV c st.vector j).1 ≠ c.sentinelKey then c.sentinelPair
       else slotAtV c st.vector j) := hchar
  have hln : (flushPartition c p st).vector.length = st.vector.length := hlenf
  rw [tableFor_eq_range, tableFor_eq_range, hln]
  apply List.filterMap_congr
  intro j hj
  rw [List.mem_range] at hj
  rw [hsl j]
  by_cases hcond : j ∈ (List.range st.numItemsPerPartition).map
      (p * st.numItemsPerPartition + ·) ∧
      (slotAtV c st.vector j).1 ≠ c.sentinelKey
  · rw [if_pos hcond]
    have hknotj : ¬ (slotAtV c st.vector j).1 = k := by
      intro hkeyj
      have hcr := clust_range c st hg hki j k hj hk hkeyj
      have hmem := hcond.1
      rw [mem_mapped_range] at hmem
      exact partition_range_disjoint st.numItemsPerPartition
        (c.hashFunction k % c.numPartitions) p j hpk hcr.1 hcr.2 hmem.1 hmem.2
    rw [if_neg (show ¬ c.sentinelPair.1 = k from fun h => hk h.symm),
      if_neg hknotj]
  · rw [if_neg hcond]

/-- Folding `FlushPartition` over a list of valid partition indices:
all invariants are preserved, the per-key concatenated contents are
unchanged, and every key whose partition appears in the list ends with
no table-resident values. -/
theorem flushList_content (c : TableCfg Key Value) :
    ∀ (l : List Nat) (s : TableState Key Value),
      GeoInv c s → CountsInv c s → KInv c s →
      (∀ i ∈ l, i < c.numPartitions) →
      GeoInv c (l.foldl (fun s2 i => flushPartition c i s2) s) ∧
      CountsInv c (l.foldl (fun s2 i => flushPartition c i s2) s) ∧
      KInv c (l.foldl (fun s2 i => flushPartition c i s2) s) ∧
      (∀ k, k ≠ c.sentinelKey →
        emittedFor k (l.foldl (fun s2 i => flushPartition c i s2) s).emitted ++
          tableFor c k (l.foldl (fun s2 i => flushPartition c i s2) s).vector =
        emittedFor k s.emitted ++ tableFor c k s.vector) ∧
      (∀ k, k ≠ c.sentinelKey →
        (c.hashFunction k % c.numPartitions ∈ l ∨ tableFor c k s.vector = []) →
        tableFor c k (l.foldl (fun s2 i => flushPartition c i s2) s).vector = []) := by
  intro l
  induction l with
  | nil =>
    intro s hg hc hki _
    refine ⟨hg, hc, hki, fun k _ => rfl, fun k _ hcase => ?_⟩
    rcases hcase with h | h
    · cases h
    · exact h
  | cons i rest ihl =>
    intro s hg hc hki hmem
    rw [List.foldl_cons]
    have hstep := flushPartition_counts c s i (hmem i (List.mem_cons_self _ _)) hg hc
    have hkstep := flushPartition_kinv c s i hg hki
    have hcstep := flushPartition_content c s i hg hki
    obtain ⟨hg2, hc2, hk2, hcon2, hnil2⟩ := ihl (flushPartition c i s)
      hstep.1 hstep.2 hkstep (fun j hj => hmem j (List.mem_cons_of_mem _ hj))
    refine ⟨hg2, hc2, hk2, fun k hk => ?_, fun k hk hcase => ?_⟩
    · rw [hcon2 k hk, hcstep k hk]
    · apply hnil2 k hk
      rcases hcase with h | h
      · rcases List.mem_cons.mp h with h2 | h2
        · right
          rw [← h2]
          exact flushPartition_tableFor_hp c s hg hki k hk
        · left
          exact h2
      · right
        by_cases hpk : c.hashFunction k % c.numPartitions = i
        · rw [← hpk]
          exact flushPartition_tableFor_hp c s hg hki k hk
        · rw [flushPartition_tableFor_ne c s i hg hki k hk hpk]
          exact h

/-- The structural invariants hold after `init`. -/
theorem initTable_kinv (c : TableCfg Key Value) (st0 : TableState Key Value)
    (h : initTable c = Except.ok st0) : KInv c st0 := by
  have h2 := initTable_ok c
  rw [h] at h2
  injection h2 with h3
  have hv : st0.vector =
      List.replicate (c.numPartitions * c.numItemsInitScale) c.sentinelPair := by
    rw [h3]
  refine ⟨?_, ?_, ?_⟩
  · intro j _ hkey
    rw [hv, slotAtV_replicate] at hkey
    exact absurd rfl hkey
  · intro a b _ _ hka _
    rw [hv, slotAtV_replicate] at hka
    exact absurd rfl hka
  · intro a _ hkey
    rw [hv, slotAtV_replicate] at hkey
    exact absurd rfl hkey

/-- Claim C1 (corrected): pre-reduce conservation.  Starting from
`init`, for every insert sequence whose extracted keys avoid the
sentinel, if the reduce function is associative and key-stable then
after `Flush()` the per-key combination of the emitted values equals
the left fold of the reduce function over the values inserted for that
key, in insertion order. -/
theorem C1_pre_reduce_conservation (c : TableCfg Key Value)
    (hP : 0 < c.numPartitions) (hs : 0 < c.numItemsInitScale)
    (hscale : 0 < c.numItemsResizeScale)
    (hassoc : ∀ a b d, c.reduceFunction (c.reduceFunction a b) d =
      c.reduceFunction a (c.reduceFunction b d))
    (hstab : ∀ a b, c.keyExtractor a = c.keyExtractor b →
      c.keyExtractor (c.reduceFunction a b) = c.keyExtractor a)
    (st0 : TableState Key Value) (h0 : initTable c = Except.ok st0)
    (fuel : Nat) (vs : List Value)
    (hvs : ∀ v ∈ vs, c.keyExtractor v ≠ c.sentinelKey)
    (stm : TableState Key Value) (hrun : runInserts c fuel st0 vs = some stm) :
    ∀ k, k ≠ c.sentinelKey →
      contentOpt c (emittedFor k (flushAll c stm).emitted) =
      contentOpt c (insertedFor c k vs) := by
  have hg0 := initTable_counts c st0 hP hs h0
  have hk0 := initTable_kinv c st0 h0
  obtain ⟨hg1, hc1, hk1, hcon1⟩ := runInserts_content c hscale hassoc hstab vs fuel
    st0 stm hg0.1 hg0.2 hk0 hvs hrun
  have h2 := initTable_ok c
  rw [h0] at h2
  injection h2 with h3
  intro k hk
  have hem0 : emittedFor k st0.emitted = [] := by
    rw [show st0.emitted = [] from by rw [h3]]
    rfl
  have htab0 : tableFor c k st0.vector = [] := by
    rw [show st0.vector = List.replicate (c.numPartitions * c.numItemsInitScale)
      c.sentinelPair from by rw [h3]]
    apply filterMap_eq_nil_of
    intro a ha
    rw [List.eq_of_mem_replicate ha]
    rw [if_neg (show ¬ c.sentinelPair.1 = k from fun h => hk h.symm)]
  have h1 := hcon1 k hk
  rw [hem0, htab0, List.nil_append, List.nil_append] at h1
  obtain ⟨_, _, _, hfc, hfn⟩ := flushList_content c (List.range c.numPartitions) stm
    hg1 hc1 hk1 (fun j hj => List.mem_range.mp hj)
  have hnil : tableFor c k (flushAll c stm).vector = [] :=
    hfn k hk (Or.inl (List.mem_range.mpr (Nat.mod_lt _ hP)))
  have hceq : emittedFor k (flushAll c stm).emitted ++
      tableFor c k (flushAll c stm).vector =
      emittedFor k stm.emitted ++ tableFor c k stm.vector := hfc k hk
  rw [hnil, List.append_nil] at hceq
  rw [hceq]
  exact h1

/-- Configuration exhibiting the failure of claim C1 as stated: a
non-associative (but key-stable) reduce function on pairs, a single
partition, and `max_num_items_table_ = 1` to force an intermediate
spill. -/
def C1cfg : TableCfg Nat (Nat × Nat) :=
  { keyExtractor := Prod.fst
    reduceFunction := fun a b => (a.1, a.2 - b.2)
    hashFunction := id
    numPartitions := 1
    numItemsInitScale := 4
    numItemsResizeScale := 2
    maxPartitionFillRatioNum := 1
    maxPartitionFillRatioDen := 1
    maxNumItemsTable := 1
    sentinelKey := 1000
    sentinelValue := (0, 0) }

/-- Initial state of `C1cfg`'s table. -/
def C1st0 : TableState Nat (Nat × Nat) :=
  { numItems := 0
    numItemsPerPartition := 4
    itemsPerPartition := [0]
    tableSize := 4
    vector := List.replicate 4 (1000, (0, 0))
    emitted := [] }

/-- State of `C1cfg`'s table after inserting
`(7,10), (8,1), (7,4), (7,3)`: the second insert spilled the table
(emitting `(8,1)` and `(7,10)`), the last two were folded into a fresh
slot for key 7. -/
def C1stm : TableState Nat (Nat × Nat) :=
  { numItems := 1
    numItemsPerPartition := 4
    itemsPerPartition := [1]
    tableSize := 4
    vector := [(1000, (0, 0)), (1000, (0, 0)), (1000, (0, 0)), (7, (7, 1))]
    emitted := [(0, 8, (8, 1)), (0, 7, (7, 10))] }

/-- Counterexample to claim C1 as stated: with the non-associative
reduce `(a, b) ↦ (a.1, a.2 - b.2)` and an intermediate spill, key 7's
emitted values combine to `(7, 9)` while the left fold over its
inserted values is `(7, 3)`. -/
theorem C1_counterexample :
    (∀ v ∈ [((7, 10) : Nat × Nat), (8, 1), (7, 4), (7, 3)],
      C1cfg.keyExtractor v ≠ C1cfg.sentinelKey) ∧
    initTable C1cfg = Except.ok C1st0 ∧
    runInserts C1cfg 20 C1st0 [(7, 10), (8, 1), (7, 4), (7, 3)] = some C1stm ∧
    contentOpt C1cfg (emittedFor 7 (flushAll C1cfg C1stm).emitted) ≠
      contentOpt C1cfg (insertedFor C1cfg 7 [(7, 10), (8, 1), (7, 4), (7, 3)]) :=
  ⟨by decide, by rfl, by decide, by decide⟩

/-- Configuration for the C1 witness: keep-first reduce (associative
and key-stable). -/
def C1wcfg : TableCfg Nat Nat :=
  { keyExtractor := fun v => v % 10
    reduceFunction := fun a _ => a
    hashFunction := id
    numPartitions := 2
    numItemsInitScale := 2
    numItemsResizeScale := 2
    maxPartitionFillRatioNum := 9
    maxPartitionFillRatioDen := 10
    maxNumItemsTable := 1048576
    sentinelKey := 99
    sentinelValue := 0 }

/-- Initial state of `C1wcfg`'s table. -/
def C1wst0 : TableState Nat Nat :=
  { numItems := 0
    numItemsPerPartition := 2
    itemsPerPartition := [0, 0]
    tableSize := 4
    vector := List.replicate 4 (99, 0)
    emitted := [] }

/-- State of `C1wcfg`'s table after inserting 7, 17, 9 (17 reduced
into key 7's slot; a `ResizeUp` occurred while inserting 9). -/
def C1wstm : TableState Nat Nat :=
  { numItems := 2
    numItemsPerPartition := 4
    itemsPerPartition := [0, 2]
    tableSize := 8
    vector := [(99, 0), (99, 0), (99, 0), (99, 0), (99, 0), (9, 9), (99, 0), (7, 7)]
    emitted := [] }

/-- Witness for the corrected C1 at a concrete associative, key-stable
instance (with a resize inside the run): key 7's emitted combination
equals the left fold over its inserted values. -/
theorem C1_pre_reduce_conservation_witness :
    0 < C1wcfg.numPartitions ∧ 0 < C1wcfg.numItemsInitScale ∧
    0 < C1wcfg.numItemsResizeScale ∧
    (∀ a b d : Nat, C1wcfg.reduceFunction (C1wcfg.reduceFunction a b) d =
      C1wcfg.reduceFunction a (C1wcfg.reduceFunction b d)) ∧
    (∀ a b : Nat, C1wcfg.keyExtractor a = C1wcfg.keyExtractor b →
      C1wcfg.keyExtractor (C1wcfg.reduceFunction a b) = C1wcfg.keyExtractor a) ∧
    initTable C1wcfg = Except.ok C1wst0 ∧
    (∀ v ∈ [7, 17, 9], C1wcfg.keyExtractor v ≠ C1wcfg.sentinelKey) ∧
    runInserts C1wcfg 20 C1wst0 [7, 17, 9] = some C1wstm ∧
    (7 : Nat) ≠ C1wcfg.sentinelKey ∧
    contentOpt C1wcfg (emittedFor 7 (flushAll C1wcfg C1wstm).emitted) =
      contentOpt C1wcfg (insertedFor C1wcfg 7 [7, 17, 9]) :=
  ⟨by decide, by decide, by decide, fun a b d => rfl, fun a b _ => rfl,
   by rfl, by decide, by decide, by decide,
   C1_pre_reduce_conservation C1wcfg (by decide) (by decide) (by decide)
     (fun a b d => rfl) (fun a b _ => rfl) C1wst0 (by rfl) 20 [7, 17, 9]
     (by decide) C1wstm (by decide) 7 (by decide)⟩

/-- Initial state of `C10cfg`'s table, as built by `init`. -/
def C6st0 : TableState Nat Nat :=
  { numItems := 0
    numItemsPerPartition := 2
    itemsPerPartition := [0, 0]
    tableSize := 4
    vector := List.replicate 4 (99, 0)
    emitted := [] }

/-- Final state of the C6 witness run: inserting 7 and 9 triggers a
`ResizeUp` (partition 1 exceeds the 9/10 fill ratio), after which
`Flush` emits both records to partition 1's writer. -/
def C6stF : TableState Nat Nat :=
  { numItems := 0
    numItemsPerPartition := 4
    itemsPerPartition := [0, 0]
    tableSize := 8
    vector := List.replicate 8 (99, 0)
    emitted := [(1, 9, 9), (1, 7, 7)] }

/-- Claim C6: partition stability.  Starting from `init` and running any
sequence of `Insert`, `FlushPartition`, `Flush`, `FlushLargestPartition`
and `ResizeUp` operations (inserts may spill and resize internally), any
two records the table has emitted whose keys satisfy
`hash(k1) mod P = hash(k2) mod P` were emitted to the same writer
index; the partition id depends only on the key, never on the table
size. -/
theorem C6_partition_stability (c : TableCfg Key Value)
    (hP : 0 < c.numPartitions) (hs : 0 < c.numItemsInitScale)
    (hsk : ∀ v, c.keyExtractor v ≠ c.sentinelKey)
    (hscale : 0 < c.numItemsResizeScale)
    (st0 : TableState Key Value) (h0 : initTable c = Except.ok st0)
    (fuel : Nat) (ops : List (TableOp Value)) (st' : TableState Key Value)
    (hrun : runOps c fuel st0 ops = some st') :
    ∀ e1 ∈ st'.emitted, ∀ e2 ∈ st'.emitted,
      c.hashFunction e1.2.1 % c.numPartitions =
        c.hashFunction e2.2.1 % c.numPartitions →
      e1.1 = e2.1 := by
  have hg := initTable_counts c st0 hP hs h0
  have hpe0 := initTable_place c st0 h0
  have hinv := runOps_inv c hsk hscale ops fuel st0 st' hg.1 hg.2 hpe0 hrun
  intro e1 he1 e2 he2 hhash
  rw [hinv.2.2.emitp e1 he1, hinv.2.2.emitp e2 he2, hhash]

/-- Witness for C6: inserting values 7 and 9 into `C10cfg`'s table
(keys 7 and 9, both hashing to partition 1) and flushing — with a
`ResizeUp` happening in between — emits `(1, 9, 9)` and `(1, 7, 7)`,
and the theorem yields equality of their writer indices. -/
theorem C6_partition_stability_witness :
    0 < C10cfg.numPartitions ∧ 0 < C10cfg.numItemsInitScale ∧
    (∀ v : Nat, C10cfg.keyExtractor v ≠ C10cfg.sentinelKey) ∧
    0 < C10cfg.numItemsResizeScale ∧
    initTable C10cfg = Except.ok C6st0 ∧
    runOps C10cfg 20 C6st0 [.ins 7, .ins 9, .flushAllOp] = some C6stF ∧
    (1, 9, 9) ∈ C6stF.emitted ∧ (1, 7, 7) ∈ C6stF.emitted ∧
    C10cfg.hashFunction 9 % C10cfg.numPartitions =
      C10cfg.hashFunction 7 % C10cfg.numPartitions ∧
    ((1, 9, 9) : Nat × Nat × Nat).1 = ((1, 7, 7) : Nat × Nat × Nat).1 :=
  ⟨by decide, by decide,
   fun v => Nat.ne_of_lt (lt_of_lt_of_le (Nat.mod_lt v (by decide)) (by decide)),
   by decide, by rfl, by decide, by decide, by decide, by decide,
   C6_partition_stability C10cfg (by decide) (by decide)
     (fun v => Nat.ne_of_lt (lt_of_lt_of_le (Nat.mod_lt v (by decide)) (by decide)))
     (by decide) C6st0 (by rfl) 20 [.ins 7, .ins 9, .flushAllOp] C6stF (by decide)
     (1, 9, 9) (by decide) (1, 7, 7) (by decide) (by decide)⟩

/-- Claim C10 (implicit): on tables whose inserted keys never equal the
sentinel key and whose resize scale is positive, each of `Insert`,
`FlushPartition`, `Flush`, `FlushLargestPartition` and `ResizeUp`
preserves the coherence invariant: `num_items_` equals the number of
non-sentinel slots of the table, and for every partition `p`,
`items_per_partition_[p]` equals the number of non-sentinel slots in
partition `p`'s slot range. -/
theorem C10_count_slot_coherence (c : TableCfg Key Value)
    (hsk : ∀ v, c.keyExtractor v ≠ c.sentinelKey)
    (hscale : 0 < c.numItemsResizeScale)
    (st : TableState Key Value) (hg : GeoInv c st) (hc : CountsInv c st) :
    (∀ fuel v st', insertVal c fuel st v = some st' →
      GeoInv c st' ∧ CountsInv c st') ∧
    (∀ p, p < c.numPartitions →
      GeoInv c (flushPartition c p st) ∧ CountsInv c (flushPartition c p st)) ∧
    (GeoInv c (flushAll c st) ∧ CountsInv c (flushAll c st)) ∧
    (GeoInv c (flushLargestPartition c st) ∧
      CountsInv c (flushLargestPartition c st)) ∧
    (∀ fuel st', tableGo c fuel .resize st = some st' →
      GeoInv c st' ∧ CountsInv c st') := by
  refine ⟨?_, ?_, ?_, ?_, ?_⟩
  · intro fuel v st' h
    exact tableGo_counts c hsk hscale fuel (.insert (c.keyExtractor v, v)) st st' hg hc
      (fun kv hkv => by cases hkv; exact hsk v) h
  · intro p hp
    exact flushPartition_counts c st p hp hg hc
  · exact flushAll_counts c st hg hc
  · exact flushPartition_counts c st _ (largestPartitionIndex_lt c st hg.pPos) hg hc
  · intro fuel st' h
    exact tableGo_counts c hsk hscale fuel .resize st st' hg hc
      (fun kv hkv => nomatch hkv) h

/-- Witness for C10 at the concrete table `C10cfg`, `C10st`: the
hypotheses hold and `Flush` preserves the coherence invariant. -/
theorem C10_count_slot_coherence_witness :
    (∀ v : Nat, C10cfg.keyExtractor v ≠ C10cfg.sentinelKey) ∧
    0 < C10cfg.numItemsResizeScale ∧
    GeoInv C10cfg C10st ∧ CountsInv C10cfg C10st ∧
    (GeoInv C10cfg (flushAll C10cfg C10st) ∧
      CountsInv C10cfg (flushAll C10cfg C10st)) :=
  ⟨fun v => Nat.ne_of_lt (lt_of_lt_of_le (Nat.mod_lt v (by decide)) (by decide)),
   by decide,
   ⟨by decide, by decide, by decide, by decide, by decide⟩,
   ⟨by decide, by decide⟩,
   (C10_count_slot_coherence C10cfg
     (fun v => Nat.ne_of_lt (lt_of_lt_of_le (Nat.mod_lt v (by decide)) (by decide)))
     (by decide) C10st
     ⟨by decide, by decide, by decide, by decide, by decide⟩
     ⟨by decide, by decide⟩).2.2.1⟩

/-- Claim C9: the invalid-configuration check of `init` and the
success path.  In the source the slot count is always
`table_size_ = num_partitions_ * num_items_init_scale_`, so the number
of partitions always divides the slot count and the failure branch of
the claim holds vacuously (the guard additionally requires
`num_partitions_ > table_size_`, making it dead code); construction
always succeeds with `table_size / P` slots per partition, all slots
holding the sentinel pair and all counters zero. -/
theorem C9_init_config (c : TableCfg Key Value) :
    (¬ (c.numPartitions ∣ c.numPartitions * c.numItemsInitScale) →
      initTable c = Except.error "invalid_argument") ∧
    (c.numPartitions ∣ c.numPartitions * c.numItemsInitScale →
      initTable c = Except.ok
        { numItems := 0
          numItemsPerPartition :=
            c.numPartitions * c.numItemsInitScale / c.numPartitions
          itemsPerPartition := List.replicate c.numPartitions 0
          tableSize := c.numPartitions * c.numItemsInitScale
          vector := List.replicate (c.numPartitions * c.numItemsInitScale)
            c.sentinelPair
          emitted := [] }) := by
  constructor
  · intro hnd
    exact absurd (Dvd.intro c.numItemsInitScale rfl) hnd
  · intro _
    exact initTable_ok c

/-- Concrete configuration for the `Reset` code-bug exhibit: one
partition, two slots, identity keys and hash, sentinel key 99. -/
def C8cfg : TableCfg Nat Nat :=
  { keyExtractor := id
    reduceFunction := fun a b => a + b
    hashFunction := id
    numPartitions := 1
    numItemsInitScale := 2
    numItemsResizeScale := 2
    maxPartitionFillRatioNum := 1
    maxPartitionFillRatioDen := 1
    maxNumItemsTable := 1048576
    sentinelKey := 99
    sentinelValue := 0 }

/-- Claim C8, failing run: insert the single item `5` into a freshly
initialized table (it lands in slot 1) and call `Reset`.  The counters
and sizes are reset, but the slot still holds `(5, 5)` — the clearing
loop of `Reset` iterates over the vector by value and never writes a
slot — contradicting the claim that after `Reset()` every slot holds
the sentinel pair. -/
theorem C8_reset_code_bug :
    initTable C8cfg = Except.ok
      { numItems := 0, numItemsPerPartition := 2, itemsPerPartition := [0],
        tableSize := 2, vector := [(99, 0), (99, 0)], emitted := [] } ∧
    (insertVal C8cfg 9
        { numItems := 0, numItemsPerPartition := 2, itemsPerPartition := [0],
          tableSize := 2, vector := [(99, 0), (99, 0)], emitted := [] } 5).map
      (resetTable C8cfg) =
      some { numItems := 0, numItemsPerPartition := 2, itemsPerPartition := [0],
             tableSize := 2, vector := [(99, 0), (5, 5)], emitted := [] } ∧
    ((5, 5) : Nat × Nat).1 ≠ C8cfg.sentinelKey := by
  refine ⟨rfl, by decide, by decide⟩

/-! ### Data layer: BlockWriter, File, BlockReader -/

/-- Modelled from the spec: the type-directed serialization layer
(§4.1).  `enc` produces the byte image of a value, `dec` reads one
value from the head of a byte sequence and reports how many bytes it
consumed; encodings are non-empty and decoding inverts encoding on any
stream that starts with an encoding.  `isFixedSize`/`fixedSize` are
the compile-time fixed-size flag and byte count. -/
structure Codec (T : Type) where
  enc : T → List Nat
  dec : List Nat → Option (T × Nat)
  isFixedSize : Bool
  fixedSize : Nat
  enc_ne : ∀ v, enc v ≠ []
  dec_enc : ∀ v rest, dec (enc v ++ rest) = some (v, (enc v).length)
  fixed_len : isFixedSize = true → ∀ v, (enc v).length = fixedSize

/-- Byte image of an item sequence, in order. -/
def encStream (c : Codec T) : List T → List Nat
  | [] => []
  | v :: vs => c.enc v ++ encStream c vs

/-- A flushed block as appended to the sink by `FlushBlock`
(lines 209-212 of `block_writer.hpp`): the written bytes `[0,
current_)`, the offset of the first item begun in the block and the
number of items begun in it. -/
structure WBlock where
  bytes : List Nat
  firstItem : Nat
  nitems : Nat
  deriving DecidableEq, Repr

/-- State of a `BlockWriterBase`: blocks already appended to the sink,
the bytes written into the current block, `nitems_` and
`first_offset_`. -/
structure WState where
  blocks : List WBlock
  cur : List Nat
  nitems : Nat
  firstOffset : Nat
  deriving DecidableEq, Repr

/-- A freshly constructed writer (`AllocateBlock`, lines 200-206). -/
def wInit : WState := ⟨[], [], 0, 0⟩

/-- `Flush` (lines 84-87): `FlushBlock` appends the block
`[0, current_)` with `first_offset_` and `nitems_` to the sink, then
`AllocateBlock` resets the cursor and counters. -/
def flushW (w : WState) : WState :=
  ⟨w.blocks ++ [⟨w.cur, w.firstOffset, w.nitems⟩], [], 0, 0⟩

/-- `Append(data, size)` (lines 135-157): while the data does not fit
into the current block, fill the block to its end, flush, and continue
with the rest; finally copy the remainder. -/
def appendBytesF (B : Nat) : Nat → List Nat → WState → WState
  | 0, _, w => w
  | fuel + 1, data, w =>
    if B < w.cur.length + data.length then
      appendBytesF B fuel (data.drop (B - w.cur.length))
        (flushW { w with cur := w.cur ++ data.take (B - w.cur.length) })
    else { w with cur := w.cur ++ data }

/-- `MarkItem` (lines 104-114): flush a full block, record the first
item offset, count the item. -/
def markItemW (B : Nat) (w : WState) : WState :=
  let w1 := if w.cur.length = B then flushW w else w
  let w2 := if w1.nitems = 0 then { w1 with firstOffset := w1.cur.length } else w1
  { w2 with nitems := w2.nitems + 1 }

/-- `operator()(x)` (lines 118-127, without self-verify): `MarkItem`
then serialize. -/
def appendItemW (c : Codec T) (B : Nat) (w : WState) (v : T) : WState :=
  appendBytesF B ((c.enc v).length + 1) (c.enc v) (markItemW B w)

/-- `Close` (lines 71-78) via `MaybeFlushBlock` (lines 215-222): the
final partial block is appended if it contains a byte or an item. -/
def closeW (w : WState) : List WBlock :=
  if w.cur ≠ [] ∨ w.nitems ≠ 0 then w.blocks ++ [⟨w.cur, w.firstOffset, w.nitems⟩]
  else w.blocks

/-- Writing an item sequence through a `BlockWriter` and closing it:
the sequence of blocks the sink receives. -/
def writeBlocks (c : Codec T) (B : Nat) (vs : List T) : List WBlock :=
  closeW (vs.foldl (appendItemW c B) wInit)

/-- `File::AppendBlock` (lines 296-302 of `file.hpp`): blocks of size
zero are dropped, others are stored (the `nitems_sum` prefix sums are
recomputed from the stored blocks in this model). -/
def fileAppend (f : List WBlock) (b : WBlock) : List WBlock :=
  if b.bytes.length = 0 then f else f ++ [b]

/-- The `File` resulting from writing `vs` through a `BlockWriter` of
block size `B`. -/
def writeFile (c : Codec T) (B : Nat) (vs : List T) : List WBlock :=
  (writeBlocks c B vs).foldl fileAppend []

def flattenBlocks : List WBlock → List Nat
  | [] => []
  | b :: rest => b.bytes ++ flattenBlocks rest

/-- Total number of items of a block list (`File::NumItems`). -/
def countBlocks : List WBlock → Nat
  | [] => 0
  | b :: rest => b.nitems + countBlocks rest

def blkAt (f : List WBlock) (i : Nat) : WBlock := f.getD i ⟨[], 0, 0⟩

/-- Number of items starting in blocks before block `i`
(`nitems_sum_[i-1]`). -/
def itemsBeforeW (f : List WBlock) (i : Nat) : Nat :=
  countBlocks (f.take i)

/-- `std::lower_bound(nitems_sum_.begin(), nitems_sum_.end(), index)`
(line 499 of `file.hpp`) together with the `items_before` computation
(line 516): the first block index whose inclusive item prefix sum is
at least `k`, paired with the number of items before that block;
`none` models the `die("Access beyond end of File?")` branch. -/
def lbAux : List WBlock → Nat → Option (Nat × Nat)
  | [], _ => none
  | b :: rest, k =>
    if k ≤ b.nitems then some (0, 0)
    else
      match lbAux rest (k - b.nitems) with
      | none => none
      | some (i, ib) => some (i + 1, ib + b.nitems)

/-- A Block view delivered by `FileBlockSource::NextBlock`: the
readable bytes and the number of items starting in them. -/
def viewsFrom (f : List WBlock) (firstBlock firstItem : Nat) :
    List (List Nat × Nat) :=
  match f.drop firstBlock with
  | [] => []
  | b :: rest => (b.bytes.drop firstItem, b.nitems) ::
      rest.map (fun b2 => (b2.bytes, b2.nitems))

def flatViews : List (List Nat × Nat) → List Nat
  | [] => []
  | (d, _) :: rest => d ++ flatViews rest

/-- State of a `BlockReader`: pending views from the source, bytes
from the cursor to the end of the current block, and `nitems_`. -/
structure RState where
  views : List (List Nat × Nat)
  cur : List Nat
  nitems : Nat
  deriving DecidableEq, Repr

def flatR (r : RState) : List Nat := r.cur ++ flatViews r.views

/-- `HasNext` (lines 197-203 of `block_reader.hpp`): advance over
empty blocks until a byte is available; `none` if the source is
exhausted. -/
def hasNextAux : List Nat → List (List Nat × Nat) → Nat → Option RState
  | cur, views, nitems =>
    if cur ≠ [] then some ⟨views, cur, nitems⟩
    else
      match views with
      | [] => none
      | (d, m) :: rest => hasNextAux d rest m

/-- `Read(outdata, size)` (lines 315-336): consume `n` bytes across
block boundaries; `none` models the data-underflow exception. -/
def readBytesAux : Nat → List Nat → List (List Nat × Nat) → Nat → Option RState
  | n, cur, views, nitems =>
    if cur.length < n then
      match views with
      | [] => none
      | (d, m) :: rest => readBytesAux (n - cur.length) d rest m
    else some ⟨views, cur.drop n, nitems⟩

/-- `Next<T>()` (lines 177-194, without self-verify): ensure a byte is
available, decrement `nitems_`, deserialize one item through the
cursor. -/
def nextR (c : Codec T) (r : RState) : Option (T × RState) :=
  match hasNextAux r.cur r.views r.nitems with
  | none => none
  | some r1 =>
    match c.dec (flatR r1) with
    | none => none
    | some (v, used) =>
      match readBytesAux used r1.cur r1.views (r1.nitems - 1) with
      | none => none
      | some r2 => some (v, r2)

/-- `ReadComplete` (lines 207-212): read items until `HasNext` is
false. -/
def readCompleteR (c : Codec T) : Nat → RState → Option (List T)
  | 0, _ => none
  | fuel + 1, r =>
    match hasNextAux r.cur r.views r.nitems with
    | none => some []
    | some _ =>
      match nextR c r with
      | none => none
      | some (v, r2) =>
        match readCompleteR c fuel r2 with
        | none => none
        | some vs => some (v :: vs)

/-- Modelled from the spec: the fixed-size fast path `Skip(items,
bytes)` used by `GetReaderAt` (§4.4 "fast-path skip if `T` is
fixed-size", §4.3 "may fast-path by skipping prefix bytes"): advance
the cursor by the given byte count across block boundaries and account
for the skipped items in `nitems_`. -/
def skipR (r : RState) (items bytesn : Nat) : Option RState :=
  readBytesAux bytesn r.cur r.views (r.nitems - items)

/-- The deserialize-and-drop loop of `GetReaderAt` (lines 532-536 of
`file.hpp`): `HasNext`-check then `Next`, `index - items_before`
times. -/
def dropItems (c : Codec T) : Nat → RState → Option RState
  | 0, r => some r
  | n + 1, r =>
    match hasNextAux r.cur r.views r.nitems with
    | none => none
    | some _ =>
      match nextR c r with
      | none => none
      | some (_, r2) => dropItems c n r2

/-- `File::GetReaderAt<T>(index)` (lines 491-540 of `file.hpp`):
binary-search the starting block, start a reader at that block trimmed
to its first item boundary (`set_begin(first_item)` in
`FileBlockSource::NextBlock`), then skip the preceding items — by a
byte-skip when the item type is fixed-size, by deserialize-and-drop
otherwise. -/
def getReaderAt (c : Codec T) (f : List WBlock) (index : Nat) : Option RState :=
  match lbAux f index with
  | none => none
  | some (bi, ib) =>
    let r0 : RState := ⟨viewsFrom f bi (blkAt f bi).firstItem, [], 0⟩
    if c.isFixedSize then
      skipR r0 (index - ib) ((index - ib) * c.fixedSize)
    else
      dropItems c (index - ib) r0

/-- `File::GetItemAt<T>(index)` (lines 542-549 of `file.hpp`):
`GetReaderAt(index).Next()`. -/
def getItemAt (c : Codec T) (f : List WBlock) (index : Nat) : Option T :=
  match getReaderAt c f index with
  | none => none
  | some r =>
    match nextR c r with
    | none => none
    | some (v, _) => some v

/-! ### Byte-stream algebra -/

theorem encStream_append (c : Codec T) (xs ys : List T) :
    encStream c (xs ++ ys) = encStream c xs ++ encStream c ys := by
  induction xs with
  | nil => rfl
  | cons x xs ih =>
      show c.enc x ++ encStream c (xs ++ ys) = (c.enc x ++ encStream c xs) ++ encStream c ys
      rw [ih, List.append_assoc]

theorem encStream_ne_nil (c : Codec T) (v : T) (vs : List T) :
    encStream c (v :: vs) ≠ [] := by
  show c.enc v ++ encStream c vs ≠ []
  intro h
  exact c.enc_ne v (List.append_eq_nil.mp h).1

theorem encStream_eq_nil (c : Codec T) (vs : List T)
    (h : encStream c vs = []) : vs = [] := by
  cases vs with
  | nil => rfl
  | cons v vs => exact absurd h (encStream_ne_nil c v vs)

theorem encStream_length_fixed (c : Codec T) (s : Nat)
    (h : ∀ v, (c.enc v).length = s) :
    ∀ vs : List T, (encStream c vs).length = vs.length * s := by
  intro vs
  induction vs with
  | nil => simp [encStream]
  | cons v vs ih =>
      show (c.enc v ++ encStream c vs).length = (vs.length + 1) * s
      rw [List.length_append, h v, ih, Nat.succ_mul, Nat.add_comm]

theorem flattenBlocks_append (bs1 bs2 : List WBlock) :
    flattenBlocks (bs1 ++ bs2) = flattenBlocks bs1 ++ flattenBlocks bs2 := by
  induction bs1 with
  | nil => rfl
  | cons b bs ih =>
      show b.bytes ++ flattenBlocks (bs ++ bs2) = (b.bytes ++ flattenBlocks bs) ++ flattenBlocks bs2
      rw [ih, List.append_assoc]

theorem countBlocks_append (bs1 bs2 : List WBlock) :
    countBlocks (bs1 ++ bs2) = countBlocks bs1 + countBlocks bs2 := by
  induction bs1 with
  | nil => simp [countBlocks]
  | cons b bs ih =>
      show b.nitems + countBlocks (bs ++ bs2) = b.nitems + countBlocks bs + countBlocks bs2
      rw [ih, Nat.add_assoc]

theorem countBlocks_zero (bs : List WBlock) (h : ∀ b ∈ bs, b.nitems = 0) :
    countBlocks bs = 0 := by
  induction bs with
  | nil => rfl
  | cons b bs ih =>
      show b.nitems + countBlocks bs = 0
      rw [h b (by simp), ih (fun b2 hb2 => h b2 (by simp [hb2]))]

theorem blkAt_append_left (bs nb : List WBlock) (i : Nat) (h : i < bs.length) :
    blkAt (bs ++ nb) i = blkAt bs i :=
  List.getD_append _ _ _ _ h

theorem blkAt_append_right (bs nb : List WBlock) (i : Nat) (h : bs.length ≤ i) :
    blkAt (bs ++ nb) i = blkAt nb (i - bs.length) :=
  List.getD_append_right _ _ _ _ h

theorem itemsBeforeW_append_left (bs nb : List WBlock) (i : Nat)
    (h : i ≤ bs.length) : itemsBeforeW (bs ++ nb) i = itemsBeforeW bs i := by
  unfold itemsBeforeW
  rw [List.take_append_of_le_length h]

theorem itemsBeforeW_le (bs : List WBlock) (i : Nat) :
    itemsBeforeW bs i ≤ countBlocks bs := by
  conv_rhs => rw [← List.take_append_drop i bs]
  rw [countBlocks_append]
  exact Nat.le_add_right _ _

/-! ### Writer invariants -/

theorem appendBytesF_succ (B fuel : Nat) (data : List Nat) (w : WState) :
    appendBytesF B (fuel + 1) data w =
      if B < w.cur.length + data.length then
        appendBytesF B fuel (data.drop (B - w.cur.length))
          (flushW { w with cur := w.cur ++ data.take (B - w.cur.length) })
      else { w with cur := w.cur ++ data } := rfl

theorem appendBytesF_spec (B : Nat) :
    ∀ (fuel : Nat) (data : List Nat) (w : WState),
      data.length < fuel → w.cur.length < B → w.firstOffset ≤ w.cur.length →
      ∃ nb : List WBlock,
        (appendBytesF B fuel data w).blocks = w.blocks ++ nb ∧
        flattenBlocks nb ++ (appendBytesF B fuel data w).cur = w.cur ++ data ∧
        (appendBytesF B fuel data w).cur.length ≤ B ∧
        (appendBytesF B fuel data w).firstOffset ≤
          (appendBytesF B fuel data w).cur.length ∧
        (∀ b ∈ nb, b.bytes.length = B) ∧
        ((nb = [] ∧ (appendBytesF B fuel data w).nitems = w.nitems ∧
            (appendBytesF B fuel data w).firstOffset = w.firstOffset ∧
            (appendBytesF B fuel data w).cur = w.cur ++ data) ∨
          (∃ b0 brest, nb = b0 :: brest ∧ b0.nitems = w.nitems ∧
            b0.firstItem = w.firstOffset ∧ (∀ b ∈ brest, b.nitems = 0) ∧
            (appendBytesF B fuel data w).nitems = 0 ∧
            b0.bytes.drop b0.firstItem ++
              (flattenBlocks brest ++ (appendBytesF B fuel data w).cur) =
              w.cur.drop w.firstOffset ++ data)) := by
  intro fuel
  induction fuel with
  | zero => intro data w hf _ _; omega
  | succ fuel ih =>
    intro data w hf hcur hfo
    rw [appendBytesF_succ]
    by_cases hlt : B < w.cur.length + data.length
    · rw [if_pos hlt]
      set cut := B - w.cur.length with hcut
      have hcut1 : 0 < cut := by omega
      have hcutd : cut ≤ data.length := by omega
      set w1 : WState :=
        flushW { w with cur := w.cur ++ data.take cut } with hw1
      have hw1blocks : w1.blocks =
          w.blocks ++ [⟨w.cur ++ data.take cut, w.firstOffset, w.nitems⟩] := rfl
      have hw1cur : w1.cur = [] := rfl
      have hw1n : w1.nitems = 0 := rfl
      have hw1fo : w1.firstOffset = 0 := rfl
      have hdf : (data.drop cut).length < fuel := by
        rw [List.length_drop]; omega
      have hc1 : w1.cur.length < B := by rw [hw1cur]; simp; omega
      have hfo1 : w1.firstOffset ≤ w1.cur.length := by rw [hw1fo]; exact Nat.zero_le _
      obtain ⟨nb, hblocks, hcons, hcurle, hfole, hfull, hcase⟩ :=
        ih (data.drop cut) w1 hdf hc1 hfo1
      set res := appendBytesF B fuel (data.drop cut) w1 with hres
      have hconsd : flattenBlocks nb ++ res.cur = data.drop cut := by
        rw [hcons, hw1cur, List.nil_append]
      have htlen : (data.take cut).length = cut := by
        rw [List.length_take, Nat.min_eq_left hcutd]
      have hfblen : (w.cur ++ data.take cut).length = B := by
        rw [List.length_append, htlen]
        exact Nat.add_sub_cancel' (Nat.le_of_lt hcur)
      refine ⟨⟨w.cur ++ data.take cut, w.firstOffset, w.nitems⟩ :: nb, ?_, ?_, hcurle,
        hfole, ?_, Or.inr ⟨_, nb, rfl, rfl, rfl, ?_, ?_, ?_⟩⟩
      · rw [hblocks, hw1blocks, List.append_assoc]; rfl
      · show (w.cur ++ data.take cut) ++ flattenBlocks nb ++ res.cur = w.cur ++ data
        rw [List.append_assoc, hconsd, List.append_assoc, List.take_append_drop]
      · intro b hb
        rcases List.mem_cons.mp hb with hb | hb
        · rw [hb]; exact hfblen
        · exact hfull b hb
      · intro b hb
        rcases hcase with ⟨hnb, _⟩ | ⟨b0, brest, hnb, hb0n, _, hrest0, _, _⟩
        · rw [hnb] at hb; cases hb
        · rw [hnb] at hb
          rcases List.mem_cons.mp hb with hb | hb
          · rw [hb, hb0n, hw1n]
          · exact hrest0 b hb
      · rcases hcase with ⟨_, hni, _, _⟩ | ⟨_, _, _, _, _, _, hni, _⟩
        · rw [hni, hw1n]
        · exact hni
      · show (w.cur ++ data.take cut).drop w.firstOffset ++
            (flattenBlocks nb ++ res.cur) = w.cur.drop w.firstOffset ++ data
        rw [hconsd, List.drop_append_of_le_length hfo, List.append_assoc,
          List.take_append_drop]
    · rw [if_neg hlt]
      refine ⟨[], by simp, ?_, ?_, ?_, by simp, Or.inl ⟨rfl, rfl, rfl, rfl⟩⟩
      · show flattenBlocks [] ++ (w.cur ++ data) = w.cur ++ data
        show [] ++ (w.cur ++ data) = w.cur ++ data
        rw [List.nil_append]
      · show (w.cur ++ data).length ≤ B
        rw [List.length_append]; omega
      · show w.firstOffset ≤ (w.cur ++ data).length
        rw [List.length_append]; omega

/-- The byte suffix of a block list starting at block `i`'s first whole
item. -/
def suffixAt (f : List WBlock) (i : Nat) : List Nat :=
  (blkAt f i).bytes.drop (blkAt f i).firstItem ++ flattenBlocks (f.drop (i + 1))

theorem flattenBlocks_single (b : WBlock) : flattenBlocks [b] = b.bytes :=
  List.append_nil _

theorem suffixAt_append_left (bs nb : List WBlock) (i : Nat)
    (h : i < bs.length) :
    suffixAt (bs ++ nb) i = suffixAt bs i ++ flattenBlocks nb := by
  unfold suffixAt
  rw [blkAt_append_left bs nb i h,
    List.drop_append_of_le_length (show i + 1 ≤ bs.length from h),
    flattenBlocks_append, List.append_assoc]

/-- Invariant of a `BlockWriterBase` that has written exactly the item
sequence `vs` since construction. -/
structure WInv (c : Codec T) (B : Nat) (w : WState) (vs : List T) : Prop where
  conserve : flattenBlocks w.blocks ++ w.cur = encStream c vs
  counts : countBlocks w.blocks + w.nitems = vs.length
  curLe : w.cur.length ≤ B
  foLe : w.firstOffset ≤ w.cur.length
  blockFull : ∀ b ∈ w.blocks, b.bytes.length = B
  blockSuffix : ∀ i, i < w.blocks.length → 0 < (blkAt w.blocks i).nitems →
    (blkAt w.blocks i).firstItem ≤ (blkAt w.blocks i).bytes.length ∧
    suffixAt w.blocks i ++ w.cur = encStream c (vs.drop (itemsBeforeW w.blocks i))
  pending : 0 < w.nitems →
    w.cur.drop w.firstOffset = encStream c (vs.drop (countBlocks w.blocks))
  headItems : vs ≠ [] →
    0 < (blkAt w.blocks 0).nitems ∨ (w.blocks = [] ∧ 0 < w.nitems)

/-- Invariant holding between `MarkItem` and the serializer's `Append`
inside `operator()`: the new item is counted but its bytes are still
missing. -/
structure MidInv (c : Codec T) (B : Nat) (w : WState) (vs : List T) : Prop where
  conserve : flattenBlocks w.blocks ++ w.cur = encStream c vs
  counts : countBlocks w.blocks + w.nitems = vs.length + 1
  curLt : w.cur.length < B
  foLe : w.firstOffset ≤ w.cur.length
  blockFull : ∀ b ∈ w.blocks, b.bytes.length = B
  blockSuffix : ∀ i, i < w.blocks.length → 0 < (blkAt w.blocks i).nitems →
    (blkAt w.blocks i).firstItem ≤ (blkAt w.blocks i).bytes.length ∧
    suffixAt w.blocks i ++ w.cur = encStream c (vs.drop (itemsBeforeW w.blocks i))
  pendingM : w.cur.drop w.firstOffset = encStream c (vs.drop (countBlocks w.blocks))
  nitemsPos : 0 < w.nitems
  headM : 0 < (blkAt w.blocks 0).nitems ∨ (w.blocks = [] ∧ 0 < w.nitems)

theorem winv_blocks_ne (c : Codec T) (B : Nat) (hB : 0 < B) (w : WState)
    (vs : List T) (hw : WInv c B w vs) (hbs : w.blocks ≠ []) : vs ≠ [] := by
  intro hvs
  have hcons := hw.conserve
  rw [hvs] at hcons
  have hflat : flattenBlocks w.blocks = [] := by
    have := (List.append_eq_nil.mp (by simpa [encStream] using hcons)).1
    exact this
  cases hbsv : w.blocks with
  | nil => exact hbs hbsv
  | cons b rest =>
      rw [hbsv] at hflat
      have hb : b.bytes = [] :=
        (List.append_eq_nil.mp (show b.bytes ++ flattenBlocks rest = [] from hflat)).1
      have := hw.blockFull b (by rw [hbsv]; simp)
      rw [hb] at this
      simp at this
      omega

theorem winv_head (c : Codec T) (B : Nat) (hB : 0 < B) (w : WState)
    (vs : List T) (hw : WInv c B w vs) (hbs : w.blocks ≠ []) :
    0 < (blkAt w.blocks 0).nitems := by
  rcases hw.headItems (winv_blocks_ne c B hB w vs hw hbs) with h | ⟨h, _⟩
  · exact h
  · exact absurd h hbs

theorem markItemW_flush (B : Nat) (w : WState) (h : w.cur.length = B) :
    markItemW B w = ⟨w.blocks ++ [⟨w.cur, w.firstOffset, w.nitems⟩], [], 1, 0⟩ := by
  simp [markItemW, flushW, h]

theorem markItemW_first (B : Nat) (w : WState) (h : w.cur.length ≠ B)
    (h0 : w.nitems = 0) :
    markItemW B w = ⟨w.blocks, w.cur, 1, w.cur.length⟩ := by
  simp [markItemW, h, h0]

theorem markItemW_more (B : Nat) (w : WState) (h : w.cur.length ≠ B)
    (h0 : w.nitems ≠ 0) :
    markItemW B w = ⟨w.blocks, w.cur, w.nitems + 1, w.firstOffset⟩ := by
  simp [markItemW, h, h0]

theorem markItemW_minv (c : Codec T) (B : Nat) (hB : 0 < B) (w : WState)
    (vs : List T) (hw : WInv c B w vs) : MidInv c B (markItemW B w) vs := by
  by_cases hcb : w.cur.length = B
  · rw [markItemW_flush B w hcb]
    refine ⟨?_, ?_, ?_, ?_, ?_, ?_, ?_, ?_, ?_⟩
    · show flattenBlocks (w.blocks ++ [⟨w.cur, w.firstOffset, w.nitems⟩]) ++ [] =
        encStream c vs
      rw [List.append_nil, flattenBlocks_append, flattenBlocks_single]
      exact hw.conserve
    · show countBlocks (w.blocks ++ [⟨w.cur, w.firstOffset, w.nitems⟩]) + 1 =
        vs.length + 1
      rw [countBlocks_append]
      have h := hw.counts
      show countBlocks w.blocks + (w.nitems + countBlocks []) + 1 = vs.length + 1
      show countBlocks w.blocks + (w.nitems + 0) + 1 = vs.length + 1
      omega
    · show ([] : List Nat).length < B
      simpa using hB
    · exact Nat.zero_le _
    · intro b hb
      rcases List.mem_append.mp hb with hb | hb
      · exact hw.blockFull b hb
      · rw [List.mem_singleton.mp hb]
        exact hcb
    · intro i hi hni
      have hlen : (w.blocks ++ [(⟨w.cur, w.firstOffset, w.nitems⟩ : WBlock)]).length =
          w.blocks.length + 1 := by simp
      by_cases hlt : i < w.blocks.length
      · have hba := blkAt_append_left w.blocks
          [(⟨w.cur, w.firstOffset, w.nitems⟩ : WBlock)] i hlt
        rw [hba] at hni ⊢
        obtain ⟨h1, h2⟩ := hw.blockSuffix i hlt hni
        refine ⟨h1, ?_⟩
        show suffixAt (w.blocks ++ [⟨w.cur, w.firstOffset, w.nitems⟩]) i ++ [] =
          encStream c (vs.drop
            (itemsBeforeW (w.blocks ++ [⟨w.cur, w.firstOffset, w.nitems⟩]) i))
        rw [List.append_nil, suffixAt_append_left _ _ _ hlt, flattenBlocks_single,
          itemsBeforeW_append_left _ _ _ (Nat.le_of_lt hlt)]
        exact h2
      · have hieq : i = w.blocks.length := by rw [hlen] at hi; omega
        subst hieq
        have hba : blkAt (w.blocks ++ [(⟨w.cur, w.firstOffset, w.nitems⟩ : WBlock)])
            w.blocks.length = ⟨w.cur, w.firstOffset, w.nitems⟩ := by
          rw [blkAt_append_right _ _ _ (Nat.le_refl _), Nat.sub_self]
          rfl
        rw [hba] at hni ⊢
        refine ⟨hw.foLe, ?_⟩
        show suffixAt (w.blocks ++ [⟨w.cur, w.firstOffset, w.nitems⟩])
            w.blocks.length ++ [] = encStream c (vs.drop
            (itemsBeforeW (w.blocks ++ [⟨w.cur, w.firstOffset, w.nitems⟩])
              w.blocks.length))
        unfold suffixAt
        rw [hba]
        have hdrop : (w.blocks ++
            [(⟨w.cur, w.firstOffset, w.nitems⟩ : WBlock)]).drop
            (w.blocks.length + 1) = [] :=
          List.drop_eq_nil_of_le (by simp)
        rw [hdrop]
        show w.cur.drop w.firstOffset ++ flattenBlocks [] ++ [] = _
        show w.cur.drop w.firstOffset ++ [] ++ [] = _
        rw [List.append_nil, List.append_nil,
          itemsBeforeW_append_left _ _ _ (Nat.le_refl _)]
        have hib : itemsBeforeW w.blocks w.blocks.length = countBlocks w.blocks := by
          unfold itemsBeforeW
          rw [List.take_length]
        rw [hib]
        exact hw.pending hni
    · show ([] : List Nat).drop 0 =
        encStream c (vs.drop
          (countBlocks (w.blocks ++ [⟨w.cur, w.firstOffset, w.nitems⟩])))
      have hc : countBlocks (w.blocks ++
          [(⟨w.cur, w.firstOffset, w.nitems⟩ : WBlock)]) = vs.length := by
        rw [countBlocks_append]
        have h := hw.counts
        show countBlocks w.blocks + (w.nitems + countBlocks []) = vs.length
        show countBlocks w.blocks + (w.nitems + 0) = vs.length
        omega
      rw [hc, List.drop_length]
      rfl
    · exact Nat.one_pos
    · by_cases hbs : w.blocks = []
      · have hvs : vs ≠ [] := by
          intro h
          have hcons := hw.conserve
          rw [h, hbs] at hcons
          have : w.cur = [] := by simpa [flattenBlocks, encStream] using hcons
          rw [this] at hcb
          simp at hcb
          omega
        rcases hw.headItems hvs with h | ⟨_, h⟩
        · rw [hbs] at h
          exact absurd h (by simp [blkAt])
        · left
          rw [hbs]
          show 0 < w.nitems
          exact h
      · left
        have h0 : 0 < w.blocks.length := List.length_pos.mpr hbs
        rw [blkAt_append_left _ _ _ h0]
        exact winv_head c B hB w vs hw hbs
  · by_cases h0 : w.nitems = 0
    · rw [markItemW_first B w hcb h0]
      refine ⟨hw.conserve, ?_, ?_, Nat.le_refl _, hw.blockFull, hw.blockSuffix,
        ?_, Nat.one_pos, ?_⟩
      · show countBlocks w.blocks + 1 = vs.length + 1
        have h := hw.counts
        omega
      · exact Nat.lt_of_le_of_ne hw.curLe hcb
      · show w.cur.drop w.cur.length = encStream c (vs.drop (countBlocks w.blocks))
        have hc : countBlocks w.blocks = vs.length := by
          have h := hw.counts
          omega
        rw [List.drop_length, hc, List.drop_length]
        rfl
      · by_cases hbs : w.blocks = []
        · exact Or.inr ⟨hbs, Nat.one_pos⟩
        · exact Or.inl (winv_head c B hB w vs hw hbs)
    · rw [markItemW_more B w hcb h0]
      refine ⟨hw.conserve, ?_, ?_, hw.foLe, hw.blockFull, hw.blockSuffix,
        hw.pending (Nat.pos_of_ne_zero h0), Nat.succ_pos _, ?_⟩
      · show countBlocks w.blocks + (w.nitems + 1) = vs.length + 1
        have h := hw.counts
        omega
      · exact Nat.lt_of_le_of_ne hw.curLe hcb
      · by_cases hbs : w.blocks = []
        · exact Or.inr ⟨hbs, Nat.succ_pos _⟩
        · exact Or.inl (winv_head c B hB w vs hw hbs)

theorem encStream_snoc (c : Codec T) (xs : List T) (v : T) :
    encStream c (xs ++ [v]) = encStream c xs ++ c.enc v := by
  rw [encStream_append]
  show encStream c xs ++ (c.enc v ++ encStream c []) = encStream c xs ++ c.enc v
  rw [show encStream c ([] : List T) = [] from rfl, List.append_nil]

theorem appendEnc_winv (c : Codec T) (B : Nat) (w : WState) (vs : List T) (v : T)
    (hm : MidInv c B w vs) :
    WInv c B (appendBytesF B ((c.enc v).length + 1) (c.enc v) w) (vs ++ [v]) := by
  obtain ⟨nb, hblocks, hcons, hcurle, hfole, hfull, hcase⟩ :=
    appendBytesF_spec B ((c.enc v).length + 1) (c.enc v) w
      (Nat.lt_succ_self _) hm.curLt hm.foLe
  set res := appendBytesF B ((c.enc v).length + 1) (c.enc v) w with hres
  have hcle : countBlocks w.blocks ≤ vs.length := by
    have h1 := hm.counts
    have h2 := hm.nitemsPos
    omega
  refine ⟨?_, ?_, hcurle, hfole, ?_, ?_, ?_, ?_⟩
  · rw [hblocks, flattenBlocks_append, List.append_assoc, hcons,
      ← List.append_assoc, hm.conserve, encStream_snoc]
  · rw [hblocks, countBlocks_append]
    have hnbn : countBlocks nb + res.nitems = w.nitems := by
      rcases hcase with ⟨hnb, hni, _, _⟩ | ⟨b0, brest, hnb, hb0n, _, hrest0, hni, _⟩
      · rw [hnb, hni]
        show 0 + w.nitems = w.nitems
        omega
      · rw [hnb, hni]
        show b0.nitems + countBlocks brest + 0 = w.nitems
        rw [hb0n, countBlocks_zero brest hrest0]
        omega
    have h1 := hm.counts
    rw [List.length_append]
    show countBlocks w.blocks + countBlocks nb + res.nitems = vs.length + [v].length
    show countBlocks w.blocks + countBlocks nb + res.nitems = vs.length + 1
    omega
  · intro b hb
    rw [hblocks] at hb
    rcases List.mem_append.mp hb with hb | hb
    · exact hm.blockFull b hb
    · exact hfull b hb
  · intro i hi hni
    rw [hblocks] at hi hni ⊢
    by_cases hlt : i < w.blocks.length
    · rw [blkAt_append_left _ _ _ hlt] at hni ⊢
      obtain ⟨h1, h2⟩ := hm.blockSuffix i hlt hni
      refine ⟨h1, ?_⟩
      have hib : itemsBeforeW w.blocks i ≤ vs.length :=
        Nat.le_trans (itemsBeforeW_le _ _) hcle
      rw [suffixAt_append_left _ _ _ hlt, itemsBeforeW_append_left _ _ _
        (Nat.le_of_lt hlt), List.drop_append_of_le_length hib, encStream_snoc,
        List.append_assoc, hcons, ← List.append_assoc, h2]
    · rcases hcase with ⟨hnb, hni2, hfo2, hcur2⟩ |
        ⟨b0, brest, hnb, hb0n, hb0f, hrest0, hni2, hchain⟩
      · rw [hnb] at hi
        simp at hi
        omega
      · rw [hnb] at hi hni ⊢
        by_cases hj : i = w.blocks.length
        · subst hj
          have hba : blkAt (w.blocks ++ b0 :: brest) w.blocks.length = b0 := by
            rw [blkAt_append_right _ _ _ (Nat.le_refl _), Nat.sub_self]
            rfl
          rw [hba]
          refine ⟨?_, ?_⟩
          · rw [hb0f, hfull b0 (by rw [hnb]; simp)]
            have h1 := hm.foLe
            have h2 := hm.curLt
            omega
          · unfold suffixAt
            rw [hba]
            have hdrop : (w.blocks ++ b0 :: brest).drop (w.blocks.length + 1) =
                brest := by
              rw [List.drop_append 1]
              rfl
            rw [hdrop, List.append_assoc, hchain,
              itemsBeforeW_append_left _ _ _ (Nat.le_refl _)]
            have hib : itemsBeforeW w.blocks w.blocks.length =
                countBlocks w.blocks := by
              unfold itemsBeforeW
              rw [List.take_length]
            rw [hib, List.drop_append_of_le_length hcle, encStream_snoc,
              hm.pendingM]
        · have hj2 : w.blocks.length < i := by omega
          have hk : i - w.blocks.length = (i - w.blocks.length - 1) + 1 := by omega
          have hba : blkAt (w.blocks ++ b0 :: brest) i =
              blkAt brest (i - w.blocks.length - 1) := by
            rw [blkAt_append_right _ _ _ (Nat.le_of_lt hj2), hk]
            rfl
          rw [hba] at hni
          have hz : (blkAt brest (i - w.blocks.length - 1)).nitems = 0 := by
            by_cases hm2 : i - w.blocks.length - 1 < brest.length
            · unfold blkAt
              rw [List.getD_eq_get _ _ hm2]
              exact hrest0 _ (List.get_mem _ _ _)
            · unfold blkAt
              rw [List.getD_eq_default _ _ (Nat.le_of_not_lt hm2)]
          rw [hz] at hni
          exact absurd hni (Nat.lt_irrefl 0)
  · intro hpos
    rcases hcase with ⟨hnb, hni2, hfo2, hcur2⟩ | ⟨_, _, _, _, _, _, hni2, _⟩
    · rw [hcur2, hfo2, List.drop_append_of_le_length hm.foLe, hm.pendingM,
        hblocks, hnb, List.append_nil, List.drop_append_of_le_length hcle,
        encStream_snoc]
    · rw [hni2] at hpos
      exact absurd hpos (Nat.lt_irrefl 0)
  · intro _
    by_cases hbs : w.blocks = []
    · rcases hcase with ⟨hnb, hni2, _, _⟩ | ⟨b0, brest, hnb, hb0n, _, _, _, _⟩
      · right
        refine ⟨?_, ?_⟩
        · rw [hblocks, hbs, hnb]
          rfl
        · rw [hni2]
          exact hm.nitemsPos
      · left
        rw [hblocks, hbs, hnb]
        show 0 < b0.nitems
        rw [hb0n]
        exact hm.nitemsPos
    · left
      rw [hblocks, blkAt_append_left _ _ _ (List.length_pos.mpr hbs)]
      rcases hm.headM with h | ⟨h, _⟩
      · exact h
      · exact absurd h hbs

theorem appendItemW_winv (c : Codec T) (B : Nat) (hB : 0 < B) (w : WState)
    (vs : List T) (v : T) (hw : WInv c B w vs) :
    WInv c B (appendItemW c B w v) (vs ++ [v]) :=
  appendEnc_winv c B (markItemW B w) vs v (markItemW_minv c B hB w vs hw)

theorem wInit_winv (c : Codec T) (B : Nat) : WInv c B wInit [] := by
  refine ⟨rfl, rfl, ?_, Nat.le_refl _, ?_, ?_, ?_, ?_⟩
  · exact Nat.zero_le _
  · intro b hb
    cases hb
  · intro i hi
    simp [wInit] at hi
  · intro h
    exact absurd h (Nat.lt_irrefl 0)
  · intro h
    exact absurd rfl h

theorem foldl_appendItemW_winv (c : Codec T) (B : Nat) (hB : 0 < B) :
    ∀ (vs : List T) (w : WState) (vs0 : List T), WInv c B w vs0 →
      WInv c B (vs.foldl (appendItemW c B) w) (vs0 ++ vs) := by
  intro vs
  induction vs with
  | nil => intro w vs0 hw; simpa using hw
  | cons v vs ih =>
      intro w vs0 hw
      have h1 := appendItemW_winv c B hB w vs0 v hw
      have h2 := ih (appendItemW c B w v) (vs0 ++ [v]) h1
      show WInv c B (vs.foldl (appendItemW c B) (appendItemW c B w v)) (vs0 ++ v :: vs)
      rw [show vs0 ++ v :: vs = (vs0 ++ [v]) ++ vs by simp]
      exact h2

/-- Invariant of a closed `File` holding exactly the item sequence
`vs`. -/
structure FileInv (c : Codec T) (F : List WBlock) (vs : List T) : Prop where
  conserveF : flattenBlocks F = encStream c vs
  countsF : countBlocks F = vs.length
  suffixF : ∀ i, i < F.length → 0 < (blkAt F i).nitems →
    (blkAt F i).firstItem ≤ (blkAt F i).bytes.length ∧
    suffixAt F i = encStream c (vs.drop (itemsBeforeW F i))
  nonemptyF : ∀ b ∈ F, b.bytes ≠ []
  headF : vs ≠ [] → 0 < (blkAt F 0).nitems

theorem closeW_fileInv (c : Codec T) (B : Nat) (hB : 0 < B) (w : WState)
    (vs : List T) (hw : WInv c B w vs) : FileInv c (closeW w) vs := by
  unfold closeW
  by_cases hc : w.cur ≠ [] ∨ w.nitems ≠ 0
  · rw [if_pos hc]
    refine ⟨?_, ?_, ?_, ?_, ?_⟩
    · rw [flattenBlocks_append, flattenBlocks_single]
      exact hw.conserve
    · rw [countBlocks_append]
      have h := hw.counts
      show countBlocks w.blocks + (w.nitems + countBlocks []) = vs.length
      show countBlocks w.blocks + (w.nitems + 0) = vs.length
      omega
    · intro i hi hni
      by_cases hlt : i < w.blocks.length
      · rw [blkAt_append_left _ _ _ hlt] at hni ⊢
        obtain ⟨h1, h2⟩ := hw.blockSuffix i hlt hni
        refine ⟨h1, ?_⟩
        rw [suffixAt_append_left _ _ _ hlt, flattenBlocks_single,
          itemsBeforeW_append_left _ _ _ (Nat.le_of_lt hlt)]
        exact h2
      · have hieq : i = w.blocks.length := by
          have : (w.blocks ++
              [(⟨w.cur, w.firstOffset, w.nitems⟩ : WBlock)]).length =
              w.blocks.length + 1 := by simp
          rw [this] at hi
          omega
        subst hieq
        have hba : blkAt (w.blocks ++ [(⟨w.cur, w.firstOffset, w.nitems⟩ : WBlock)])
            w.blocks.length = ⟨w.cur, w.firstOffset, w.nitems⟩ := by
          rw [blkAt_append_right _ _ _ (Nat.le_refl _), Nat.sub_self]
          rfl
        rw [hba] at hni ⊢
        refine ⟨hw.foLe, ?_⟩
        unfold suffixAt
        rw [hba]
        have hdrop : (w.blocks ++
            [(⟨w.cur, w.firstOffset, w.nitems⟩ : WBlock)]).drop
            (w.blocks.length + 1) = [] :=
          List.drop_eq_nil_of_le (by simp)
        rw [hdrop]
        show w.cur.drop w.firstOffset ++ [] = _
        rw [List.append_nil, itemsBeforeW_append_left _ _ _ (Nat.le_refl _)]
        have hib : itemsBeforeW w.blocks w.blocks.length = countBlocks w.blocks := by
          unfold itemsBeforeW
          rw [List.take_length]
        rw [hib]
        exact hw.pending hni
    · intro b hb
      rcases List.mem_append.mp hb with hb | hb
      · intro h
        have := hw.blockFull b hb
        rw [h] at this
        simp at this
        omega
      · rw [List.mem_singleton.mp hb]
        show w.cur ≠ []
        intro h
        rcases hc with hc | hc
        · exact hc h
        · have := hw.pending (Nat.pos_of_ne_zero hc)
          rw [h] at this
          have hvc : countBlocks w.blocks < vs.length := by
            have := hw.counts
            omega
          have hne : vs.drop (countBlocks w.blocks) ≠ [] := by
            intro hd
            have := congrArg List.length hd
            rw [List.length_drop] at this
            simp at this
            omega
          cases hds : vs.drop (countBlocks w.blocks) with
          | nil => exact hne hds
          | cons a l =>
              rw [hds] at this
              exact encStream_ne_nil c a l (by
                have h2 := this.symm
                simpa using h2)
    · intro hvs
      by_cases hbs : w.blocks = []
      · rcases hw.headItems hvs with h | ⟨_, h⟩
        · rw [hbs] at h
          exact absurd h (by simp [blkAt])
        · rw [hbs]
          show 0 < w.nitems
          exact h
      · rw [blkAt_append_left _ _ _ (List.length_pos.mpr hbs)]
        exact winv_head c B hB w vs hw hbs
  · rw [if_neg hc]
    push_neg at hc
    obtain ⟨hcur, hni⟩ := hc
    have hcons : flattenBlocks w.blocks = encStream c vs := by
      have := hw.conserve
      rw [hcur, List.append_nil] at this
      exact this
    refine ⟨hcons, ?_, ?_, ?_, ?_⟩
    · have h := hw.counts
      omega
    · intro i hi hni2
      obtain ⟨h1, h2⟩ := hw.blockSuffix i hi hni2
      refine ⟨h1, ?_⟩
      rw [hcur, List.append_nil] at h2
      exact h2
    · intro b hb h
      have := hw.blockFull b hb
      rw [h] at this
      simp at this
      omega
    · intro hvs
      rcases hw.headItems hvs with h | ⟨hb0, hn0⟩
      · exact h
      · rw [hni] at hn0
        exact absurd hn0 (Nat.lt_irrefl 0)

theorem foldl_fileAppend (bs : List WBlock) :
    ∀ acc, (∀ b ∈ bs, b.bytes ≠ []) → bs.foldl fileAppend acc = acc ++ bs := by
  induction bs with
  | nil => intro acc _; simp
  | cons b bs ih =>
      intro acc h
      show bs.foldl fileAppend (fileAppend acc b) = acc ++ b :: bs
      have hb : b.bytes ≠ [] := h b (by simp)
      have hfa : fileAppend acc b = acc ++ [b] := by
        unfold fileAppend
        rw [if_neg (by rw [List.length_eq_zero]; exact hb)]
      rw [hfa, ih (acc ++ [b]) (fun b2 hb2 => h b2 (by simp [hb2]))]
      simp

theorem writeBlocks_fileInv (c : Codec T) (B : Nat) (hB : 0 < B) (vs : List T) :
    FileInv c (writeBlocks c B vs) vs := by
  unfold writeBlocks
  have h := foldl_appendItemW_winv c B hB vs wInit [] (wInit_winv c B)
  rw [List.nil_append] at h
  exact closeW_fileInv c B hB _ vs h

theorem writeFile_eq_writeBlocks (c : Codec T) (B : Nat) (hB : 0 < B)
    (vs : List T) : writeFile c B vs = writeBlocks c B vs := by
  unfold writeFile
  rw [foldl_fileAppend _ [] (writeBlocks_fileInv c B hB vs).nonemptyF,
    List.nil_append]

theorem writeFile_fileInv (c : Codec T) (B : Nat) (hB : 0 < B) (vs : List T) :
    FileInv c (writeFile c B vs) vs := by
  rw [writeFile_eq_writeBlocks c B hB vs]
  exact writeBlocks_fileInv c B hB vs

/-! ### Reader lemmas -/

theorem hasNextAux_step (cur : List Nat) (views : List (List Nat × Nat))
    (nitems : Nat) :
    hasNextAux cur views nitems =
      if cur ≠ [] then some ⟨views, cur, nitems⟩
      else
        match views with
        | [] => none
        | (d, m) :: rest => hasNextAux d rest m := by
  cases views with
  | nil => rfl
  | cons dv rest => rfl

theorem readBytesAux_step (n : Nat) (cur : List Nat)
    (views : List (List Nat × Nat)) (nitems : Nat) :
    readBytesAux n cur views nitems =
      if cur.length < n then
        match views with
        | [] => none
        | (d, m) :: rest => readBytesAux (n - cur.length) d rest m
      else some ⟨views, cur.drop n, nitems⟩ := by
  cases views with
  | nil => rfl
  | cons dv rest => rfl

theorem lbAux_cons (b : WBlock) (rest : List WBlock) (k : Nat) :
    lbAux (b :: rest) k =
      if k ≤ b.nitems then some (0, 0)
      else
        match lbAux rest (k - b.nitems) with
        | none => none
        | some (i, ib) => some (i + 1, ib + b.nitems) := rfl

theorem hasNextAux_flat :
    ∀ (views : List (List Nat × Nat)) (cur : List Nat) (nitems : Nat)
      (r1 : RState), hasNextAux cur views nitems = some r1 →
      flatR r1 = cur ++ flatViews views := by
  intro views
  induction views with
  | nil =>
      intro cur nitems r1 h
      rw [hasNextAux_step] at h
      by_cases hc : cur ≠ []
      · rw [if_pos hc] at h
        have h2 := Option.some.inj h
        subst h2
        rfl
      · rw [if_neg hc] at h
        simp at h
  | cons dv rest ih =>
      intro cur nitems r1 h
      obtain ⟨d, m⟩ := dv
      rw [hasNextAux_step] at h
      by_cases hc : cur ≠ []
      · rw [if_pos hc] at h
        have h2 := Option.some.inj h
        subst h2
        rfl
      · rw [if_neg hc] at h
        rw [not_not] at hc
        subst hc
        show flatR r1 = [] ++ (d ++ flatViews rest)
        rw [List.nil_append]
        exact ih d m r1 h

theorem hasNextAux_none :
    ∀ (views : List (List Nat × Nat)) (cur : List Nat) (nitems : Nat),
      hasNextAux cur views nitems = none → cur ++ flatViews views = [] := by
  intro views
  induction views with
  | nil =>
      intro cur nitems h
      rw [hasNextAux_step] at h
      by_cases hc : cur ≠ []
      · rw [if_pos hc] at h
        simp at h
      · rw [not_not] at hc
        subst hc
        rfl
  | cons dv rest ih =>
      intro cur nitems h
      obtain ⟨d, m⟩ := dv
      rw [hasNextAux_step] at h
      by_cases hc : cur ≠ []
      · rw [if_pos hc] at h
        simp at h
      · rw [if_neg hc] at h
        rw [not_not] at hc
        subst hc
        show [] ++ (d ++ flatViews rest) = []
        rw [List.nil_append]
        exact ih d m h

theorem hasNextAux_of_nil :
    ∀ (views : List (List Nat × Nat)) (cur : List Nat) (nitems : Nat),
      cur ++ flatViews views = [] → hasNextAux cur views nitems = none := by
  intro views
  induction views with
  | nil =>
      intro cur nitems h
      have hc : cur = [] := (List.append_eq_nil.mp h).1
      subst hc
      rfl
  | cons dv rest ih =>
      intro cur nitems h
      obtain ⟨d, m⟩ := dv
      have hc : cur = [] := (List.append_eq_nil.mp h).1
      subst hc
      have h2 : d ++ flatViews rest = [] := by
        have := (List.append_eq_nil.mp h).2
        exact this
      rw [hasNextAux_step, if_neg (by simp)]
      exact ih d m h2

theorem readBytesAux_spec :
    ∀ (views : List (List Nat × Nat)) (cur : List Nat) (n nitems : Nat),
      n ≤ (cur ++ flatViews views).length →
      ∃ r', readBytesAux n cur views nitems = some r' ∧
        flatR r' = (cur ++ flatViews views).drop n := by
  intro views
  induction views with
  | nil =>
      intro cur n nitems h
      have h' : n ≤ cur.length := by simpa [flatViews] using h
      have hnc : ¬cur.length < n := Nat.not_lt.mpr h'
      refine ⟨⟨[], cur.drop n, nitems⟩, ?_, ?_⟩
      · rw [readBytesAux_step, if_neg hnc]
      · show cur.drop n ++ [] = (cur ++ flatViews []).drop n
        rw [List.append_nil]
        show cur.drop n = (cur ++ []).drop n
        rw [List.append_nil]
  | cons dv rest ih =>
      intro cur n nitems h
      obtain ⟨d, m⟩ := dv
      by_cases hc : cur.length < n
      · have hlen : (cur ++ flatViews ((d, m) :: rest)).length =
            cur.length + (d ++ flatViews rest).length := by
          show (cur ++ (d ++ flatViews rest)).length = _
          rw [List.length_append]
        have h2 : n - cur.length ≤ (d ++ flatViews rest).length := by
          rw [hlen] at h
          omega
        obtain ⟨r', heq, hflat⟩ := ih d (n - cur.length) m h2
        refine ⟨r', ?_, ?_⟩
        · rw [readBytesAux_step, if_pos hc]
          exact heq
        · rw [hflat]
          show (d ++ flatViews rest).drop (n - cur.length) =
            (cur ++ (d ++ flatViews rest)).drop n
          rw [show n = cur.length + (n - cur.length) by omega, List.drop_append,
            Nat.add_sub_cancel_left]
      · refine ⟨⟨(d, m) :: rest, cur.drop n, nitems⟩, ?_, ?_⟩
        · rw [readBytesAux_step, if_neg hc]
        · show cur.drop n ++ flatViews ((d, m) :: rest) =
            (cur ++ flatViews ((d, m) :: rest)).drop n
          rw [List.drop_append_of_le_length (Nat.not_lt.mp hc)]

theorem nextR_spec (c : Codec T) (r : RState) (v : T) (rest : List Nat)
    (hflat : flatR r = c.enc v ++ rest) :
    ∃ r', nextR c r = some (v, r') ∧ flatR r' = rest := by
  have hne : r.cur ++ flatViews r.views ≠ [] := by
    show flatR r ≠ []
    rw [hflat]
    intro h
    exact c.enc_ne v (List.append_eq_nil.mp h).1
  cases hh : hasNextAux r.cur r.views r.nitems with
  | none => exact absurd (hasNextAux_none _ _ _ hh) hne
  | some r1 =>
      have hflat1 : flatR r1 = c.enc v ++ rest := by
        rw [hasNextAux_flat _ _ _ _ hh]
        exact hflat
      have hdec : c.dec (flatR r1) = some (v, (c.enc v).length) := by
        rw [hflat1]
        exact c.dec_enc v rest
      have hlen : (c.enc v).length ≤ (r1.cur ++ flatViews r1.views).length := by
        show (c.enc v).length ≤ (flatR r1).length
        rw [hflat1, List.length_append]
        omega
      obtain ⟨r2, heq2, hflat2⟩ :=
        readBytesAux_spec r1.views r1.cur (c.enc v).length (r1.nitems - 1) hlen
      refine ⟨r2, ?_, ?_⟩
      · simp only [nextR, hh, hdec, heq2]
      · rw [hflat2]
        show (flatR r1).drop (c.enc v).length = rest
        rw [hflat1, List.drop_left]

theorem readCompleteR_spec (c : Codec T) :
    ∀ (vs : List T) (r : RState), flatR r = encStream c vs →
      readCompleteR c (vs.length + 1) r = some vs := by
  intro vs
  induction vs with
  | nil =>
      intro r hflat
      have hn : hasNextAux r.cur r.views r.nitems = none :=
        hasNextAux_of_nil _ _ _ (by rw [show r.cur ++ flatViews r.views = flatR r from rfl, hflat]; rfl)
      show readCompleteR c 1 r = some []
      unfold readCompleteR
      rw [hn]
  | cons v vs ih =>
      intro r hflat
      have hflat2 : flatR r = c.enc v ++ encStream c vs := hflat
      obtain ⟨r2, heq, hf2⟩ := nextR_spec c r v (encStream c vs) hflat2
      have hne : r.cur ++ flatViews r.views ≠ [] := by
        show flatR r ≠ []
        rw [hflat2]
        intro h
        exact c.enc_ne v (List.append_eq_nil.mp h).1
      cases hh : hasNextAux r.cur r.views r.nitems with
      | none => exact absurd (hasNextAux_none _ _ _ hh) hne
      | some r1 =>
          rw [List.length_cons]
          have hstep : readCompleteR c (vs.length + 1 + 1) r =
              match nextR c r with
              | none => none
              | some (v2, rx) =>
                match readCompleteR c (vs.length + 1) rx with
                | none => none
                | some vs2 => some (v2 :: vs2) := by
            show (match hasNextAux r.cur r.views r.nitems with
              | none => some []
              | some _ =>
                match nextR c r with
                | none => none
                | some (v2, rx) =>
                  match readCompleteR c (vs.length + 1) rx with
                  | none => none
                  | some vs2 => some (v2 :: vs2)) = _
            rw [hh]
          rw [hstep]
          simp only [heq, ih r2 hf2]

theorem flatViews_map (bs : List WBlock) :
    flatViews (bs.map fun b2 => (b2.bytes, b2.nitems)) = flattenBlocks bs := by
  induction bs with
  | nil => rfl
  | cons b rest ih =>
      show b.bytes ++ flatViews (rest.map fun b2 => (b2.bytes, b2.nitems)) =
        b.bytes ++ flattenBlocks rest
      rw [ih]

theorem flatViews_viewsFrom_zero (F : List WBlock) :
    flatViews (viewsFrom F 0 0) = flattenBlocks F := by
  cases F with
  | nil => rfl
  | cons b rest =>
      show b.bytes.drop 0 ++ flatViews (rest.map fun b2 => (b2.bytes, b2.nitems)) =
        b.bytes ++ flattenBlocks rest
      rw [List.drop_zero, flatViews_map]

theorem flatViews_viewsFrom (F : List WBlock) (bi fi : Nat) (h : bi < F.length) :
    flatViews (viewsFrom F bi fi) =
      (blkAt F bi).bytes.drop fi ++ flattenBlocks (F.drop (bi + 1)) := by
  have hdrop : F.drop bi = blkAt F bi :: F.drop (bi + 1) := by
    rw [List.drop_eq_getElem_cons h]
    congr 1
    unfold blkAt
    rw [List.getD_eq_getElem _ _ h]
  unfold viewsFrom
  rw [hdrop]
  show (blkAt F bi).bytes.drop fi ++
      flatViews ((F.drop (bi + 1)).map fun b2 => (b2.bytes, b2.nitems)) = _
  rw [flatViews_map]

/-! ### Seek lemmas -/

theorem lbAux_spec :
    ∀ (f : List WBlock) (k : Nat), k ≤ countBlocks f → f ≠ [] →
      ∃ bi ib, lbAux f k = some (bi, ib) ∧ bi < f.length ∧
        ib = itemsBeforeW f bi ∧ ib ≤ k ∧
        (0 < (blkAt f bi).nitems ∨ (bi = 0 ∧ k = 0)) := by
  intro f
  induction f with
  | nil => intro k _ hne; exact absurd rfl hne
  | cons b rest ih =>
      intro k hk _
      by_cases h : k ≤ b.nitems
      · refine ⟨0, 0, ?_, by simp, ?_, Nat.zero_le _, ?_⟩
        · rw [lbAux_cons, if_pos h]
        · rfl
        · by_cases hb0 : b.nitems = 0
          · right
            exact ⟨rfl, by omega⟩
          · left
            show 0 < b.nitems
            exact Nat.pos_of_ne_zero hb0
      · have hcnt : countBlocks (b :: rest) = b.nitems + countBlocks rest := rfl
        have hk' : k - b.nitems ≤ countBlocks rest := by omega
        have hne' : rest ≠ [] := by
          intro hr
          subst hr
          have h0 : countBlocks ([] : List WBlock) = 0 := rfl
          omega
        obtain ⟨bi, ib, heq, hlt, hib, hle, hpos⟩ := ih (k - b.nitems) hk' hne'
        refine ⟨bi + 1, ib + b.nitems, ?_, ?_, ?_, ?_, ?_⟩
        · rw [lbAux_cons, if_neg h, heq]
        · show bi + 1 < rest.length + 1
          omega
        · show ib + b.nitems = countBlocks ((b :: rest).take (bi + 1))
          show ib + b.nitems = countBlocks (b :: rest.take bi)
          show ib + b.nitems = b.nitems + countBlocks (rest.take bi)
          have : itemsBeforeW rest bi = countBlocks (rest.take bi) := rfl
          omega
        · omega
        · rcases hpos with h2 | ⟨_, hk0⟩
          · left
            show 0 < (blkAt rest bi).nitems
            exact h2
          · exfalso
            omega

theorem encStream_drop_fixed (c : Codec T) (s : Nat)
    (hs : ∀ v, (c.enc v).length = s) :
    ∀ (j : Nat) (xs : List T), j ≤ xs.length →
      (encStream c xs).drop (j * s) = encStream c (xs.drop j) := by
  intro j
  induction j with
  | zero => intro xs _; rw [Nat.zero_mul, List.drop_zero, List.drop_zero]
  | succ j ih =>
      intro xs hj
      cases xs with
      | nil => simp at hj
      | cons x xs =>
          show (c.enc x ++ encStream c xs).drop ((j + 1) * s) = _
          have hlen : (j + 1) * s = (c.enc x).length + j * s := by
            rw [hs x]
            ring
          rw [hlen, List.drop_append]
          have hj2 : j ≤ xs.length := by
            rw [List.length_cons] at hj
            omega
          rw [ih xs hj2]
          rfl

theorem dropItems_spec (c : Codec T) :
    ∀ (j : Nat) (xs : List T) (r : RState),
      flatR r = encStream c xs → j ≤ xs.length →
      ∃ r', dropItems c j r = some r' ∧ flatR r' = encStream c (xs.drop j) := by
  intro j
  induction j with
  | zero =>
      intro xs r hflat _
      exact ⟨r, rfl, by rw [List.drop_zero]; exact hflat⟩
  | succ j ih =>
      intro xs r hflat hj
      cases xs with
      | nil => simp at hj
      | cons x xs =>
          have hflat2 : flatR r = c.enc x ++ encStream c xs := hflat
          obtain ⟨r2, heq, hf2⟩ := nextR_spec c r x (encStream c xs) hflat2
          have hne : r.cur ++ flatViews r.views ≠ [] := by
            show flatR r ≠ []
            rw [hflat2]
            intro h
            exact c.enc_ne x (List.append_eq_nil.mp h).1
          cases hh : hasNextAux r.cur r.views r.nitems with
          | none => exact absurd (hasNextAux_none _ _ _ hh) hne
          | some r1 =>
              have hj2 : j ≤ xs.length := by
                rw [List.length_cons] at hj
                omega
              obtain ⟨r', heq', hf'⟩ := ih xs r2 hf2 hj2
              refine ⟨r', ?_, hf'⟩
              have hstep : dropItems c (j + 1) r =
                  match nextR c r with
                  | none => none
                  | some (_, rx) => dropItems c j rx := by
                show (match hasNextAux r.cur r.views r.nitems with
                  | none => none
                  | some _ =>
                    match nextR c r with
                    | none => none
                    | some (_, rx) => dropItems c j rx) = _
                rw [hh]
              rw [hstep]
              simp only [heq]
              exact heq'

theorem getReaderAt_spec (c : Codec T) (F : List WBlock) (vs : List T) (k : Nat)
    (hF : FileInv c F vs) (hk : k < vs.length) :
    ∃ r, getReaderAt c F k = some r ∧ flatR r = encStream c (vs.drop k) := by
  have hkc : k < countBlocks F := by rw [hF.countsF]; exact hk
  have hne : F ≠ [] := by
    intro h
    rw [h] at hkc
    have h0 : countBlocks ([] : List WBlock) = 0 := rfl
    omega
  obtain ⟨bi, ib, heq, hlt, hib, hle, hpos⟩ :=
    lbAux_spec F k (Nat.le_of_lt hkc) hne
  have hni : 0 < (blkAt F bi).nitems := by
    rcases hpos with h | ⟨hbi0, hk0⟩
    · exact h
    · subst hbi0
      apply hF.headF
      intro hv
      rw [hv] at hk
      simp at hk
  obtain ⟨hfi, hsuf⟩ := hF.suffixF bi hlt hni
  have hflat0 : flatViews (viewsFrom F bi (blkAt F bi).firstItem) =
      encStream c (vs.drop ib) := by
    rw [flatViews_viewsFrom F bi _ hlt, hib]
    exact hsuf
  have hdd : (vs.drop ib).drop (k - ib) = vs.drop k := by
    rw [List.drop_drop]
    congr 1
    omega
  have hred : getReaderAt c F k =
      (if c.isFixedSize then
        skipR ⟨viewsFrom F bi (blkAt F bi).firstItem, [], 0⟩ (k - ib)
          ((k - ib) * c.fixedSize)
      else dropItems c (k - ib) ⟨viewsFrom F bi (blkAt F bi).firstItem, [], 0⟩) := by
    unfold getReaderAt
    rw [heq]
  rw [hred]
  by_cases hfix : c.isFixedSize
  · rw [if_pos hfix]
    have hs := c.fixed_len hfix
    have hkl : k - ib ≤ (vs.drop ib).length := by
      rw [List.length_drop]
      omega
    have hlenf : (k - ib) * c.fixedSize ≤
        (([] : List Nat) ++
          flatViews (viewsFrom F bi (blkAt F bi).firstItem)).length := by
      rw [List.nil_append, hflat0, encStream_length_fixed c c.fixedSize hs]
      exact Nat.mul_le_mul_right _ hkl
    obtain ⟨r', heqr, hfr⟩ :=
      readBytesAux_spec (viewsFrom F bi (blkAt F bi).firstItem) []
        ((k - ib) * c.fixedSize) (0 - (k - ib)) hlenf
    refine ⟨r', ?_, ?_⟩
    · show readBytesAux ((k - ib) * c.fixedSize) []
        (viewsFrom F bi (blkAt F bi).firstItem) (0 - (k - ib)) = some r'
      exact heqr
    · rw [hfr, List.nil_append, hflat0,
        encStream_drop_fixed c c.fixedSize hs (k - ib) (vs.drop ib) hkl, hdd]
  · rw [if_neg hfix]
    have hflatr0 : flatR ⟨viewsFrom F bi (blkAt F bi).firstItem, [], 0⟩ =
        encStream c (vs.drop ib) := by
      show [] ++ flatViews (viewsFrom F bi (blkAt F bi).firstItem) = _
      rw [List.nil_append, hflat0]
    have hkl : k - ib ≤ (vs.drop ib).length := by
      rw [List.length_drop]
      omega
    obtain ⟨r', heqr, hfr⟩ := dropItems_spec c (k - ib) (vs.drop ib) _ hflatr0 hkl
    refine ⟨r', heqr, ?_⟩
    rw [hfr, hdd]

/-- C2: Reader/Writer round-trip.  For every item sequence, every codec
satisfying the serialization laws and every positive block size
(including sizes that make items straddle block boundaries), writing
the items through a `BlockWriter` into a `File` and reading them back
one by one with the reader's `Next` yields exactly the written
sequence in order. -/
theorem C2_reader_writer_roundtrip (c : Codec T) (B : Nat) (hB : 0 < B)
    (vs : List T) :
    readCompleteR c (vs.length + 1)
      ⟨viewsFrom (writeFile c B vs) 0 0, [], 0⟩ = some vs := by
  apply readCompleteR_spec
  show [] ++ flatViews (viewsFrom (writeFile c B vs) 0 0) = encStream c vs
  rw [List.nil_append, flatViews_viewsFrom_zero,
    (writeFile_fileInv c B hB vs).conserveF]

/-- C4: Seek correctness.  For every `File` into which `N` items were
written and every index `k < N`, `File::GetItemAt(k)` returns the
`k`-th written item - both when the item type is fixed-size (the
byte-skip fast path of `GetReaderAt`) and when it is variable-size
(the deserialize-and-drop path). -/
theorem C4_seek_correct (c : Codec T) (B : Nat) (hB : 0 < B) (vs : List T)
    (k : Nat) (hk : k < vs.length) :
    getItemAt c (writeFile c B vs) k = some (vs.get ⟨k, hk⟩) := by
  have hF := writeFile_fileInv c B hB vs
  obtain ⟨r, heq, hflat⟩ := getReaderAt_spec c (writeFile c B vs) vs k hF hk
  have hds : vs.drop k = vs.get ⟨k, hk⟩ :: vs.drop (k + 1) := by
    rw [List.drop_eq_getElem_cons hk]
    rfl
  have hflat2 : flatR r = c.enc (vs.get ⟨k, hk⟩) ++
      encStream c (vs.drop (k + 1)) := by
    rw [hflat, hds]
    rfl
  obtain ⟨r2, heq2, _⟩ := nextR_spec c r _ _ hflat2
  unfold getItemAt
  rw [heq]
  show (match nextR c r with
    | none => none
    | some (v, _) => some v) = some (vs.get ⟨k, hk⟩)
  rw [heq2]

/-- A variable-size test codec: value `n` is encoded as a length byte
followed by `n` filler bytes, so consecutive items have different sizes
and straddle block boundaries for small block sizes. -/
def vcodec : Codec Nat where
  enc := fun n => (n + 1) :: List.replicate n 7
  dec := fun l =>
    match l with
    | [] => none
    | b :: _ => if b = 0 then none else some (b - 1, b)
  isFixedSize := false
  fixedSize := 0
  enc_ne := fun v => by simp
  dec_enc := fun v rest => by simp
  fixed_len := fun h => by cases h

/-- A fixed-size test codec: one byte per value. -/
def fcodec : Codec Nat where
  enc := fun n => [n]
  dec := fun l =>
    match l with
    | [] => none
    | b :: _ => some (b, 1)
  isFixedSize := true
  fixedSize := 1
  enc_ne := fun v => by simp
  dec_enc := fun v rest => rfl
  fixed_len := fun _ v => rfl

theorem C2_reader_writer_roundtrip_witness :
    0 < 2 ∧ readCompleteR vcodec ([0, 1, 2, 3].length + 1)
      ⟨viewsFrom (writeFile vcodec 2 [0, 1, 2, 3]) 0 0, [], 0⟩ =
        some [0, 1, 2, 3] :=
  ⟨by decide, C2_reader_writer_roundtrip vcodec 2 (by decide) [0, 1, 2, 3]⟩

theorem C4_seek_correct_witness :
    (0 < 2 ∧ 2 < [5, 6, 7, 8].length ∧
      getItemAt vcodec (writeFile vcodec 2 [5, 6, 7, 8]) 2 =
        some ([5, 6, 7, 8].get ⟨2, by decide⟩)) ∧
    (0 < 3 ∧ 1 < [10, 20, 30].length ∧
      getItemAt fcodec (writeFile fcodec 3 [10, 20, 30]) 1 =
        some ([10, 20, 30].get ⟨1, by decide⟩)) :=
  ⟨⟨by decide, by decide,
    C4_seek_correct vcodec 2 (by decide) [5, 6, 7, 8] 2 (by decide)⟩,
   ⟨by decide, by decide,
    C4_seek_correct fcodec 3 (by decide) [10, 20, 30] 1 (by decide)⟩⟩

end Thrill
